import Mathlib

/-!
# Verification of the local-context-agent ingestion core

A shallow embedding, in Lean 4, of the change-detection, normalization,
chunking, embedding-batching and retry logic of the repository, together
with theorems settling the frozen claims about it.

Modelling conventions:
* Python strings are modelled as `List Char` (with `String` wrappers where
  convenient); Python slicing/`strip`/`find` are re-implemented faithfully.
* Python ints are unbounded, so `Nat`/`Int` are used directly.
* External library calls at the boundary of the embedded code
  (the OpenAI embedding call, the Chroma collection handle and its
  `upsert`, `random.random`, `time.sleep`) are modelled as explicit
  oracles/events; `unicodedata.normalize("NFC", ·)` is modelled as the
  identity (the string model ranges over NFC-canonical text; NFC is
  idempotent by the Unicode standard).
* Two float constants of the source (the `1.1` oversize factor and the
  `0.6` sentence-loss factor) are modelled as exact rationals via
  cross-multiplication; no integer input distinguishes the two readings
  for the default parameters.
-/

namespace LCA

/-! ## Python string primitives -/

/-- Python `str.strip()` whitespace (Unicode whitespace: ASCII whitespace
plus NBSP and the Unicode space/line separators). -/
def pyWs (c : Char) : Bool :=
  c = ' ' || c = '\t' || c = '\n' || c = '\r' ||
  c = Char.ofNat 11 || c = Char.ofNat 12 ||
  c = Char.ofNat 0xa0 || c = Char.ofNat 0x1c || c = Char.ofNat 0x1d ||
  c = Char.ofNat 0x1e || c = Char.ofNat 0x1f || c = Char.ofNat 0x85 ||
  c = Char.ofNat 0x1680 || (0x2000 ≤ c.toNat && c.toNat ≤ 0x200a) ||
  c = Char.ofNat 0x2028 || c = Char.ofNat 0x2029 || c = Char.ofNat 0x202f ||
  c = Char.ofNat 0x205f || c = Char.ofNat 0x3000

/-- Python `str.strip()` on a character list: drop leading and trailing
whitespace. -/
def pyStrip (cs : List Char) : List Char :=
  List.rdropWhile pyWs (cs.dropWhile pyWs)

/-- Python `str.strip()` on `String`. -/
def pyStripS (s : String) : String :=
  ⟨pyStrip s.toList⟩

theorem dropWhile_rdropWhile_of_dropWhile_eq_self {p : Char → Bool}
    {l : List Char} (h : l.dropWhile p = l) :
    (List.rdropWhile p l).dropWhile p = List.rdropWhile p l := by
  cases hrd : List.rdropWhile p l with
  | nil => simp
  | cons c t' =>
    obtain ⟨t, ht⟩ := List.rdropWhile_prefix p l
    rw [hrd] at ht
    have hl : l = c :: (t' ++ t) := by rw [← ht]; simp
    rw [hl, List.dropWhile_cons] at h
    have hc : p c = false := by
      cases hpc : p c with
      | false => rfl
      | true =>
        rw [hpc, if_pos rfl] at h
        have := congrArg List.length h
        have hsuf := (List.dropWhile_suffix (l := t' ++ t) p).length_le
        simp at this hsuf
        omega
    simp [List.dropWhile_cons, hc]

theorem pyStrip_idem (cs : List Char) : pyStrip (pyStrip cs) = pyStrip cs := by
  unfold pyStrip
  rw [dropWhile_rdropWhile_of_dropWhile_eq_self (List.dropWhile_idempotent pyWs cs),
    List.rdropWhile_idempotent]

/-- A stripped, non-empty list stays non-empty after `take n` (`n ≥ 1`)
followed by `strip`: its head is not whitespace and survives. -/
theorem pyStrip_take_ne_nil {t : List Char} (ht : pyStrip t = t)
    (hne : t ≠ []) {n : Nat} (hn : 1 ≤ n) : pyStrip (t.take n) ≠ [] := by
  obtain ⟨c, rest, rfl⟩ := List.exists_cons_of_ne_nil hne
  have hc : pyWs c = false := by
    unfold pyStrip at ht
    by_contra hcb
    have hc' : pyWs c = true := by
      cases h : pyWs c with
      | false => exact absurd h hcb
      | true => rfl
    have h1 : (c :: rest).dropWhile pyWs = rest.dropWhile pyWs := by
      simp [List.dropWhile_cons, hc']
    have h2 : List.rdropWhile pyWs (rest.dropWhile pyWs) = c :: rest := by
      rw [← h1]; exact ht
    have hlen : (List.rdropWhile pyWs (rest.dropWhile pyWs)).length ≤ rest.length := by
      calc (List.rdropWhile pyWs (rest.dropWhile pyWs)).length
          ≤ (rest.dropWhile pyWs).length :=
            (List.rdropWhile_prefix _ _).length_le
        _ ≤ rest.length := (List.dropWhile_suffix _).length_le
    rw [h2] at hlen
    simp at hlen
  cases n with
  | zero => omega
  | succ m =>
    intro hcon
    unfold pyStrip at hcon
    have hdw : ((c :: rest).take (m + 1)).dropWhile pyWs = c :: rest.take m := by
      simp [List.dropWhile_cons, hc]
    rw [hdw, List.rdropWhile_eq_nil_iff] at hcon
    have := hcon c (by simp)
    rw [hc] at this
    exact Bool.false_ne_true this

/-! ## `split_by_chars` (src/backend/app/ingest/chunking.py) -/

/-- The `while i < n` loop of `split_by_chars`, with explicit fuel (the
Python loop terminates only when `max_chars > overlap`; the fuel is shown
sufficient in that case).  `j = min(i + max_chars, n)` and `text[i:j]` is
`(text.drop i).take (j - i)`. -/
def splitByCharsGo (text : List Char) (maxChars overlap : Nat) :
    Nat → Nat → List (List Char)
  | _, 0 => []
  | i, fuel + 1 =>
    if i < text.length then
      if min (i + maxChars) text.length = text.length then
        [(text.drop i).take (min (i + maxChars) text.length - i)]
      else
        (text.drop i).take (min (i + maxChars) text.length - i) ::
          splitByCharsGo text maxChars overlap
            (min (i + maxChars) text.length - overlap) fuel
    else []

/-- `split_by_chars(text, max_chars=1200, overlap=120)` from
`src/backend/app/ingest/chunking.py`.  `i = max(0, j - overlap)` is the
truncated subtraction `j - overlap` on `Nat`, which agrees with Python's
`max(0, ·)`. -/
def split_by_chars (text : List Char) (maxChars : Nat := 1200)
    (overlap : Nat := 120) : List (List Char) :=
  if text = [] then []
  else splitByCharsGo text maxChars overlap 0 (text.length + 1)

theorem splitByCharsGo_head (text : List Char) (m o i fuel : Nat)
    (hi : i < text.length) (hf : 1 ≤ fuel) :
    ∃ rest, splitByCharsGo text m o i fuel = (text.drop i).take m :: rest := by
  cases fuel with
  | zero => omega
  | succ f =>
    simp only [splitByCharsGo]
    rw [if_pos hi]
    have hpiece : (text.drop i).take (min (i + m) text.length - i) =
        (text.drop i).take m := by
      rw [List.take_eq_take]
      simp only [List.length_drop]
      omega
    by_cases hj : min (i + m) text.length = text.length
    · exact ⟨[], by rw [if_pos hj, hpiece]⟩
    · exact ⟨_, by rw [if_neg hj, hpiece]⟩

theorem splitByCharsGo_recon (text : List Char) (m o : Nat) (hom : o < m) :
    ∀ fuel i, i < text.length → text.length - i ≤ fuel →
    ∀ a rest, splitByCharsGo text m o i fuel = a :: rest →
    a ++ (rest.map (fun c => c.drop o)).flatten = text.drop i := by
  intro fuel
  induction fuel with
  | zero => intro i hi hf; omega
  | succ f ih =>
    intro i hi hf a rest heq
    simp only [splitByCharsGo] at heq
    rw [if_pos hi] at heq
    by_cases hj : min (i + m) text.length = text.length
    · rw [if_pos hj] at heq
      injection heq with h1 h2
      subst h1; subst h2
      have : min (i + m) text.length - i = (text.drop i).length := by
        simp only [List.length_drop]; omega
      rw [this, List.take_length]
      simp
    · rw [if_neg hj] at heq
      have him : i + m < text.length := by omega
      have hmin : min (i + m) text.length = i + m := by omega
      injection heq with h1 h2
      have hi' : i + m - o < text.length := by omega
      have hf' : text.length - (i + m - o) ≤ f := by omega
      have hf1 : 1 ≤ f := by omega
      obtain ⟨rest', hrest'⟩ := splitByCharsGo_head text m o (i + m - o) f hi' hf1
      rw [hmin] at h2
      have hIH := ih (i + m - o) hi' hf' _ _ hrest'
      have hr : rest = (text.drop (i + m - o)).take m :: rest' := by
        rw [← h2, hrest']
      subst h1
      rw [hr]
      simp only [List.map_cons, List.flatten_cons, hmin]
      have hxm : i + m - i = m := by omega
      rw [hxm]
      have hsplit : text.drop i =
          (text.drop i).take m ++ text.drop (i + m) := by
        conv_lhs => rw [← List.take_append_drop m (text.drop i)]
        rw [List.drop_drop]
      conv_rhs => rw [hsplit]
      congr 1
      -- remains: ((drop i' t).take m).drop o ++ flatten = drop (i + m) t
      have hdropIH := congrArg (List.drop o) hIH
      have hlen : o ≤ ((text.drop (i + m - o)).take m).length := by
        simp only [List.length_take, List.length_drop]
        omega
      rw [List.drop_append_of_le_length hlen] at hdropIH
      rw [List.drop_drop] at hdropIH
      have h7 : i + m - o + o = i + m := by omega
      rw [h7] at hdropIH
      exact hdropIH

theorem splitByCharsGo_lengths (text : List Char) (m o : Nat) (hom : o < m) :
    ∀ fuel i, i < text.length → text.length - i ≤ fuel →
    ∀ c ∈ (splitByCharsGo text m o i fuel).dropLast, c.length = m := by
  intro fuel
  induction fuel with
  | zero => intro i hi hf; omega
  | succ f ih =>
    intro i hi hf c hc
    simp only [splitByCharsGo] at hc
    rw [if_pos hi] at hc
    by_cases hj : min (i + m) text.length = text.length
    · rw [if_pos hj] at hc
      simp at hc
    · rw [if_neg hj] at hc
      have him : i + m < text.length := by omega
      have hmin : min (i + m) text.length = i + m := by omega
      have hi' : i + m - o < text.length := by omega
      have hf' : text.length - (i + m - o) ≤ f := by omega
      have hf1 : 1 ≤ f := by omega
      obtain ⟨rest', hrest'⟩ := splitByCharsGo_head text m o (i + m - o) f hi' hf1
      rw [hmin] at hc
      rw [hrest'] at hc
      rw [List.dropLast_cons_of_ne_nil (by simp)] at hc
      rcases List.mem_cons.1 hc with h | h
      · subst h
        simp only [List.length_take, List.length_drop]
        omega
      · rw [← hrest'] at h
        exact ih (i + m - o) hi' hf' c h

theorem splitByCharsGo_adj (text : List Char) (m o : Nat) (hom : o < m) :
    ∀ fuel i, i < text.length → text.length - i ≤ fuel →
    ∀ pre a b post, splitByCharsGo text m o i fuel = pre ++ a :: b :: post →
    b.take o = a.drop (m - o) := by
  intro fuel
  induction fuel with
  | zero => intro i hi hf; omega
  | succ f ih =>
    intro i hi hf pre a b post heq
    simp only [splitByCharsGo] at heq
    rw [if_pos hi] at heq
    by_cases hj : min (i + m) text.length = text.length
    · rw [if_pos hj] at heq
      have := congrArg List.length heq
      simp at this
      omega
    · rw [if_neg hj] at heq
      have him : i + m < text.length := by omega
      have hmin : min (i + m) text.length = i + m := by omega
      have hi' : i + m - o < text.length := by omega
      have hf' : text.length - (i + m - o) ≤ f := by omega
      have hf1 : 1 ≤ f := by omega
      rw [hmin] at heq
      cases pre with
      | cons p pre' =>
        rw [List.cons_append] at heq
        injection heq with h1 h2
        exact ih (i + m - o) hi' hf' pre' a b post h2
      | nil =>
        rw [List.nil_append] at heq
        injection heq with h1 h2
        obtain ⟨rest', hrest'⟩ := splitByCharsGo_head text m o (i + m - o) f hi' hf1
        rw [hrest'] at h2
        injection h2 with h3 h4
        subst h1; subst h3
        -- both sides are `take o (drop (i + m - o) text)`
        have hxm : i + m - i = m := by omega
        rw [hxm]
        rw [List.take_take]
        have hmo : min o m = o := by omega
        rw [hmo]
        rw [List.drop_take]
        have h5 : m - (m - o) = o := by omega
        rw [h5, List.drop_drop]
        have h6 : i + (m - o) = i + m - o := by omega
        rw [h6]

theorem split_by_chars_nil (m o : Nat) : split_by_chars [] m o = [] := rfl

/-- **C9**.  For every non-empty `text` and parameters `max_chars > overlap ≥ 0`,
`split_by_chars` returns chunks where (i) the first chunk starts at offset 0
(it is `text.take max_chars`); (ii) every chunk except possibly the last has
exactly `max_chars` characters; (iii) each subsequent chunk begins exactly
`overlap` characters before the end of the previous one (its first `overlap`
characters are the previous chunk's last `overlap` characters); (iv)
concatenating the first chunk with each later chunk minus its first `overlap`
characters reconstructs `text`; and (v) empty input yields the empty list. -/
theorem split_by_chars_spec (text : List Char) (m o : Nat)
    (hne : text ≠ []) (hom : o < m) :
    (split_by_chars text m o ≠ [] ∧
      (split_by_chars text m o).headI = text.take m) ∧
    (∀ c ∈ (split_by_chars text m o).dropLast, c.length = m) ∧
    (∀ pre a b post, split_by_chars text m o = pre ++ a :: b :: post →
      b.take o = a.drop (m - o)) ∧
    (∀ a rest, split_by_chars text m o = a :: rest →
      a ++ (rest.map (fun c => c.drop o)).flatten = text) ∧
    split_by_chars [] m o = [] := by
  have hn : 0 < text.length := List.length_pos.2 hne
  have hfuel : text.length - 0 ≤ text.length + 1 := by omega
  unfold split_by_chars
  rw [if_neg hne]
  obtain ⟨rest, hrest⟩ :=
    splitByCharsGo_head text m o 0 (text.length + 1) hn (by omega)
  refine ⟨⟨by rw [hrest]; simp, by rw [hrest]; simp⟩,
    fun c hc => splitByCharsGo_lengths text m o hom _ 0 hn hfuel c hc,
    fun pre a b post h => splitByCharsGo_adj text m o hom _ 0 hn hfuel pre a b post h,
    fun a r h => by
      have := splitByCharsGo_recon text m o hom _ 0 hn hfuel a r h
      simpa using this,
    rfl⟩

/-- Witness for `split_by_chars_spec` at `text = "abcde"`, `max_chars = 3`,
`overlap = 1`. -/
theorem split_by_chars_spec_witness :
    ((split_by_chars ['a', 'b', 'c', 'd', 'e'] 3 1 ≠ [] ∧
      (split_by_chars ['a', 'b', 'c', 'd', 'e'] 3 1).headI =
        ['a', 'b', 'c', 'd', 'e'].take 3) ∧
    (∀ c ∈ (split_by_chars ['a', 'b', 'c', 'd', 'e'] 3 1).dropLast,
      c.length = 3) ∧
    (∀ pre a b post,
      split_by_chars ['a', 'b', 'c', 'd', 'e'] 3 1 = pre ++ a :: b :: post →
      b.take 1 = a.drop (3 - 1)) ∧
    (∀ a rest, split_by_chars ['a', 'b', 'c', 'd', 'e'] 3 1 = a :: rest →
      a ++ (rest.map (fun c => c.drop 1)).flatten = ['a', 'b', 'c', 'd', 'e']) ∧
    split_by_chars [] 3 1 = []) :=
  split_by_chars_spec ['a', 'b', 'c', 'd', 'e'] 3 1 (by decide) (by decide)

/-! ## `normalize_text` / `compute_content_hash`
(src/app/ingest/text_normalize.py)

The regex substitutions are implemented as left-to-right scans exactly as
`re.sub` applies them.  `unicodedata.normalize("NFC", ·)` is an external
library call modelled as the identity: the model's strings range over
NFC-canonical text (NFC is idempotent by the Unicode standard and none of
the characters manipulated below is altered by NFC). -/

/-- The character class `[ \t]` of `_WHITESPACE_RUN` / `_TRAILING_WS`. -/
def isHT (c : Char) : Bool := c = ' ' || c = '\t'

/-- U+00A0 NO-BREAK SPACE. -/
def nbspChar : Char := Char.ofNat 0xa0

/-- `txt.replace(" ", " ")` character map. -/
def nbspToSpace (c : Char) : Char := if c = nbspChar then ' ' else c

/-- The character class `[​-‍﻿]` of `_ZERO_WIDTH`. -/
def isZeroWidth (c : Char) : Bool :=
  (0x200b ≤ c.toNat && c.toNat ≤ 0x200d) || c = Char.ofNat 0xfeff

/-- `_CRLF.sub("\n", txt)` with `_CRLF = re.compile(r"\r\n?")`. -/
def subCRLF : List Char → List Char
  | [] => []
  | '\r' :: '\n' :: rest => '\n' :: subCRLF rest
  | '\r' :: rest => '\n' :: subCRLF rest
  | c :: rest => c :: subCRLF rest

/-- `_WHITESPACE_RUN.sub(" ", txt)` with pattern `[ \t]+`: each maximal
horizontal-whitespace run becomes a single space. -/
def subWsRun : List Char → List Char
  | [] => []
  | c :: rest =>
    if isHT c then ' ' :: subWsRun (rest.dropWhile isHT)
    else c :: subWsRun rest
termination_by cs => cs.length
decreasing_by
  · simp only [List.length_cons]
    have := (List.dropWhile_suffix isHT (l := rest)).length_le
    omega
  · simp

/-- `_TRAILING_WS.sub("\n", txt)` with pattern `[ \t]+\n`: a maximal
horizontal-whitespace run immediately followed by a newline is replaced by
the newline (matches elsewhere in a run are impossible, so a run not
followed by a newline is emitted unchanged). -/
def subTrailWs : List Char → List Char
  | [] => []
  | c :: rest =>
    if isHT c then
      match hd : rest.dropWhile isHT with
      | '\n' :: tail => '\n' :: subTrailWs tail
      | _ => (c :: rest.takeWhile isHT) ++ subTrailWs (rest.dropWhile isHT)
    else c :: subTrailWs rest
termination_by cs => cs.length
decreasing_by
  · simp only [List.length_cons]
    have h1 := (List.dropWhile_suffix isHT (l := rest)).length_le
    have h2 : (rest.dropWhile isHT).length = tail.length + 1 := by
      rw [hd]; simp
    omega
  · simp only [List.length_cons]
    have := (List.dropWhile_suffix isHT (l := rest)).length_le
    omega
  · simp

/-- `_BLANK_LINES.sub("\n\n", txt)` with pattern `\n{3,}`: each maximal
newline run of length ≥ 3 becomes exactly two newlines. -/
def subBlankLines : List Char → List Char
  | [] => []
  | c :: rest =>
    if c = '\n' then
      if 3 ≤ 1 + (rest.takeWhile (fun x => x = '\n')).length then
        '\n' :: '\n' :: subBlankLines (rest.dropWhile (fun x => x = '\n'))
      else
        (c :: rest.takeWhile (fun x => x = '\n')) ++
          subBlankLines (rest.dropWhile (fun x => x = '\n'))
    else c :: subBlankLines rest
termination_by cs => cs.length
decreasing_by
  · simp only [List.length_cons]
    have := (List.dropWhile_suffix (fun x => x = '\n') (l := rest)).length_le
    omega
  · simp only [List.length_cons]
    have := (List.dropWhile_suffix (fun x => x = '\n') (l := rest)).length_le
    omega
  · simp

/-- The substitution pipeline of `normalize_text` on characters:
everything after the leading `unicodedata.normalize("NFC", txt)` call.
`normalize_text_full` below makes the NFC step an explicit parameter;
`normalize_text` takes it as the identity (adequate for the change
detector, where the hash enters only through equality). -/
def normalizeCore (cs : List Char) : List Char :=
  pyStrip (subBlankLines (subTrailWs (subWsRun
    (((subCRLF cs).map nbspToSpace).filter (fun c => !isZeroWidth c)))))

/-- `normalize_text(txt)` from `src/app/ingest/text_normalize.py`
(`if not txt: return ""` handles both `None` and `""`), with the NFC step
taken as the identity; the faithful parameterized form is
`normalize_text_full`. -/
def normalize_text (txt : Option String) : String :=
  match txt with
  | none => ""
  | some s => if s = "" then "" else ⟨normalizeCore s.toList⟩

/-! ### Idempotence of `normalize_text` -/

theorem pair_infix_cons {a b c : Char} {l : List Char} :
    [a, b] <:+: (c :: l) ↔ (a = c ∧ l.head? = some b) ∨ [a, b] <:+: l := by
  rw [List.infix_cons_iff]
  constructor
  · rintro (hp | hi)
    · rw [List.cons_prefix_cons] at hp
      obtain ⟨hac, hbl⟩ := hp
      cases l with
      | nil => simp at hbl
      | cons x t =>
        rw [List.cons_prefix_cons] at hbl
        exact Or.inl ⟨hac, by rw [hbl.1]; rfl⟩
    · exact Or.inr hi
  · rintro (⟨hac, hh⟩ | hi)
    · left
      cases l with
      | nil => simp at hh
      | cons x t =>
        simp only [List.head?_cons, Option.some.injEq] at hh
        rw [List.cons_prefix_cons, List.cons_prefix_cons]
        exact ⟨hac, hh.symm, List.nil_prefix⟩
    · exact Or.inr hi

theorem triple_infix_cons {a b d c : Char} {l : List Char} :
    [a, b, d] <:+: (c :: l) ↔
      (a = c ∧ ∃ t, l = b :: d :: t) ∨ [a, b, d] <:+: l := by
  rw [List.infix_cons_iff]
  constructor
  · rintro (hp | hi)
    · rw [List.cons_prefix_cons] at hp
      obtain ⟨hac, hbl⟩ := hp
      cases l with
      | nil => simp at hbl
      | cons x t =>
        rw [List.cons_prefix_cons] at hbl
        obtain ⟨hbx, hdl⟩ := hbl
        cases t with
        | nil => simp at hdl
        | cons y u =>
          rw [List.cons_prefix_cons] at hdl
          exact Or.inl ⟨hac, u, by rw [hbx, hdl.1]⟩
    · exact Or.inr hi
  · rintro (⟨hac, t, ht⟩ | hi)
    · left
      subst ht
      rw [List.cons_prefix_cons, List.cons_prefix_cons, List.cons_prefix_cons]
      exact ⟨hac, rfl, rfl, List.nil_prefix⟩
    · exact Or.inr hi

/-- Infix-freedom is antitone along `<:+:`. -/
theorem not_infix_mono {w y z : List Char} (hyz : y <:+: z)
    (hz : ¬ w <:+: z) : ¬ w <:+: y :=
  fun hw => hz (hw.trans hyz)

theorem pyStrip_isInf (l : List Char) : pyStrip l <:+: l := by
  unfold pyStrip
  exact (List.rdropWhile_prefix _ _).isInfix.trans
    (List.dropWhile_suffix _).isInfix

theorem dropWhile_head_false {p : Char → Bool} {h : Char} {t : List Char} :
    ∀ {l : List Char}, l.dropWhile p = h :: t → p h = false := by
  intro l
  induction l with
  | nil => intro hd; simp at hd
  | cons a l' ih =>
    intro hd
    rw [List.dropWhile_cons] at hd
    by_cases hp : p a
    · rw [if_pos hp] at hd
      exact ih hd
    · rw [if_neg hp] at hd
      injection hd with h1 _
      subst h1
      cases hpa : p a with
      | true => exact absurd hpa hp
      | false => rfl

theorem takeWhile_nil_of_dropWhile_self {p : Char → Bool} {l : List Char}
    (hd : l.dropWhile p = l) : l.takeWhile p = [] := by
  have := List.takeWhile_append_dropWhile (p := p) (l := l)
  rw [hd] at this
  have hlen := congrArg List.length this
  simp only [List.length_append] at hlen
  exact List.eq_nil_of_length_eq_zero (by omega)

theorem mem_subCRLF {c : Char} {l : List Char} (h : c ∈ subCRLF l) :
    c = '\n' ∨ c ∈ l := by
  induction l using subCRLF.induct with
  | case1 => rw [subCRLF.eq_1] at h; simp at h
  | case2 rest ih =>
    rw [subCRLF.eq_2] at h
    rcases List.mem_cons.1 h with h1 | h1
    · exact Or.inl h1
    · rcases ih h1 with h2 | h2
      · exact Or.inl h2
      · exact Or.inr (by simp [h2])
  | case3 rest hne ih =>
    rw [subCRLF.eq_3 rest hne] at h
    rcases List.mem_cons.1 h with h1 | h1
    · exact Or.inl h1
    · rcases ih h1 with h2 | h2
      · exact Or.inl h2
      · exact Or.inr (by simp [h2])
  | case4 c' rest hne hne2 ih =>
    rw [subCRLF.eq_4 c' rest hne hne2] at h
    rcases List.mem_cons.1 h with h1 | h1
    · exact Or.inr (by simp [h1])
    · rcases ih h1 with h2 | h2
      · exact Or.inl h2
      · exact Or.inr (by simp [h2])

theorem mem_subWsRun {c : Char} {l : List Char} (h : c ∈ subWsRun l) :
    c = ' ' ∨ c ∈ l := by
  induction l using subWsRun.induct with
  | case1 => rw [subWsRun.eq_1] at h; simp at h
  | case2 c' rest hht ih =>
    rw [subWsRun.eq_2, if_pos hht] at h
    rcases List.mem_cons.1 h with h1 | h1
    · exact Or.inl h1
    · rcases ih h1 with h2 | h2
      · exact Or.inl h2
      · exact Or.inr (List.mem_cons_of_mem _
          ((List.dropWhile_suffix isHT).mem h2))
  | case3 c' rest hht ih =>
    rw [subWsRun.eq_2, if_neg hht] at h
    rcases List.mem_cons.1 h with h1 | h1
    · exact Or.inr (by simp [h1])
    · rcases ih h1 with h2 | h2
      · exact Or.inl h2
      · exact Or.inr (by simp [h2])

theorem mem_subTrailWs {c : Char} {l : List Char} (h : c ∈ subTrailWs l) :
    c = '\n' ∨ c ∈ l := by
  induction l using subTrailWs.induct with
  | case1 => rw [subTrailWs.eq_1] at h; simp at h
  | case2 c' rest hht tail hd ih =>
    rw [subTrailWs.eq_2, if_pos hht] at h
    split at h
    case _ tail' heq =>
      rw [hd] at heq
      injection heq with _ htl
      subst htl
      rcases List.mem_cons.1 h with h1 | h1
      · exact Or.inl h1
      · rcases ih h1 with h2 | h2
        · exact Or.inl h2
        · refine Or.inr (List.mem_cons_of_mem _ ?_)
          have hmem : c ∈ rest.dropWhile isHT := by rw [hd]; simp [h2]
          exact (List.dropWhile_suffix isHT).mem hmem
    case _ hnm => exact absurd hd (hnm tail)
  | case3 c' rest hht hnm ih =>
    rw [subTrailWs.eq_2, if_pos hht] at h
    split at h
    case _ tail' heq => exact absurd heq (by intro hx; exact hnm tail' hx)
    case _ _ =>
      rw [List.cons_append] at h
      rcases List.mem_cons.1 h with h1 | h1
      · exact Or.inr (by simp [h1])
      · rcases List.mem_append.1 h1 with h2 | h2
        · exact Or.inr (List.mem_cons_of_mem _
            ((List.takeWhile_prefix isHT).mem h2))
        · rcases ih h2 with h3 | h3
          · exact Or.inl h3
          · exact Or.inr (List.mem_cons_of_mem _
              ((List.dropWhile_suffix isHT).mem h3))
  | case4 c' rest hht ih =>
    rw [subTrailWs.eq_2, if_neg hht] at h
    rcases List.mem_cons.1 h with h1 | h1
    · exact Or.inr (by simp [h1])
    · rcases ih h1 with h2 | h2
      · exact Or.inl h2
      · exact Or.inr (by simp [h2])

theorem mem_subBlankLines {c : Char} {l : List Char}
    (h : c ∈ subBlankLines l) : c = '\n' ∨ c ∈ l := by
  induction l using subBlankLines.induct with
  | case1 => rw [subBlankLines.eq_1] at h; simp at h
  | case2 rest hk ih =>
    rw [subBlankLines.eq_2, if_pos rfl, if_pos hk] at h
    rcases List.mem_cons.1 h with h1 | h1
    · exact Or.inl h1
    rcases List.mem_cons.1 h1 with h2 | h2
    · exact Or.inl h2
    rcases ih h2 with h3 | h3
    · exact Or.inl h3
    · exact Or.inr (List.mem_cons_of_mem _ ((List.dropWhile_suffix _).mem h3))
  | case3 rest hk ih =>
    rw [subBlankLines.eq_2, if_pos rfl, if_neg hk] at h
    rcases List.mem_cons.1 h with h1 | h1
    · exact Or.inl h1
    rcases List.mem_append.1 h1 with h2 | h2
    · exact Or.inr (List.mem_cons_of_mem _ ((List.takeWhile_prefix _).mem h2))
    rcases ih h2 with h3 | h3
    · exact Or.inl h3
    · exact Or.inr (List.mem_cons_of_mem _ ((List.dropWhile_suffix _).mem h3))
  | case4 c' rest hc ih =>
    rw [subBlankLines.eq_2, if_neg hc] at h
    rcases List.mem_cons.1 h with h1 | h1
    · exact Or.inr (by simp [h1])
    rcases ih h1 with h2 | h2
    · exact Or.inl h2
    · exact Or.inr (by simp [h2])

theorem subBlankLines_head (l : List Char) :
    (subBlankLines l).head? = l.head? := by
  induction l using subBlankLines.induct with
  | case1 => rw [subBlankLines.eq_1]
  | case2 rest hk ih => rw [subBlankLines.eq_2, if_pos rfl, if_pos hk]; rfl
  | case3 rest hk ih => rw [subBlankLines.eq_2, if_pos rfl, if_neg hk]; rfl
  | case4 c rest hc ih => rw [subBlankLines.eq_2, if_neg hc]; rfl

theorem subWsRun_head_cons (c : Char) (rest : List Char) :
    (subWsRun (c :: rest)).head? = some (if isHT c then ' ' else c) := by
  rw [subWsRun.eq_2]
  by_cases h : isHT c
  · rw [if_pos h, if_pos h]; rfl
  · rw [if_neg h, if_neg h]; rfl

theorem subTrailWs_head_cons_not_ht {c : Char} (rest : List Char)
    (h : ¬ isHT c = true) : (subTrailWs (c :: rest)).head? = some c := by
  rw [subTrailWs.eq_2, if_neg h]; rfl

theorem subCRLF_no_cr (l : List Char) : '\r' ∉ subCRLF l := by
  induction l using subCRLF.induct with
  | case1 => rw [subCRLF.eq_1]; simp
  | case2 rest ih =>
    rw [subCRLF.eq_2]
    intro h
    rcases List.mem_cons.1 h with h1 | h1
    · exact absurd h1 (by decide)
    · exact ih h1
  | case3 rest hne ih =>
    rw [subCRLF.eq_3 rest hne]
    intro h
    rcases List.mem_cons.1 h with h1 | h1
    · exact absurd h1 (by decide)
    · exact ih h1
  | case4 c rest hne hne2 ih =>
    rw [subCRLF.eq_4 c rest hne hne2]
    intro h
    rcases List.mem_cons.1 h with h1 | h1
    · exact hne2 h1.symm
    · exact ih h1

theorem mem_map_nbsp {c : Char} {l : List Char}
    (h : c ∈ l.map nbspToSpace) : c = ' ' ∨ c ∈ l := by
  obtain ⟨d, hd, hfd⟩ := List.mem_map.1 h
  unfold nbspToSpace at hfd
  by_cases hdn : d = nbspChar
  · rw [if_pos hdn] at hfd
    exact Or.inl hfd.symm
  · rw [if_neg hdn] at hfd
    exact Or.inr (hfd ▸ hd)

theorem nbsp_not_mem_map (l : List Char) :
    nbspChar ∉ l.map nbspToSpace := by
  intro h
  obtain ⟨d, _, hfd⟩ := List.mem_map.1 h
  unfold nbspToSpace at hfd
  by_cases hdn : d = nbspChar
  · rw [if_pos hdn] at hfd
    exact absurd hfd (by decide)
  · rw [if_neg hdn] at hfd
    exact hdn hfd

theorem subWsRun_no_tab (l : List Char) : '\t' ∉ subWsRun l := by
  induction l using subWsRun.induct with
  | case1 => rw [subWsRun.eq_1]; simp
  | case2 c rest hht ih =>
    rw [subWsRun.eq_2, if_pos hht]
    intro h
    rcases List.mem_cons.1 h with h1 | h1
    · exact absurd h1 (by decide)
    · exact ih h1
  | case3 c rest hht ih =>
    rw [subWsRun.eq_2, if_neg hht]
    intro h
    rcases List.mem_cons.1 h with h1 | h1
    · exact hht (by rw [← h1]; decide)
    · exact ih h1

theorem subWsRun_no_double_space (l : List Char) :
    ¬ [' ', ' '] <:+: subWsRun l := by
  induction l using subWsRun.induct with
  | case1 => rw [subWsRun.eq_1]; simp
  | case2 c rest hht ih =>
    rw [subWsRun.eq_2, if_pos hht]
    intro hbad
    rcases pair_infix_cons.1 hbad with ⟨_, hh⟩ | hbad'
    · cases hd : rest.dropWhile isHT with
      | nil => rw [hd, subWsRun.eq_1] at hh; simp at hh
      | cons h t =>
        have hph : isHT h = false := dropWhile_head_false hd
        rw [hd, subWsRun_head_cons, if_neg (by simp [hph])] at hh
        have : h = ' ' := by injection hh
        rw [this] at hph
        simp [isHT] at hph
    · exact ih hbad'
  | case3 c rest hht ih =>
    rw [subWsRun.eq_2, if_neg hht]
    intro hbad
    rcases pair_infix_cons.1 hbad with ⟨hc, _⟩ | hbad'
    · exact hht (by rw [← hc]; decide)
    · exact ih hbad'

theorem takeWhile_all_nl {l : List Char} {x : Char}
    (h : x ∈ l.takeWhile (fun y => y = '\n')) : x = '\n' := by
  have := List.mem_takeWhile_imp h
  simpa using this

/-- A pair starting with a space cannot sit inside an all-newline prefix. -/
theorem pair_space_not_infix_nl_append {b : Char} {u v : List Char}
    (hu : ∀ x ∈ u, x = '\n') (hv : ¬ [' ', b] <:+: v) :
    ¬ [' ', b] <:+: (u ++ v) := by
  induction u with
  | nil => simpa using hv
  | cons x u' ih =>
    rw [List.cons_append]
    intro hbad
    rcases pair_infix_cons.1 hbad with ⟨hsp, _⟩ | hbad'
    · have hx : x = '\n' := hu x (by simp)
      rw [hx] at hsp
      exact absurd hsp (by decide)
    · exact ih (fun y hy => hu y (by simp [hy])) hbad'

theorem subTrailWs_pairs :
    ∀ l : List Char, '\t' ∉ l → ¬ [' ', ' '] <:+: l →
    ¬ [' ', ' '] <:+: subTrailWs l ∧ ¬ [' ', '\n'] <:+: subTrailWs l := by
  intro l
  induction l using subTrailWs.induct with
  | case1 =>
    intro _ _
    rw [subTrailWs.eq_1]
    constructor <;> simp
  | case2 c rest hht tail hd ih =>
    intro htab hds
    have htails : tail <:+ (c :: rest) := by
      have h1 : tail <:+ rest.dropWhile isHT := by
        rw [hd]; exact List.suffix_cons '\n' tail
      exact (h1.trans (List.dropWhile_suffix isHT)).trans
        (List.suffix_cons c rest)
    obtain ⟨ih1, ih2⟩ := ih (fun hm => htab (htails.subset hm))
      (not_infix_mono htails.isInfix hds)
    have heqn : subTrailWs (c :: rest) = '\n' :: subTrailWs tail := by
      rw [subTrailWs.eq_2, if_pos hht]
      split
      case _ tail' heq =>
        rw [hd] at heq
        injection heq with _ h2
        rw [h2]
      case _ hnm => exact absurd hd (hnm tail)
    rw [heqn]
    constructor
    · intro hbad
      rcases pair_infix_cons.1 hbad with ⟨hsp, _⟩ | hbad'
      · exact absurd hsp (by decide)
      · exact ih1 hbad'
    · intro hbad
      rcases pair_infix_cons.1 hbad with ⟨hsp, _⟩ | hbad'
      · exact absurd hsp (by decide)
      · exact ih2 hbad'
  | case3 c rest hht hnm ih =>
    intro htab hds
    -- the horizontal run is a single space and is not followed by a newline
    have hcc : c = ' ' := by
      rcases (by simpa [isHT] using hht : c = ' ' ∨ c = '\t') with h | h
      · exact h
      · exact absurd (by simp [h]) htab
    have htk : rest.takeWhile isHT = [] := by
      cases htk : rest.takeWhile isHT with
      | nil => rfl
      | cons h t =>
        have hmem : h ∈ rest.takeWhile isHT := by rw [htk]; simp
        have hph : isHT h := List.mem_takeWhile_imp hmem
        have hhead : rest.head? = some h := by
          obtain ⟨s, hs⟩ := List.takeWhile_prefix (l := rest) isHT
          rw [htk] at hs
          rw [← hs]
          rfl
        rcases (by simpa [isHT] using hph : h = ' ' ∨ h = '\t') with h1 | h1
        · exact (hds (pair_infix_cons.2 (Or.inl ⟨hcc.symm, by rw [hhead, h1]⟩))).elim
        · have hmem2 : ('\t' : Char) ∈ List.takeWhile isHT rest := by
            rw [htk, ← h1]; simp
          exact (htab (List.mem_cons_of_mem c
            ((List.takeWhile_prefix isHT).subset hmem2))).elim
    have hdw : rest.dropWhile isHT = rest := by
      have := List.takeWhile_append_dropWhile (p := isHT) (l := rest)
      rw [htk] at this
      simpa using this
    rw [hdw] at ih
    obtain ⟨ih1, ih2⟩ := ih
      (fun hm => htab (List.mem_cons_of_mem c hm))
      (not_infix_mono (List.suffix_cons c rest).isInfix hds)
    have heqn : subTrailWs (c :: rest) = c :: subTrailWs rest := by
      rw [subTrailWs.eq_2, if_pos hht]
      split
      case _ tail' heq => exact (hnm tail' heq).elim
      case _ _ => rw [htk, hdw]; rfl
    rw [heqn]
    have hresthead : ∀ b : Char, (subTrailWs rest).head? = some b →
        ¬ isHT b ∧ b ≠ '\n' := by
      intro b hb
      cases rest with
      | nil => rw [subTrailWs.eq_1] at hb; simp at hb
      | cons h t =>
        have hph : isHT h = false := by
          cases hph : isHT h with
          | false => rfl
          | true =>
            rw [List.dropWhile_cons, if_pos hph] at hdw
            have := congrArg List.length hdw
            have hle := (List.dropWhile_suffix (l := t) isHT).length_le
            simp at this
            omega
        rw [subTrailWs_head_cons_not_ht t (by simp [hph])] at hb
        injection hb with hb1
        subst hb1
        refine ⟨by simp [hph], ?_⟩
        intro hbn
        subst hbn
        exact hnm t (by rw [List.dropWhile_cons, if_neg (by decide)])
    constructor
    · intro hbad
      rcases pair_infix_cons.1 hbad with ⟨hsp, hh⟩ | hbad'
      · exact (hresthead ' ' hh).1 (by decide)
      · exact ih1 hbad'
    · intro hbad
      rcases pair_infix_cons.1 hbad with ⟨hsp, hh⟩ | hbad'
      · exact (hresthead '\n' hh).2 rfl
      · exact ih2 hbad'
  | case4 c rest hht ih =>
    intro htab hds
    obtain ⟨ih1, ih2⟩ := ih (fun hm => htab (List.mem_cons_of_mem c hm))
      (not_infix_mono (List.suffix_cons c rest).isInfix hds)
    rw [subTrailWs.eq_2, if_neg hht]
    constructor
    · intro hbad
      rcases pair_infix_cons.1 hbad with ⟨hsp, _⟩ | hbad'
      · exact hht (by rw [← hsp]; decide)
      · exact ih1 hbad'
    · intro hbad
      rcases pair_infix_cons.1 hbad with ⟨hsp, _⟩ | hbad'
      · exact hht (by rw [← hsp]; decide)
      · exact ih2 hbad'

theorem subBlankLines_pairs :
    ∀ l : List Char, ¬ [' ', ' '] <:+: l → ¬ [' ', '\n'] <:+: l →
    ¬ [' ', ' '] <:+: subBlankLines l ∧ ¬ [' ', '\n'] <:+: subBlankLines l := by
  intro l
  induction l using subBlankLines.induct with
  | case1 =>
    intro _ _
    rw [subBlankLines.eq_1]
    constructor <;> simp
  | case2 rest hk ih =>
    intro hds hsn
    have hsfx : rest.dropWhile (fun x => x = '\n') <:+ ('\n' :: rest) :=
      (List.dropWhile_suffix _).trans (List.suffix_cons _ _)
    obtain ⟨ih1, ih2⟩ := ih (not_infix_mono hsfx.isInfix hds)
      (not_infix_mono hsfx.isInfix hsn)
    rw [subBlankLines.eq_2, if_pos rfl, if_pos hk]
    exact ⟨pair_space_not_infix_nl_append (u := ['\n', '\n']) (by decide) ih1,
      pair_space_not_infix_nl_append (u := ['\n', '\n']) (by decide) ih2⟩
  | case3 rest hk ih =>
    intro hds hsn
    have hsfx : rest.dropWhile (fun x => x = '\n') <:+ ('\n' :: rest) :=
      (List.dropWhile_suffix _).trans (List.suffix_cons _ _)
    obtain ⟨ih1, ih2⟩ := ih (not_infix_mono hsfx.isInfix hds)
      (not_infix_mono hsfx.isInfix hsn)
    rw [subBlankLines.eq_2, if_pos rfl, if_neg hk]
    have hu : ∀ x ∈ '\n' :: rest.takeWhile (fun y => y = '\n'), x = '\n' := by
      intro x hx
      rcases List.mem_cons.1 hx with h | h
      · exact h
      · exact takeWhile_all_nl h
    exact ⟨pair_space_not_infix_nl_append hu ih1,
      pair_space_not_infix_nl_append hu ih2⟩
  | case4 c rest hc ih =>
    intro hds hsn
    have hsfx : rest <:+ (c :: rest) := List.suffix_cons c rest
    obtain ⟨ih1, ih2⟩ := ih (not_infix_mono hsfx.isInfix hds)
      (not_infix_mono hsfx.isInfix hsn)
    rw [subBlankLines.eq_2, if_neg hc]
    constructor
    · intro hbad
      rcases pair_infix_cons.1 hbad with ⟨hsp, hh⟩ | hbad'
      · rw [subBlankLines_head] at hh
        exact hds (pair_infix_cons.2 (Or.inl ⟨hsp, hh⟩))
      · exact ih1 hbad'
    · intro hbad
      rcases pair_infix_cons.1 hbad with ⟨hsp, hh⟩ | hbad'
      · rw [subBlankLines_head] at hh
        exact hsn (pair_infix_cons.2 (Or.inl ⟨hsp, hh⟩))
      · exact ih2 hbad'

theorem subBlankLines_head_dropWhile_ne_nl {rest : List Char} :
    (subBlankLines (rest.dropWhile (fun x => x = '\n'))).head? ≠ some '\n' := by
  rw [subBlankLines_head]
  cases hd : rest.dropWhile (fun x => x = '\n') with
  | nil => simp
  | cons h t =>
    have hph := dropWhile_head_false hd
    simp only [List.head?_cons, ne_eq, Option.some.injEq]
    intro hcon
    rw [hcon] at hph
    simp at hph

theorem subBlankLines_no_triple :
    ∀ l : List Char, ¬ ['\n', '\n', '\n'] <:+: subBlankLines l := by
  intro l
  induction l using subBlankLines.induct with
  | case1 => rw [subBlankLines.eq_1]; simp
  | case2 rest hk ih =>
    rw [subBlankLines.eq_2, if_pos rfl, if_pos hk]
    intro hbad
    rcases triple_infix_cons.1 hbad with ⟨_, t, ht⟩ | hbad'
    · injection ht with _ ht2
      exact subBlankLines_head_dropWhile_ne_nl (by rw [ht2]; rfl)
    rcases triple_infix_cons.1 hbad' with ⟨_, t', ht'⟩ | hbad''
    · exact subBlankLines_head_dropWhile_ne_nl (by rw [ht']; rfl)
    · exact ih hbad''
  | case3 rest hk ih =>
    rw [subBlankLines.eq_2, if_pos rfl, if_neg hk]
    cases htw : rest.takeWhile (fun x => x = '\n') with
    | nil =>
      rw [List.singleton_append]
      intro hbad
      rcases triple_infix_cons.1 hbad with ⟨_, t, ht⟩ | hbad'
      · exact subBlankLines_head_dropWhile_ne_nl (by rw [ht]; rfl)
      · exact ih hbad'
    | cons h t =>
      have hh : h = '\n' := takeWhile_all_nl (by rw [htw]; simp)
      cases t with
      | nil =>
        rw [hh, List.cons_append, List.singleton_append]
        intro hbad
        rcases triple_infix_cons.1 hbad with ⟨_, t1, ht1⟩ | hbad'
        · injection ht1 with _ ht2
          exact subBlankLines_head_dropWhile_ne_nl (by rw [ht2]; rfl)
        rcases triple_infix_cons.1 hbad' with ⟨_, t2, ht2⟩ | hbad''
        · exact subBlankLines_head_dropWhile_ne_nl (by rw [ht2]; rfl)
        · exact ih hbad''
      | cons h2 t2 =>
        exact absurd (by rw [htw]; simp only [List.length_cons]; omega) hk
  | case4 c rest hc ih =>
    rw [subBlankLines.eq_2, if_neg hc]
    intro hbad
    rcases triple_infix_cons.1 hbad with ⟨hcn, _⟩ | hbad'
    · exact hc hcn.symm
    · exact ih hbad'

/-! ### Identity of each substitution on already-normalized text -/

theorem subCRLF_id : ∀ l : List Char, '\r' ∉ l → subCRLF l = l := by
  intro l
  induction l using subCRLF.induct with
  | case1 => intro _; rw [subCRLF.eq_1]
  | case2 rest ih => intro h; exact absurd (by simp) h
  | case3 rest hne ih => intro h; exact absurd (by simp) h
  | case4 c rest hne hne2 ih =>
    intro h
    rw [subCRLF.eq_4 c rest hne hne2,
      ih (fun hm => h (List.mem_cons_of_mem c hm))]

theorem map_nbsp_id : ∀ l : List Char, nbspChar ∉ l →
    l.map nbspToSpace = l := by
  intro l
  induction l with
  | nil => intro _; rfl
  | cons c rest ih =>
    intro h
    rw [List.map_cons]
    have hc : nbspToSpace c = c := by
      unfold nbspToSpace
      rw [if_neg (fun hx => h (by simp [hx]))]
    rw [hc, ih (fun hm => h (List.mem_cons_of_mem c hm))]

theorem filter_zw_id (l : List Char) (h : ∀ c ∈ l, isZeroWidth c = false) :
    l.filter (fun c => !isZeroWidth c) = l := by
  apply List.filter_eq_self.2
  intro c hc
  simp [h c hc]

/-- In text with no tab and no double space, a horizontal-whitespace run is
exactly one space. -/
theorem run_single {c : Char} {rest : List Char} (hht : isHT c = true)
    (htab : '\t' ∉ c :: rest) (hds : ¬ [' ', ' '] <:+: (c :: rest)) :
    c = ' ' ∧ rest.takeWhile isHT = [] ∧ rest.dropWhile isHT = rest := by
  have hcc : c = ' ' := by
    rcases (by simpa [isHT] using hht : c = ' ' ∨ c = '\t') with h | h
    · exact h
    · exact absurd (by simp [h]) htab
  have htk : rest.takeWhile isHT = [] := by
    cases htk : rest.takeWhile isHT with
    | nil => rfl
    | cons h t =>
      have hmem : h ∈ rest.takeWhile isHT := by rw [htk]; simp
      have hph : isHT h := List.mem_takeWhile_imp hmem
      have hhead : rest.head? = some h := by
        obtain ⟨s, hs⟩ := List.takeWhile_prefix (l := rest) isHT
        rw [htk] at hs
        rw [← hs]
        rfl
      rcases (by simpa [isHT] using hph : h = ' ' ∨ h = '\t') with h1 | h1
      · exact (hds (pair_infix_cons.2
          (Or.inl ⟨hcc.symm, by rw [hhead, h1]⟩))).elim
      · have hmem2 : ('\t' : Char) ∈ List.takeWhile isHT rest := by
          rw [htk, ← h1]; simp
        exact (htab (List.mem_cons_of_mem c
          ((List.takeWhile_prefix isHT).subset hmem2))).elim
  refine ⟨hcc, htk, ?_⟩
  have := List.takeWhile_append_dropWhile (p := isHT) (l := rest)
  rw [htk] at this
  simpa using this

theorem subWsRun_id : ∀ l : List Char, '\t' ∉ l → ¬ [' ', ' '] <:+: l →
    subWsRun l = l := by
  intro l
  induction l using subWsRun.induct with
  | case1 => intro _ _; rw [subWsRun.eq_1]
  | case2 c rest hht ih =>
    intro htab hds
    obtain ⟨hcc, htk, hdw⟩ := run_single hht htab hds
    rw [hdw] at ih
    rw [subWsRun.eq_2, if_pos hht, hdw, hcc,
      ih (fun hm => htab (List.mem_cons_of_mem c hm))
        (not_infix_mono (List.suffix_cons c rest).isInfix hds)]
  | case3 c rest hht ih =>
    intro htab hds
    rw [subWsRun.eq_2, if_neg hht,
      ih (fun hm => htab (List.mem_cons_of_mem c hm))
        (not_infix_mono (List.suffix_cons c rest).isInfix hds)]

theorem subTrailWs_id : ∀ l : List Char, '\t' ∉ l → ¬ [' ', ' '] <:+: l →
    ¬ [' ', '\n'] <:+: l → subTrailWs l = l := by
  intro l
  induction l using subTrailWs.induct with
  | case1 => intro _ _ _; rw [subTrailWs.eq_1]
  | case2 c rest hht tail hd ih =>
    intro htab hds hsn
    obtain ⟨hcc, htk, hdw⟩ := run_single hht htab hds
    rw [hdw] at hd
    exact (hsn (pair_infix_cons.2
      (Or.inl ⟨hcc.symm, by rw [hd]; rfl⟩))).elim
  | case3 c rest hht hnm ih =>
    intro htab hds hsn
    obtain ⟨hcc, htk, hdw⟩ := run_single hht htab hds
    rw [hdw] at ih
    have heqn : subTrailWs (c :: rest) = c :: subTrailWs rest := by
      rw [subTrailWs.eq_2, if_pos hht]
      split
      case _ tail' heq => exact (hnm tail' heq).elim
      case _ _ => rw [htk, hdw]; rfl
    rw [heqn, ih (fun hm => htab (List.mem_cons_of_mem c hm))
      (not_infix_mono (List.suffix_cons c rest).isInfix hds)
      (not_infix_mono (List.suffix_cons c rest).isInfix hsn)]
  | case4 c rest hht ih =>
    intro htab hds hsn
    rw [subTrailWs.eq_2, if_neg hht,
      ih (fun hm => htab (List.mem_cons_of_mem c hm))
        (not_infix_mono (List.suffix_cons c rest).isInfix hds)
        (not_infix_mono (List.suffix_cons c rest).isInfix hsn)]

theorem subBlankLines_id : ∀ l : List Char, ¬ ['\n', '\n', '\n'] <:+: l →
    subBlankLines l = l := by
  intro l
  induction l using subBlankLines.induct with
  | case1 => intro _; rw [subBlankLines.eq_1]
  | case2 rest hk ih =>
    intro htr
    exfalso
    cases htw : rest.takeWhile (fun x => x = '\n') with
    | nil => rw [htw] at hk; simp at hk
    | cons h t =>
      cases t with
      | nil => rw [htw] at hk; simp at hk
      | cons h2 t2 =>
        have hh : h = '\n' := takeWhile_all_nl (by rw [htw]; simp)
        have hh2 : h2 = '\n' := takeWhile_all_nl (by rw [htw]; simp)
        obtain ⟨s, hs⟩ := List.takeWhile_prefix (l := rest)
          (fun x => x = '\n')
        rw [htw, hh, hh2] at hs
        apply htr
        refine ⟨[], t2 ++ s, ?_⟩
        rw [← hs]
        rfl
  | case3 rest hk ih =>
    intro htr
    have hsfx : rest.dropWhile (fun x => x = '\n') <:+ ('\n' :: rest) :=
      (List.dropWhile_suffix _).trans (List.suffix_cons _ _)
    rw [subBlankLines.eq_2, if_pos rfl, if_neg hk,
      ih (not_infix_mono hsfx.isInfix htr), List.cons_append]
    congr 1
    exact List.takeWhile_append_dropWhile _ rest
  | case4 c rest hc ih =>
    intro htr
    rw [subBlankLines.eq_2, if_neg hc,
      ih (not_infix_mono (List.suffix_cons c rest).isInfix htr)]

theorem mem_normalizeCore {c : Char} {x : List Char}
    (h : c ∈ normalizeCore x) :
    c = '\n' ∨ c = ' ' ∨
      c ∈ ((subCRLF x).map nbspToSpace).filter (fun d => !isZeroWidth d) := by
  unfold normalizeCore at h
  have h6 := (pyStrip_isInf _).subset h
  rcases mem_subBlankLines h6 with h5 | h5
  · exact Or.inl h5
  rcases mem_subTrailWs h5 with h4 | h4
  · exact Or.inl h4
  rcases mem_subWsRun h4 with h3 | h3
  · exact Or.inr (Or.inl h3)
  · exact Or.inr (Or.inr h3)

theorem normalizeCore_no_cr (x : List Char) : '\r' ∉ normalizeCore x := by
  intro h
  rcases mem_normalizeCore h with h1 | h1 | h1
  · exact absurd h1 (by decide)
  · exact absurd h1 (by decide)
  · rcases mem_map_nbsp (List.mem_filter.1 h1).1 with h2 | h2
    · exact absurd h2 (by decide)
    · exact subCRLF_no_cr x h2

theorem normalizeCore_no_tab (x : List Char) : '\t' ∉ normalizeCore x := by
  intro h
  unfold normalizeCore at h
  have h6 := (pyStrip_isInf _).subset h
  rcases mem_subBlankLines h6 with h5 | h5
  · exact absurd h5 (by decide)
  rcases mem_subTrailWs h5 with h4 | h4
  · exact absurd h4 (by decide)
  · exact subWsRun_no_tab _ h4

theorem normalizeCore_no_nbsp (x : List Char) :
    nbspChar ∉ normalizeCore x := by
  intro h
  rcases mem_normalizeCore h with h1 | h1 | h1
  · exact absurd h1 (by decide)
  · exact absurd h1 (by decide)
  · exact nbsp_not_mem_map (subCRLF x) (List.mem_filter.1 h1).1

theorem normalizeCore_zw (x : List Char) :
    ∀ c ∈ normalizeCore x, isZeroWidth c = false := by
  intro c h
  rcases mem_normalizeCore h with h1 | h1 | h1
  · rw [h1]; decide
  · rw [h1]; decide
  · have := (List.mem_filter.1 h1).2
    simpa using this

theorem normalizeCore_pairs (x : List Char) :
    ¬ [' ', ' '] <:+: normalizeCore x ∧
    ¬ [' ', '\n'] <:+: normalizeCore x ∧
    ¬ ['\n', '\n', '\n'] <:+: normalizeCore x := by
  unfold normalizeCore
  obtain ⟨hds5, hsn5⟩ := subTrailWs_pairs _ (subWsRun_no_tab _)
    (subWsRun_no_double_space _)
  obtain ⟨hds6, hsn6⟩ := subBlankLines_pairs _ hds5 hsn5
  exact ⟨not_infix_mono (pyStrip_isInf _) hds6,
    not_infix_mono (pyStrip_isInf _) hsn6,
    not_infix_mono (pyStrip_isInf _) (subBlankLines_no_triple _)⟩

/-- `normalize_text` is a fixed point on its own output: core statement of
idempotence on the character level. -/
theorem normalizeCore_idem (x : List Char) :
    normalizeCore (normalizeCore x) = normalizeCore x := by
  obtain ⟨hds, hsn, htr⟩ := normalizeCore_pairs x
  have hcr := normalizeCore_no_cr x
  have htab := normalizeCore_no_tab x
  have hnb := normalizeCore_no_nbsp x
  have hzw := normalizeCore_zw x
  show pyStrip (subBlankLines (subTrailWs (subWsRun
    (((subCRLF (normalizeCore x)).map nbspToSpace).filter
      (fun c => !isZeroWidth c))))) = normalizeCore x
  rw [subCRLF_id _ hcr, map_nbsp_id _ hnb, filter_zw_id _ hzw,
    subWsRun_id _ htab hds, subTrailWs_id _ htab hds hsn,
    subBlankLines_id _ htr]
  have hfix : normalizeCore x = pyStrip (subBlankLines (subTrailWs (subWsRun
      (((subCRLF x).map nbspToSpace).filter (fun c => !isZeroWidth c))))) :=
    rfl
  conv_lhs => rw [hfix]
  conv_rhs => rw [hfix]
  exact pyStrip_idem _

/-! ## SHA-256 (`hashlib.sha256`, over UTF-8 bytes)

A direct implementation of FIPS 180-4 on `Nat` with explicit `% 2^32`
wrapping, used by `sha256_text`/`compute_content_hash` below. -/

def w32 (n : Nat) : Nat := n % 4294967296

def rotr32 (x n : Nat) : Nat :=
  w32 (x / 2 ^ n + x % 2 ^ n * 2 ^ (32 - n))

/-- The 64 SHA-256 round constants (FIPS 180-4, in decimal). -/
def K256 : List Nat :=
  [1116352408, 1899447441, 3049323471, 3921009573,
   961987163, 1508970993, 2453635748, 2870763221,
   3624381080, 310598401, 607225278, 1426881987,
   1925078388, 2162078206, 2614888103, 3248222580,
   3835390401, 4022224774, 264347078, 604807628,
   770255983, 1249150122, 1555081692, 1996064986,
   2554220882, 2821834349, 2952996808, 3210313671,
   3336571891, 3584528711, 113926993, 338241895,
   666307205, 773529912, 1294757372, 1396182291,
   1695183700, 1986661051, 2177026350, 2456956037,
   2730485921, 2820302411, 3259730800, 3345764771,
   3516065817, 3600352804, 4094571909, 275423344,
   430227734, 506948616, 659060556, 883997877,
   958139571, 1322822218, 1537002063, 1747873779,
   1955562222, 2024104815, 2227730452, 2361852424,
   2428436474, 2756734187, 3204031479, 3329325298]

/-- The SHA-256 initial hash value (FIPS 180-4, in decimal). -/
def H256 : List Nat :=
  [1779033703, 3144134277, 1013904242, 2773480762,
   1359893119, 2600822924, 528734635, 1541459225]

/-- `n` big-endian bytes of `v`. -/
def beBytes : Nat → Nat → List Nat
  | 0, _ => []
  | n + 1, v => beBytes n (v / 256) ++ [v % 256]

/-- SHA-256 padding: `0x80`, zeros to 56 mod 64, then the bit length. -/
def sha256pad (msg : List Nat) : List Nat :=
  msg ++ 0x80 :: List.replicate ((119 - msg.length % 64) % 64) 0 ++
    beBytes 8 (8 * msg.length)

/-- Group bytes into big-endian 32-bit words. -/
def toWords : List Nat → List Nat
  | b0 :: b1 :: b2 :: b3 :: rest =>
    (((b0 * 256 + b1) * 256 + b2) * 256 + b3) :: toWords rest
  | _ => []

/-- Split the padded message into 64-byte blocks. -/
def toBlocks (l : List Nat) : List (List Nat) :=
  if l = [] then [] else l.take 64 :: toBlocks (l.drop 64)
termination_by l.length
decreasing_by
  have : l.length ≠ 0 := fun h => by
    simp_all [List.eq_nil_of_length_eq_zero h]
  simp only [List.length_drop]
  omega

/-- The next word of the SHA-256 message schedule. -/
def nextW (ws : List Nat) : Nat :=
  let n := ws.length
  let w15 := ws.getD (n - 15) 0
  let w2 := ws.getD (n - 2) 0
  let s0 := rotr32 w15 7 ^^^ rotr32 w15 18 ^^^ (w15 / 2 ^ 3)
  let s1 := rotr32 w2 17 ^^^ rotr32 w2 19 ^^^ (w2 / 2 ^ 10)
  w32 (ws.getD (n - 16) 0 + s0 + ws.getD (n - 7) 0 + s1)

/-- Extend the 16-word schedule to 64 words. -/
def extendSchedule : Nat → List Nat → List Nat
  | 0, ws => ws
  | n + 1, ws => extendSchedule n (ws ++ [nextW ws])

/-- One round of the SHA-256 compression function. -/
def compressStep (st : List Nat) (kw : Nat × Nat) : List Nat :=
  match st with
  | [a, b, c, d, e, f, g, h] =>
    let s1 := rotr32 e 6 ^^^ rotr32 e 11 ^^^ rotr32 e 25
    let ch := (e &&& f) ^^^ ((e ^^^ 0xffffffff) &&& g)
    let t1 := w32 (h + s1 + ch + kw.1 + kw.2)
    let s0 := rotr32 a 2 ^^^ rotr32 a 13 ^^^ rotr32 a 22
    let maj := (a &&& b) ^^^ (a &&& c) ^^^ (b &&& c)
    let t2 := w32 (s0 + maj)
    [w32 (t1 + t2), a, b, c, w32 (d + t1), e, f, g]
  | _ => st

/-- Compress one 64-byte block into the running hash state. -/
def compressBlock (h : List Nat) (block : List Nat) : List Nat :=
  let ws := extendSchedule 48 (toWords block)
  let st := (K256.zip ws).foldl compressStep h
  (h.zip st).map (fun p => w32 (p.1 + p.2))

/-- SHA-256 of a byte list (bytes as `Nat < 256`), 32 output bytes. -/
def sha256Bytes (msg : List Nat) : List Nat :=
  (((toBlocks (sha256pad msg)).foldl compressBlock H256).map
    (fun w => beBytes 4 w)).flatten

def hexDigit (n : Nat) : Char :=
  if n < 10 then Char.ofNat (48 + n) else Char.ofNat (87 + n)

def bytesToHex (bytes : List Nat) : String :=
  ⟨(bytes.map (fun b => [hexDigit (b / 16), hexDigit (b % 16)])).flatten⟩

/-- `sha256_text(txt)` from `src/app/ingest/text_normalize.py`:
`hashlib.sha256(txt.encode("utf-8")).hexdigest()`. -/
def sha256_text (s : String) : String :=
  bytesToHex (sha256Bytes (s.toUTF8.toList.map (fun b => b.toNat)))

/-- Python `raw_text or ""` for an optional string (both `None` and `""`
are falsy and yield `""`; any other string is itself). -/
def pyOrEmptyStr (t : Option String) : String :=
  match t with
  | none => ""
  | some s => if s = "" then "" else s

/-- `compute_content_hash(raw_text)` from
`src/app/ingest/text_normalize.py`:
`sha256_text(normalize_text(raw_text or ""))`. -/
def compute_content_hash (raw_text : Option String) : String :=
  sha256_text (normalize_text (some (pyOrEmptyStr raw_text)))

/-- `normalize_text` with the leading `unicodedata.normalize("NFC", txt)`
call made explicit: `nfc` is the external Unicode-library boundary, and
theorems state the properties of NFC they rely on as hypotheses.
`nfcDemo` below instantiates it with a fragment of the canonical
composition table. -/
def normalize_text_full (nfc : List Char → List Char)
    (txt : Option String) : String :=
  match txt with
  | none => ""
  | some s => if s = "" then "" else ⟨normalizeCore (nfc s.toList)⟩

/-- `compute_content_hash` over `normalize_text_full`. -/
def compute_content_hash_full (nfc : List Char → List Char)
    (raw_text : Option String) : String :=
  sha256_text (normalize_text_full nfc (some (pyOrEmptyStr raw_text)))

/-- A fragment of Unicode canonical composition (NFC): the single pair
LATIN SMALL LETTER E followed by COMBINING ACUTE ACCENT composes to
LATIN SMALL LETTER E WITH ACUTE; everything else is left unchanged.
`unicodedata.normalize("NFC", x)` agrees with `nfcDemo` on every string
this file applies it to: ASCII strings and strings without adjacent
composable pairs are NFC fixed points, and `e` + U+0301 composes to
U+00E9. -/
def nfcDemo : List Char → List Char
  | [] => []
  | [c] => [c]
  | a :: b :: rest =>
    if a = 'e' ∧ b = Char.ofNat 0x301 then Char.ofNat 0xe9 :: nfcDemo rest
    else a :: nfcDemo (b :: rest)

/-- NFC is the identity on ASCII text (true of Unicode NFC, and provable
for the `nfcDemo` fragment). -/
theorem nfcDemo_ascii : ∀ cs : List Char,
    (∀ c ∈ cs, c.toNat < 128) → nfcDemo cs = cs
  | [], _ => rfl
  | [_], _ => rfl
  | a :: b :: rest, h => by
    have hcond : ¬ (a = 'e' ∧ b = Char.ofNat 0x301) := by
      rintro ⟨-, rfl⟩
      have hb : (Char.ofNat 0x301).toNat < 128 := h _ (by simp)
      revert hb
      decide
    have ih := nfcDemo_ascii (b :: rest)
      (fun c hc => h c (List.mem_cons_of_mem a hc))
    simp only [nfcDemo, if_neg hcond, ih]

/-- The substitution pipeline maps ASCII text to ASCII text (it only ever
introduces spaces and newlines). -/
theorem normalizeCore_ascii {x : List Char}
    (hx : ∀ c ∈ x, c.toNat < 128) :
    ∀ c ∈ normalizeCore x, c.toNat < 128 := by
  intro c hc
  rcases mem_normalizeCore hc with h | h | h
  · subst h; decide
  · subst h; decide
  · have h1 := List.mem_filter.1 h
    rcases mem_map_nbsp h1.1 with h2 | h2
    · subst h2; decide
    · rcases mem_subCRLF h2 with h3 | h3
      · subst h3; decide
      · exact hx c h3

/-- **C5** (amended).  With the NFC step explicit (`nfc` models the
external `unicodedata` call, whose relied-on property — NFC is the
identity on ASCII text — is a hypothesis), `normalize_text_full` is
idempotent on every ASCII input, and `compute_content_hash_full` is
deterministic, with `None` and `""` both hashing the normalized empty
string.  Unrestricted idempotence is false for the source function:
`normalize_not_idempotent` exhibits a string (base letter, zero-width
space, combining accent) whose first normalization strips the zero-width
space and juxtaposes the letter with the accent, so the second
normalization's NFC step composes them into a different string. -/
theorem normalize_nfc_idem_hash_deterministic
    (nfc : List Char → List Char)
    (hascii : ∀ cs : List Char, (∀ c ∈ cs, c.toNat < 128) → nfc cs = cs) :
    (∀ s : String, (∀ c ∈ s.toList, c.toNat < 128) →
      normalize_text_full nfc (some (normalize_text_full nfc (some s))) =
        normalize_text_full nfc (some s)) ∧
    (∀ a b : Option String, a = b →
      compute_content_hash_full nfc a = compute_content_hash_full nfc b) ∧
    compute_content_hash_full nfc none =
      compute_content_hash_full nfc (some "") ∧
    compute_content_hash_full nfc none =
      sha256_text (normalize_text_full nfc (some "")) := by
  refine ⟨?_, fun a b h => by rw [h], rfl, rfl⟩
  intro s hs
  by_cases hse : s = ""
  · rw [hse]; rfl
  · have h1 : normalize_text_full nfc (some s) =
        if s = "" then "" else ⟨normalizeCore (nfc s.toList)⟩ := rfl
    rw [h1, if_neg hse, hascii s.toList hs]
    by_cases hy : normalizeCore s.toList = []
    · rw [hy]; rfl
    · have hne : (⟨normalizeCore s.toList⟩ : String) ≠ "" := by
        intro hcon
        exact hy (congrArg String.data hcon)
      have h2 : normalize_text_full nfc
          (some (⟨normalizeCore s.toList⟩ : String)) =
          if (⟨normalizeCore s.toList⟩ : String) = "" then ""
          else ⟨normalizeCore (nfc (normalizeCore s.toList))⟩ := rfl
      rw [h2, if_neg hne,
        hascii (normalizeCore s.toList) (normalizeCore_ascii hs),
        normalizeCore_idem]

/-- **C5** counterexample.  `normalize_text` is not idempotent in the
source: on `e` + U+200B + U+0301 (itself an NFC fixed point) the first
pass deletes the zero-width space, leaving `e` + U+0301, and the second
pass's NFC step composes that into U+00E9, a different string.
`nfcDemo` agrees with `unicodedata.normalize("NFC", x)` on both strings
involved. -/
theorem normalize_not_idempotent :
    normalize_text_full nfcDemo (some (normalize_text_full nfcDemo
        (some "e\u200B\u0301"))) ≠
      normalize_text_full nfcDemo (some "e\u200B\u0301") := by
  have hA : normalize_text_full nfcDemo (some "e\u200B\u0301") =
      ⟨['e', Char.ofNat 0x301]⟩ := by
    have h1 : normalize_text_full nfcDemo (some "e\u200B\u0301") =
        if ("e\u200B\u0301" : String) = "" then ""
        else ⟨normalizeCore (nfcDemo "e\u200B\u0301".toList)⟩ := rfl
    rw [h1, if_neg (by decide),
      show nfcDemo "e\u200B\u0301".toList =
        ['e', Char.ofNat 0x200b, Char.ofNat 0x301] from by decide]
    unfold normalizeCore
    rw [show subCRLF ['e', Char.ofNat 0x200b, Char.ofNat 0x301] =
        ['e', Char.ofNat 0x200b, Char.ofNat 0x301] from by decide]
    rw [show (['e', Char.ofNat 0x200b,
          Char.ofNat 0x301].map nbspToSpace) =
        ['e', Char.ofNat 0x200b, Char.ofNat 0x301] from by decide]
    rw [show (['e', Char.ofNat 0x200b,
          Char.ofNat 0x301].filter (fun c => !isZeroWidth c)) =
        ['e', Char.ofNat 0x301] from by decide]
    rw [subWsRun_id _ (by decide) (by decide),
      subTrailWs_id _ (by decide) (by decide) (by decide),
      subBlankLines_id _ (by decide)]
    decide
  have hB : normalize_text_full nfcDemo
      (some (⟨['e', Char.ofNat 0x301]⟩ : String)) =
      ⟨[Char.ofNat 0xe9]⟩ := by
    have h1 : normalize_text_full nfcDemo
        (some (⟨['e', Char.ofNat 0x301]⟩ : String)) =
        if (⟨['e', Char.ofNat 0x301]⟩ : String) = "" then ""
        else ⟨normalizeCore (nfcDemo ['e', Char.ofNat 0x301])⟩ := rfl
    rw [h1, if_neg (by decide),
      show nfcDemo ['e', Char.ofNat 0x301] = [Char.ofNat 0xe9] from by decide]
    unfold normalizeCore
    rw [show subCRLF [Char.ofNat 0xe9] = [Char.ofNat 0xe9] from by decide]
    rw [show ([Char.ofNat 0xe9].map nbspToSpace) = [Char.ofNat 0xe9] from
      by decide]
    rw [show ([Char.ofNat 0xe9].filter (fun c => !isZeroWidth c)) =
        [Char.ofNat 0xe9] from by decide]
    rw [subWsRun_id _ (by decide) (by decide),
      subTrailWs_id _ (by decide) (by decide) (by decide),
      subBlankLines_id _ (by decide)]
    decide
  rw [hA, hB]
  decide

/-- Witness for `normalize_nfc_idem_hash_deterministic`, instantiated at
the `nfcDemo` fragment (which satisfies the ASCII hypothesis) and
concrete ASCII inputs. -/
theorem normalize_nfc_idem_hash_deterministic_witness :
    normalize_text_full nfcDemo (some (normalize_text_full nfcDemo
        (some "Hello  World"))) =
      normalize_text_full nfcDemo (some "Hello  World") ∧
    compute_content_hash_full nfcDemo (some "x") =
      compute_content_hash_full nfcDemo (some "x") :=
  ⟨(normalize_nfc_idem_hash_deterministic nfcDemo nfcDemo_ascii).1
      "Hello  World" (by decide),
    (normalize_nfc_idem_hash_deterministic nfcDemo nfcDemo_ascii).2.1
      (some "x") (some "x") rfl⟩

/-! ## Timestamp parsing (`_to_dt`, src/app/ingest/should_ingest.py)

`datetime.fromisoformat` is an external library call; it is modelled for
the grammar relevant to the preprocessed inputs (Python ≥ 3.11 semantics):
`YYYY-MM-DD` optionally followed by a one-character separator and
`HH[:MM[:SS[.f+]]]` with an optional offset `Z`/`z`/`±HH:MM`/`±HHMM`;
fractions longer than six digits are truncated by the library itself.
Calendar and field ranges are validated as the `datetime` constructor
does.  A `datetime` instance passed to `_to_dt` is returned unchanged in
the source and is outside the string model. -/

structure PyDatetime where
  year : Nat
  month : Nat
  day : Nat
  hour : Nat
  minute : Nat
  second : Nat
  microsecond : Nat
  /-- `none` models a naive datetime; `some o` an aware one with UTC
  offset `o` minutes. -/
  tzOffsetMinutes : Option Int
  deriving DecidableEq, Repr

def read2 : List Char → Option (Nat × List Char)
  | a :: b :: rest =>
    if a.isDigit && b.isDigit then
      some ((a.toNat - 48) * 10 + (b.toNat - 48), rest)
    else none
  | _ => none

def read4 : List Char → Option (Nat × List Char)
  | a :: b :: c :: d :: rest =>
    if a.isDigit && b.isDigit && c.isDigit && d.isDigit then
      some ((((a.toNat - 48) * 10 + (b.toNat - 48)) * 10 + (c.toNat - 48))
        * 10 + (d.toNat - 48), rest)
    else none
  | _ => none

def isLeap (y : Nat) : Bool := (y % 4 = 0 && y % 100 ≠ 0) || y % 400 = 0

def daysInMonth (y m : Nat) : Nat :=
  if m = 2 then (if isLeap y then 29 else 28)
  else if m = 4 || m = 6 || m = 9 || m = 11 then 30
  else 31

/-- Trailing UTC-offset part of an ISO time: empty (naive), `Z`/`z`, or
`±HH:MM` / `±HHMM`, yielding the offset in minutes. -/
def parseOffset : List Char → Option (Option Int)
  | [] => some none
  | ['Z'] => some (some 0)
  | ['z'] => some (some 0)
  | sign :: rest =>
    if sign = '+' ∨ sign = '-' then
      let sgn : Int := if sign = '+' then 1 else -1
      match rest with
      | [h1, h2, ':', m1, m2] =>
        match read2 [h1, h2], read2 [m1, m2] with
        | some (hh, _), some (mm, _) =>
          if hh ≤ 23 ∧ mm ≤ 59 then some (some (sgn * (hh * 60 + mm)))
          else none
        | _, _ => none
      | [h1, h2, m1, m2] =>
        match read2 [h1, h2], read2 [m1, m2] with
        | some (hh, _), some (mm, _) =>
          if hh ≤ 23 ∧ mm ≤ 59 then some (some (sgn * (hh * 60 + mm)))
          else none
        | _, _ => none
      | _ => none
    else none

/-- Value in microseconds of a fraction digit string (truncated to six
digits, then scaled to six places). -/
def fracValue (ds : List Char) : Nat :=
  ((ds.take 6).foldl (fun acc c => acc * 10 + (c.toNat - 48)) 0) *
    10 ^ (6 - (ds.take 6).length)

/-- `HH[:MM[:SS[.f+]]]` followed by an optional offset. -/
def parseTime (cs : List Char) :
    Option (Nat × Nat × Nat × Nat × Option Int) :=
  match read2 cs with
  | none => none
  | some (h, r1) =>
    match r1 with
    | ':' :: r2 =>
      match read2 r2 with
      | none => none
      | some (mi, r3) =>
        match r3 with
        | ':' :: r4 =>
          match read2 r4 with
          | none => none
          | some (s, r5) =>
            match r5 with
            | '.' :: r6 =>
              let ds := r6.takeWhile Char.isDigit
              if ds = [] then none
              else
                match parseOffset (r6.drop ds.length) with
                | none => none
                | some tz => some (h, mi, s, fracValue ds, tz)
            | _ =>
              match parseOffset r5 with
              | none => none
              | some tz => some (h, mi, s, 0, tz)
        | _ =>
          match parseOffset r3 with
          | none => none
          | some tz => some (h, mi, 0, 0, tz)
    | _ =>
      match parseOffset r1 with
      | none => none
      | some tz => some (h, 0, 0, 0, tz)

/-- Model of `datetime.fromisoformat` (see the section comment). -/
def fromisoformat (cs : List Char) : Option PyDatetime :=
  match read4 cs with
  | none => none
  | some (y, r1) =>
    match r1 with
    | '-' :: r2 =>
      match read2 r2 with
      | none => none
      | some (m, r3) =>
        match r3 with
        | '-' :: r4 =>
          match read2 r4 with
          | none => none
          | some (d, r5) =>
            if 1 ≤ y ∧ 1 ≤ m ∧ m ≤ 12 ∧ 1 ≤ d ∧ d ≤ daysInMonth y m then
              match r5 with
              | [] => some ⟨y, m, d, 0, 0, 0, 0, none⟩
              | _ :: tr =>
                match parseTime tr with
                | none => none
                | some (h, mi, sec, us, tz) =>
                  if h ≤ 23 ∧ mi ≤ 59 ∧ sec ≤ 59 then
                    some ⟨y, m, d, h, mi, sec, us, tz⟩
                  else none
            else none
        | _ => none
    | _ => none

/-- Python `str.find(ch, start)`: index of the first occurrence at or
after `start`, `-1` if absent. -/
def findCharFrom (cs : List Char) (c : Char) (start : Nat) : Int :=
  match List.findIdx? (fun x => x = c) (cs.drop start) with
  | some i => (start + i : Int)
  | none => -1

/-- The preprocessing and parse of `_to_dt` on a raw character list:
trailing `Z` → `+00:00`; compact `±HHMM` offset gets a colon; a fraction
longer than six digits inside the time part is truncated; a ten-character
date-only string parses as UTC midnight; otherwise `fromisoformat` (and
`None` on failure). -/
def toDtChars (cs0 : List Char) : Option PyDatetime :=
  let s1 := pyStrip cs0
  let s2 :=
    if s1.getLast? = some 'Z' then
      s1.dropLast ++ ['+', '0', '0', ':', '0', '0']
    else
      if 5 ≤ s1.length ∧
          (s1.getD (s1.length - 5) ' ' = '+' ∨ s1.getD (s1.length - 5) ' ' = '-') ∧
          s1.getD (s1.length - 3) ' ' ≠ ':' then
        s1.take (s1.length - 2) ++ ':' :: s1.drop (s1.length - 2)
      else s1
  let s3 :=
    if s2.contains 'T' then
      let dateP := s2.takeWhile (fun x => x ≠ 'T')
      let timeP := (s2.dropWhile (fun x => x ≠ 'T')).drop 1
      let fracIdx := findCharFrom timeP '.' 0
      if fracIdx = -1 then s2
      else
        let fi := fracIdx.toNat
        let tzRaw := max (findCharFrom timeP '+' fi) (findCharFrom timeP '-' fi)
        let tzIdx := if tzRaw = -1 then (timeP.length : Int) else tzRaw
        let tzn := tzIdx.toNat
        let frac := (timeP.drop (fi + 1)).take (tzn - (fi + 1))
        if 6 < frac.length then
          dateP ++ 'T' ::
            (timeP.take (fi + 1) ++ frac.take 6 ++ timeP.drop tzn)
        else s2
    else s2
  if ¬ s3.contains 'T' ∧ s3.length = 10 then
    (fromisoformat s3).map (fun dt => { dt with tzOffsetMinutes := some 0 })
  else fromisoformat s3

/-- `_to_dt(val)` from `src/app/ingest/should_ingest.py` on optional
strings (`None` and `""` are falsy → `None`). -/
def toDt (val : Option String) : Option PyDatetime :=
  match val with
  | none => none
  | some s => if s = "" then none else toDtChars s.toList

/-! ### Acceptance lemmas for `_to_dt` (claim C4) -/

theorem dchar_props {k : Nat} (hk : k < 10) :
    (Char.ofNat (48 + k)).isDigit = true ∧
    (Char.ofNat (48 + k)).toNat - 48 = k ∧
    Char.ofNat (48 + k) ≠ 'T' ∧ Char.ofNat (48 + k) ≠ '.' ∧
    Char.ofNat (48 + k) ≠ '+' ∧ Char.ofNat (48 + k) ≠ '-' ∧
    Char.ofNat (48 + k) ≠ ':' ∧ Char.ofNat (48 + k) ≠ 'Z' ∧
    Char.ofNat (48 + k) ≠ 'z' ∧ pyWs (Char.ofNat (48 + k)) = false := by
  interval_cases k <;> refine ⟨by decide, by decide, by decide, by decide,
    by decide, by decide, by decide, by decide, by decide, by decide⟩

/-- Two-digit zero-padded rendering of `n < 100`. -/
def pad2 (n : Nat) : List Char :=
  [Char.ofNat (48 + n / 10 % 10), Char.ofNat (48 + n % 10)]

/-- Four-digit zero-padded rendering of `n < 10000`. -/
def pad4 (n : Nat) : List Char :=
  [Char.ofNat (48 + n / 1000 % 10), Char.ofNat (48 + n / 100 % 10),
   Char.ofNat (48 + n / 10 % 10), Char.ofNat (48 + n % 10)]

theorem read2_pad2 {n : Nat} (hn : n < 100) (rest : List Char) :
    read2 (pad2 n ++ rest) = some (n, rest) := by
  obtain ⟨hd1, hv1, -⟩ := dchar_props (k := n / 10 % 10) (Nat.mod_lt _ (by omega))
  obtain ⟨hd2, hv2, -⟩ := dchar_props (k := n % 10) (Nat.mod_lt _ (by omega))
  simp only [pad2, List.cons_append, List.nil_append, read2, hd1, hd2,
    Bool.and_self, if_pos]
  rw [hv1, hv2]
  congr 1
  congr 1
  omega

theorem read4_pad4 {n : Nat} (hn : n < 10000) (rest : List Char) :
    read4 (pad4 n ++ rest) = some (n, rest) := by
  obtain ⟨hd1, hv1, -⟩ := dchar_props (k := n / 1000 % 10) (Nat.mod_lt _ (by omega))
  obtain ⟨hd2, hv2, -⟩ := dchar_props (k := n / 100 % 10) (Nat.mod_lt _ (by omega))
  obtain ⟨hd3, hv3, -⟩ := dchar_props (k := n / 10 % 10) (Nat.mod_lt _ (by omega))
  obtain ⟨hd4, hv4, -⟩ := dchar_props (k := n % 10) (Nat.mod_lt _ (by omega))
  simp only [pad4, List.cons_append, List.nil_append, read4, hd1, hd2, hd3,
    hd4, Bool.and_self, if_pos]
  rw [hv1, hv2, hv3, hv4]
  congr 1
  congr 1
  omega

/-- `YYYY-MM-DD`. -/
def renderDate (y m d : Nat) : List Char :=
  pad4 y ++ '-' :: pad2 m ++ '-' :: pad2 d

/-- `HH:MM:SS`. -/
def renderTime (h mi s : Nat) : List Char :=
  pad2 h ++ ':' :: pad2 mi ++ ':' :: pad2 s

/-- `YYYY-MM-DDTHH:MM:SS`. -/
def renderDT (y m d h mi s : Nat) : List Char :=
  renderDate y m d ++ 'T' :: renderTime h mi s

/-- Every character of `pad2 n` is a rendered digit. -/
theorem mem_pad2_spec {n : Nat} :
    ∀ c ∈ pad2 n, ∃ k, k < 10 ∧ c = Char.ofNat (48 + k) := by
  intro c hc
  rcases List.mem_cons.1 hc with h | hc2
  · exact ⟨n / 10 % 10, Nat.mod_lt _ (by omega), h⟩
  rcases List.mem_cons.1 hc2 with h | hc3
  · exact ⟨n % 10, Nat.mod_lt _ (by omega), h⟩
  · simp at hc3

/-- Every character of `pad4 n` is a rendered digit. -/
theorem mem_pad4_spec {n : Nat} :
    ∀ c ∈ pad4 n, ∃ k, k < 10 ∧ c = Char.ofNat (48 + k) := by
  intro c hc
  rcases List.mem_cons.1 hc with h | hc2
  · exact ⟨n / 1000 % 10, Nat.mod_lt _ (by omega), h⟩
  rcases List.mem_cons.1 hc2 with h | hc3
  · exact ⟨n / 100 % 10, Nat.mod_lt _ (by omega), h⟩
  rcases List.mem_cons.1 hc3 with h | hc4
  · exact ⟨n / 10 % 10, Nat.mod_lt _ (by omega), h⟩
  rcases List.mem_cons.1 hc4 with h | hc5
  · exact ⟨n % 10, Nat.mod_lt _ (by omega), h⟩
  · simp at hc5

theorem mem_renderDate {c : Char} {y m d : Nat} (h : c ∈ renderDate y m d) :
    (∃ k, k < 10 ∧ c = Char.ofNat (48 + k)) ∨ c = '-' := by
  unfold renderDate at h
  have hcases : c ∈ pad4 y ∨ c = '-' ∨ c ∈ pad2 m ∨ c ∈ pad2 d := by
    simp only [List.mem_append, List.mem_cons] at h
    tauto
  rcases hcases with h1 | h1 | h1 | h1
  · exact Or.inl (mem_pad4_spec c h1)
  · exact Or.inr h1
  · exact Or.inl (mem_pad2_spec c h1)
  · exact Or.inl (mem_pad2_spec c h1)

theorem mem_renderTime {c : Char} {hh mi s : Nat}
    (h : c ∈ renderTime hh mi s) :
    (∃ k, k < 10 ∧ c = Char.ofNat (48 + k)) ∨ c = ':' := by
  unfold renderTime at h
  have hcases : c ∈ pad2 hh ∨ c = ':' ∨ c ∈ pad2 mi ∨ c ∈ pad2 s := by
    simp only [List.mem_append, List.mem_cons] at h
    tauto
  rcases hcases with h1 | h1 | h1 | h1
  · exact Or.inl (mem_pad2_spec c h1)
  · exact Or.inr h1
  · exact Or.inl (mem_pad2_spec c h1)
  · exact Or.inl (mem_pad2_spec c h1)

theorem not_T_mem_renderDate {y m d : Nat} : 'T' ∉ renderDate y m d := by
  intro h
  rcases mem_renderDate h with ⟨k, hk, hc⟩ | hc
  · exact (dchar_props hk).2.2.1 hc.symm
  · exact absurd hc (by decide)

theorem not_dot_mem_renderTime {hh mi s : Nat} :
    '.' ∉ renderTime hh mi s := by
  intro h
  rcases mem_renderTime h with ⟨k, hk, hc⟩ | hc
  · exact (dchar_props hk).2.2.2.1 hc.symm
  · exact absurd hc (by decide)

theorem pyStrip_eq_self {l : List Char}
    (hh : ∀ c, l.head? = some c → pyWs c = false)
    (hl : ∀ c, l.getLast? = some c → pyWs c = false) : pyStrip l = l := by
  unfold pyStrip
  have hdw : l.dropWhile pyWs = l := by
    rw [List.dropWhile_eq_self_iff]
    intro hp
    cases l with
    | nil => simp at hp
    | cons a t =>
      have := hh a rfl
      simp [this]
  rw [hdw, List.rdropWhile_eq_self_iff]
  intro hne
  have := hl (l.getLast hne) (List.getLast?_eq_getLast l hne)
  simp [this]

theorem read2_pad2_nil {n : Nat} (hn : n < 100) :
    read2 (pad2 n) = some (n, []) := by
  have := read2_pad2 hn []
  rwa [List.append_nil] at this

theorem parseOffset_plus_colon {hh mm : Nat} (h1 : hh ≤ 23) (h2 : mm ≤ 59) :
    parseOffset ('+' :: (pad2 hh ++ ':' :: pad2 mm)) =
      some (some ((hh : Int) * 60 + mm)) := by
  have e1 := read2_pad2_nil (n := hh) (by omega)
  have e2 := read2_pad2_nil (n := mm) (by omega)
  unfold pad2 at e1 e2 ⊢
  simp only [List.cons_append, List.nil_append]
  unfold parseOffset
  split
  case _ h => exact absurd h (by simp)
  case _ h => exact absurd h (by simp)
  case _ h => exact absurd h (by simp)
  case _ sign rest hne1 hne2 hne3 heq =>
    injection heq with hs1 hs2
    subst hs1
    subst hs2
    rw [if_pos (Or.inl rfl)]
    simp only [e1, e2]
    rw [if_pos ⟨h1, h2⟩]
    simp

theorem parseOffset_minus_colon {hh mm : Nat} (h1 : hh ≤ 23) (h2 : mm ≤ 59) :
    parseOffset ('-' :: (pad2 hh ++ ':' :: pad2 mm)) =
      some (some (-((hh : Int) * 60 + mm))) := by
  have e1 := read2_pad2_nil (n := hh) (by omega)
  have e2 := read2_pad2_nil (n := mm) (by omega)
  unfold pad2 at e1 e2 ⊢
  simp only [List.cons_append, List.nil_append]
  unfold parseOffset
  split
  case _ h => exact absurd h (by simp)
  case _ h => exact absurd h (by simp)
  case _ h => exact absurd h (by simp)
  case _ sign rest hne1 hne2 hne3 heq =>
    injection heq with hs1 hs2
    subst hs1
    subst hs2
    rw [if_pos (Or.inr rfl)]
    simp only [e1, e2]
    rw [if_pos ⟨h1, h2⟩]
    have hsg : (if ('-' : Char) = '+' then (1 : Int) else -1) = -1 := by decide
    rw [hsg]
    simp

theorem parseOffset_z : parseOffset ['Z'] = some (some 0) := rfl

theorem parseTime_render {h mi s : Nat} (hh : h < 100) (hmi : mi < 100)
    (hs : s < 100) (off : List Char) (hoff : ∀ r, off ≠ '.' :: r) :
    parseTime (renderTime h mi s ++ off) =
      match parseOffset off with
      | none => none
      | some tz => some (h, mi, s, 0, tz) := by
  have e1 : renderTime h mi s ++ off =
      pad2 h ++ (':' :: (pad2 mi ++ (':' :: (pad2 s ++ off)))) := by
    unfold renderTime
    simp [List.append_assoc]
  rw [e1]
  unfold parseTime
  rw [read2_pad2 hh]
  simp only [read2_pad2 hmi, read2_pad2 hs]

theorem daysInMonth_le (y m : Nat) : daysInMonth y m ≤ 31 := by
  unfold daysInMonth
  split_ifs <;> omega

theorem fromiso_render {y m d h mi s : Nat}
    (hy1 : 1 ≤ y) (hy2 : y ≤ 9999) (hm1 : 1 ≤ m) (hm2 : m ≤ 12)
    (hd1 : 1 ≤ d) (hd2 : d ≤ daysInMonth y m)
    (hh : h ≤ 23) (hmi : mi ≤ 59) (hs : s ≤ 59)
    (off : List Char) (hoff : ∀ r, off ≠ '.' :: r) :
    fromisoformat (renderDT y m d h mi s ++ off) =
      match parseOffset off with
      | none => none
      | some tz => some ⟨y, m, d, h, mi, s, 0, tz⟩ := by
  have e1 : renderDT y m d h mi s ++ off =
      pad4 y ++ ('-' :: (pad2 m ++ ('-' :: (pad2 d ++
        ('T' :: (renderTime h mi s ++ off)))))) := by
    unfold renderDT renderDate
    simp [List.append_assoc]
  rw [e1]
  unfold fromisoformat
  rw [read4_pad4 (by omega)]
  have hd100 : d < 100 := by
    have := daysInMonth_le y m
    omega
  simp only [read2_pad2 (show m < 100 by omega), read2_pad2 hd100]
  rw [if_pos ⟨hy1, hm1, hm2, hd1, hd2⟩]
  rw [parseTime_render (by omega) (by omega) (by omega) off hoff]
  cases parseOffset off with
  | none => rfl
  | some tz => simp [hh, hmi, hs]

theorem fromiso_render_date {y m d : Nat}
    (hy1 : 1 ≤ y) (hy2 : y ≤ 9999) (hm1 : 1 ≤ m) (hm2 : m ≤ 12)
    (hd1 : 1 ≤ d) (hd2 : d ≤ daysInMonth y m) :
    fromisoformat (renderDate y m d) = some ⟨y, m, d, 0, 0, 0, 0, none⟩ := by
  have e1 : renderDate y m d =
      pad4 y ++ ('-' :: (pad2 m ++ ('-' :: (pad2 d ++ [])))) := by
    unfold renderDate
    simp [List.append_assoc]
  rw [e1]
  unfold fromisoformat
  rw [read4_pad4 (by omega)]
  have hd100 : d < 100 := by
    have := daysInMonth_le y m
    omega
  simp only [read2_pad2 (show m < 100 by omega), read2_pad2 hd100]
  rw [if_pos ⟨hy1, hm1, hm2, hd1, hd2⟩]

theorem renderTime_length (h mi s : Nat) : (renderTime h mi s).length = 8 := by
  simp [renderTime, pad2]

theorem renderDate_length (y m d : Nat) : (renderDate y m d).length = 10 := by
  simp [renderDate, pad2, pad4]

theorem findIdx?_first {p : Char → Bool} :
    ∀ {u : List Char}, (∀ x ∈ u, p x = false) → ∀ {c : Char}, p c = true →
    ∀ (v : List Char), List.findIdx? p (u ++ c :: v) = some u.length := by
  intro u
  induction u with
  | nil =>
    intro _ c hc v
    simp [List.findIdx?_cons, hc]
  | cons a u' ih =>
    intro hu c hc v
    rw [List.cons_append, List.findIdx?_cons, hu a (by simp)]
    simp [ih (fun x hx => hu x (by simp [hx])) hc v]

theorem takeWhile_digits_append {u v : List Char}
    (hu : ∀ x ∈ u, x.isDigit = true)
    (hv : ∀ c r, v = c :: r → c.isDigit = false) :
    (u ++ v).takeWhile Char.isDigit = u ∧
    (u ++ v).dropWhile Char.isDigit = v := by
  induction u with
  | nil =>
    cases v with
    | nil => exact ⟨rfl, rfl⟩
    | cons c r =>
      simp [List.takeWhile_cons, List.dropWhile_cons, hv c r rfl]
  | cons a u' ih =>
    obtain ⟨ih1, ih2⟩ := ih (fun x hx => hu x (by simp [hx]))
    constructor
    · rw [List.cons_append, List.takeWhile_cons, hu a (by simp)]
      simp [ih1]
    · rw [List.cons_append, List.dropWhile_cons, hu a (by simp)]
      simp [ih2]

theorem takeWhile_ne_append {c : Char} :
    ∀ {u : List Char}, c ∉ u → ∀ (v : List Char),
    ((u ++ c :: v).takeWhile (fun x => x ≠ c) = u ∧
     (u ++ c :: v).dropWhile (fun x => x ≠ c) = c :: v) := by
  intro u
  induction u with
  | nil =>
    intro _ v
    constructor <;> simp [List.takeWhile_cons, List.dropWhile_cons]
  | cons a u' ih =>
    intro hu v
    have ha : a ≠ c := fun hcon => hu (by simp [hcon])
    obtain ⟨ih1, ih2⟩ := ih (fun hm => hu (by simp [hm])) v
    simp only [decide_not] at ih1 ih2
    constructor
    · rw [List.cons_append, List.takeWhile_cons]
      simp [ha, ih1]
    · rw [List.cons_append, List.dropWhile_cons]
      simp [ha, ih2]

theorem dchar_ws {k : Nat} (hk : k < 10) :
    pyWs (Char.ofNat (48 + k)) = false :=
  (dchar_props hk).2.2.2.2.2.2.2.2.2

theorem dchar_ne_dot {k : Nat} (hk : k < 10) :
    Char.ofNat (48 + k) ≠ '.' :=
  (dchar_props hk).2.2.2.1

theorem dchar_ne_Z {k : Nat} (hk : k < 10) :
    Char.ofNat (48 + k) ≠ 'Z' :=
  (dchar_props hk).2.2.2.2.2.2.2.1

theorem dchar_ne_plus {k : Nat} (hk : k < 10) :
    Char.ofNat (48 + k) ≠ '+' :=
  (dchar_props hk).2.2.2.2.1

theorem dchar_ne_minus {k : Nat} (hk : k < 10) :
    Char.ofNat (48 + k) ≠ '-' :=
  (dchar_props hk).2.2.2.2.2.1

theorem dchar_ne_colon {k : Nat} (hk : k < 10) :
    Char.ofNat (48 + k) ≠ ':' :=
  (dchar_props hk).2.2.2.2.2.2.1

theorem head_renderDT (y m d h mi s : Nat) (X : List Char) :
    (renderDT y m d h mi s ++ X).head? =
      some (Char.ofNat (48 + y / 1000 % 10)) := by
  simp [renderDT, renderDate, pad4]

theorem contains_true_of_mem {l : List Char} {c : Char} (h : c ∈ l) :
    l.contains c = true := by
  simpa using h

theorem contains_false_of_not_mem {l : List Char} {c : Char} (h : c ∉ l) :
    l.contains c = false := by
  simpa using h

theorem strip_renderDT_concat {y m d h mi s : Nat} {X : List Char}
    (hX : X ≠ []) (hlast : ∀ c, X.getLast? = some c → pyWs c = false) :
    pyStrip (renderDT y m d h mi s ++ X) = renderDT y m d h mi s ++ X := by
  apply pyStrip_eq_self
  · intro c hc
    rw [head_renderDT] at hc
    injection hc with hc1
    rw [← hc1]
    exact dchar_ws (Nat.mod_lt _ (by omega))
  · intro c hc
    rw [List.getLast?_append_of_ne_nil _ hX] at hc
    exact hlast c hc

theorem toDtChars_renderZ {y m d h mi s : Nat}
    (hy1 : 1 ≤ y) (hy2 : y ≤ 9999) (hm1 : 1 ≤ m) (hm2 : m ≤ 12)
    (hd1 : 1 ≤ d) (hd2 : d ≤ daysInMonth y m)
    (hh : h ≤ 23) (hmi : mi ≤ 59) (hs : s ≤ 59) :
    toDtChars (renderDT y m d h mi s ++ ['Z']) =
      some ⟨y, m, d, h, mi, s, 0, some 0⟩ := by
  have hstrip : pyStrip (renderDT y m d h mi s ++ ['Z']) =
      renderDT y m d h mi s ++ ['Z'] :=
    strip_renderDT_concat (by simp)
      (fun c hc => by
        simp only [List.getLast?_singleton, Option.some.injEq] at hc
        rw [← hc]
        decide)
  have hlastZ : (renderDT y m d h mi s ++ ['Z']).getLast? = some 'Z' :=
    List.getLast?_concat _
  have hdrop : (renderDT y m d h mi s ++ ['Z']).dropLast =
      renderDT y m d h mi s := List.dropLast_concat ..
  simp only [toDtChars]
  rw [hstrip, hlastZ, if_pos rfl, hdrop]
  -- s2 = renderDT ++ "+00:00"
  have hs2 : renderDT y m d h mi s ++ ['+', '0', '0', ':', '0', '0'] =
      renderDate y m d ++ 'T' :: (renderTime h mi s ++ ['+', '0', '0', ':', '0', '0']) := by
    unfold renderDT
    simp [List.append_assoc]
  rw [hs2]
  have hconT : (renderDate y m d ++ 'T' ::
      (renderTime h mi s ++ ['+', '0', '0', ':', '0', '0'])).contains 'T' = true :=
    contains_true_of_mem (by simp)
  rw [hconT, if_pos rfl]
  obtain ⟨htk, hdw⟩ := takeWhile_ne_append (c := 'T') not_T_mem_renderDate
    (renderTime h mi s ++ ['+', '0', '0', ':', '0', '0'])
  rw [htk, hdw]
  simp only [List.drop_succ_cons, List.drop_zero]
  have hdot : List.findIdx? (fun x => x = '.')
      (renderTime h mi s ++ ['+', '0', '0', ':', '0', '0']) = none := by
    rw [List.findIdx?_eq_none_iff]
    intro x hx
    rcases List.mem_append.1 hx with h1 | h1
    · rcases mem_renderTime h1 with ⟨k, hk, hcx⟩ | hcx
      · simp [hcx, dchar_ne_dot hk]
      · simp [hcx]
    · rcases List.mem_cons.1 h1 with h2 | h2
      · simp [h2]
      rcases List.mem_cons.1 h2 with h3 | h3
      · simp [h3]
      rcases List.mem_cons.1 h3 with h4 | h4
      · simp [h4]
      rcases List.mem_cons.1 h4 with h5 | h5
      · simp [h5]
      rcases List.mem_cons.1 h5 with h6 | h6
      · simp [h6]
      rcases List.mem_cons.1 h6 with h7 | h7
      · simp [h7]
      · simp at h7
  have hfind : findCharFrom
      (renderTime h mi s ++ ['+', '0', '0', ':', '0', '0']) '.' 0 = -1 := by
    unfold findCharFrom
    rw [List.drop_zero, hdot]
  rw [hfind, if_pos rfl]
  rw [if_neg (by simp [hconT])]
  have hpad0 : pad2 0 = ['0', '0'] := by decide
  have hoffform : renderDate y m d ++ 'T' ::
      (renderTime h mi s ++ ['+', '0', '0', ':', '0', '0']) =
      renderDT y m d h mi s ++ ('+' :: (pad2 0 ++ ':' :: pad2 0)) := by
    rw [hpad0]
    unfold renderDT
    simp [List.append_assoc]
  rw [hoffform]
  rw [fromiso_render hy1 hy2 hm1 hm2 hd1 hd2 hh hmi hs _ (by simp)]
  rw [parseOffset_plus_colon (by omega) (by omega)]
  simp


theorem digit_ne {c : Char} (h : c.isDigit = true) :
    c ≠ 'T' ∧ c ≠ '+' ∧ c ≠ '-' ∧ c ≠ '.' ∧ c ≠ ':' := by
  refine ⟨?_, ?_, ?_, ?_, ?_⟩ <;>
    (intro hc; rw [hc] at h; exact absurd h (by decide))

theorem getLast?_renderDate (y m d : Nat) :
    (renderDate y m d).getLast? = some (Char.ofNat (48 + d % 10)) := by
  simp [renderDate, pad2, pad4]

theorem getD5_renderDate (y m d : Nat) :
    (renderDate y m d).getD 5 ' ' = Char.ofNat (48 + m / 10 % 10) := by
  simp [renderDate, pad2, pad4]

theorem head?_renderDate (y m d : Nat) :
    (renderDate y m d).head? = some (Char.ofNat (48 + y / 1000 % 10)) := by
  simp [renderDate, pad4]

theorem toDtChars_renderDate {y m d : Nat}
    (hy1 : 1 ≤ y) (hy2 : y ≤ 9999) (hm1 : 1 ≤ m) (hm2 : m ≤ 12)
    (hd1 : 1 ≤ d) (hd2 : d ≤ daysInMonth y m) :
    toDtChars (renderDate y m d) =
      some ⟨y, m, d, 0, 0, 0, 0, some 0⟩ := by
  have hstrip : pyStrip (renderDate y m d) = renderDate y m d := by
    apply pyStrip_eq_self
    · intro c hc
      rw [head?_renderDate] at hc
      injection hc with hc1
      rw [← hc1]
      exact dchar_ws (Nat.mod_lt _ (by omega))
    · intro c hc
      rw [getLast?_renderDate] at hc
      injection hc with hc1
      rw [← hc1]
      exact dchar_ws (Nat.mod_lt _ (by omega))
  simp only [toDtChars]
  rw [hstrip, getLast?_renderDate, renderDate_length]
  have hZ : (some (Char.ofNat (48 + d % 10)) = some 'Z') = False :=
    eq_false (by
      intro hcon
      injection hcon with hc1
      exact dchar_ne_Z (Nat.mod_lt _ (by omega)) hc1)
  simp only [hZ, if_false]
  have h55 : (10 : Nat) - 5 = 5 := rfl
  rw [h55, getD5_renderDate]
  have hC : ((5 : Nat) ≤ 10 ∧
      (Char.ofNat (48 + m / 10 % 10) = '+' ∨
        Char.ofNat (48 + m / 10 % 10) = '-') ∧
      (renderDate y m d).getD (10 - 3) ' ' ≠ ':') = False :=
    eq_false (by
      rintro ⟨-, h2 | h2, -⟩
      · exact dchar_ne_plus (Nat.mod_lt _ (by omega)) h2
      · exact dchar_ne_minus (Nat.mod_lt _ (by omega)) h2)
  simp only [hC, if_false]
  have hconT : (renderDate y m d).contains 'T' = false :=
    contains_false_of_not_mem not_T_mem_renderDate
  simp only [hconT, Bool.false_eq_true, if_false, renderDate_length,
    not_false_eq_true, and_self, if_true]
  rw [fromiso_render_date hy1 hy2 hm1 hm2 hd1 hd2]
  rfl


theorem getLast?_offset (sign : Char) (oh om : Nat) :
    (sign :: (pad2 oh ++ ':' :: pad2 om)).getLast? =
      some (Char.ofNat (48 + om % 10)) := by
  simp [pad2]

theorem toDtChars_renderOffset {y m d h mi s oh om : Nat} {sign : Char}
    (hy1 : 1 ≤ y) (hy2 : y ≤ 9999) (hm1 : 1 ≤ m) (hm2 : m ≤ 12)
    (hd1 : 1 ≤ d) (hd2 : d ≤ daysInMonth y m)
    (hh : h ≤ 23) (hmi : mi ≤ 59) (hs : s ≤ 59)
    (hoh : oh ≤ 23) (hom : om ≤ 59)
    (hsign : sign = '+' ∨ sign = '-') :
    toDtChars (renderDT y m d h mi s ++ sign :: (pad2 oh ++ ':' :: pad2 om)) =
      some ⟨y, m, d, h, mi, s, 0,
        some ((if sign = '+' then 1 else -1) * ((oh : Int) * 60 + om))⟩ := by
  have hsne : sign ≠ '.' ∧ sign ≠ 'T' := by
    rcases hsign with h1 | h1 <;> rw [h1] <;> exact ⟨by decide, by decide⟩
  have hstrip : pyStrip (renderDT y m d h mi s ++
      sign :: (pad2 oh ++ ':' :: pad2 om)) =
      renderDT y m d h mi s ++ sign :: (pad2 oh ++ ':' :: pad2 om) :=
    strip_renderDT_concat (by simp)
      (fun c hc => by
        rw [getLast?_offset] at hc
        injection hc with hc1
        rw [← hc1]
        exact dchar_ws (Nat.mod_lt _ (by omega)))
  have hlastAll : (renderDT y m d h mi s ++
      sign :: (pad2 oh ++ ':' :: pad2 om)).getLast? =
      some (Char.ofNat (48 + om % 10)) := by
    rw [List.getLast?_append_of_ne_nil _ (by simp)]
    exact getLast?_offset sign oh om
  simp only [toDtChars]
  rw [hstrip, hlastAll]
  have hZ : (some (Char.ofNat (48 + om % 10)) = some 'Z') = False :=
    eq_false (by
      intro hcon
      injection hcon with hc1
      exact dchar_ne_Z (Nat.mod_lt _ (by omega)) hc1)
  simp only [hZ, if_false]
  have hlen : (renderDT y m d h mi s ++
      sign :: (pad2 oh ++ ':' :: pad2 om)).length = 25 := by
    simp [renderDT, renderDate_length, renderTime_length, pad2]
  rw [hlen]
  have h205 : (25 : Nat) - 5 = 20 := rfl
  rw [h205]
  have hg20 : (renderDT y m d h mi s ++
      sign :: (pad2 oh ++ ':' :: pad2 om)).getD 20 ' ' =
      Char.ofNat (48 + oh / 10 % 10) := by
    have hlen19 : (renderDT y m d h mi s).length = 19 := by
      simp [renderDT, renderDate_length, renderTime_length]
    rw [List.getD_append_right _ _ _ _ (by omega), hlen19]
    simp [pad2]
  rw [hg20]
  have hC : ((5 : Nat) ≤ 25 ∧
      (Char.ofNat (48 + oh / 10 % 10) = '+' ∨
        Char.ofNat (48 + oh / 10 % 10) = '-') ∧
      (renderDT y m d h mi s ++
        sign :: (pad2 oh ++ ':' :: pad2 om)).getD (25 - 3) ' ' ≠ ':') = False :=
    eq_false (by
      rintro ⟨-, h2 | h2, -⟩
      · exact dchar_ne_plus (Nat.mod_lt _ (by omega)) h2
      · exact dchar_ne_minus (Nat.mod_lt _ (by omega)) h2)
  simp only [hC, if_false]
  have hs2 : renderDT y m d h mi s ++ sign :: (pad2 oh ++ ':' :: pad2 om) =
      renderDate y m d ++ 'T' ::
        (renderTime h mi s ++ sign :: (pad2 oh ++ ':' :: pad2 om)) := by
    unfold renderDT
    simp [List.append_assoc]
  rw [hs2]
  have hconT : (renderDate y m d ++ 'T' ::
      (renderTime h mi s ++ sign :: (pad2 oh ++ ':' :: pad2 om))).contains
        'T' = true :=
    contains_true_of_mem (by simp)
  rw [hconT, if_pos rfl]
  obtain ⟨htk, hdw⟩ := takeWhile_ne_append (c := 'T') not_T_mem_renderDate
    (renderTime h mi s ++ sign :: (pad2 oh ++ ':' :: pad2 om))
  rw [htk, hdw]
  simp only [List.drop_succ_cons, List.drop_zero]
  have hdot : List.findIdx? (fun x => x = '.')
      (renderTime h mi s ++ sign :: (pad2 oh ++ ':' :: pad2 om)) = none := by
    rw [List.findIdx?_eq_none_iff]
    intro x hx
    rcases List.mem_append.1 hx with h1 | h1
    · rcases mem_renderTime h1 with ⟨k, hk, hcx⟩ | hcx
      · simp [hcx, dchar_ne_dot hk]
      · simp [hcx]
    · rcases List.mem_cons.1 h1 with h2 | h2
      · simp [h2, hsne.1]
      rcases List.mem_append.1 h2 with h3 | h3
      · rcases mem_pad2_spec x h3 with ⟨k, hk, hcx⟩
        simp [hcx, dchar_ne_dot hk]
      rcases List.mem_cons.1 h3 with h4 | h4
      · simp [h4]
      · rcases mem_pad2_spec x h4 with ⟨k, hk, hcx⟩
        simp [hcx, dchar_ne_dot hk]
  have hfind : findCharFrom
      (renderTime h mi s ++ sign :: (pad2 oh ++ ':' :: pad2 om)) '.' 0 = -1 := by
    unfold findCharFrom
    rw [List.drop_zero, hdot]
  rw [hfind, if_pos rfl]
  rw [if_neg (by simp [hconT])]
  have hoffform : renderDate y m d ++ 'T' ::
      (renderTime h mi s ++ sign :: (pad2 oh ++ ':' :: pad2 om)) =
      renderDT y m d h mi s ++ (sign :: (pad2 oh ++ ':' :: pad2 om)) := by
    unfold renderDT
    simp [List.append_assoc]
  rw [hoffform]
  rw [fromiso_render hy1 hy2 hm1 hm2 hd1 hd2 hh hmi hs _
    (by intro r hcon; injection hcon with hc1; exact hsne.1 hc1)]
  rcases hsign with h1 | h1 <;> rw [h1]
  · rw [parseOffset_plus_colon hoh hom]
    simp
  · rw [parseOffset_minus_colon hoh hom]
    simp


theorem parseTime_render_frac {h mi s : Nat} (hh : h < 100) (hmi : mi < 100)
    (hs : s < 100) {ds : List Char} (hne : ds ≠ [])
    (hdig : ∀ c ∈ ds, c.isDigit = true) :
    parseTime (renderTime h mi s ++
        '.' :: (ds ++ ['+', '0', '0', ':', '0', '0'])) =
      some (h, mi, s, fracValue ds, some 0) := by
  have e1 : renderTime h mi s ++ '.' :: (ds ++ ['+', '0', '0', ':', '0', '0']) =
      pad2 h ++ (':' :: (pad2 mi ++ (':' :: (pad2 s ++
        ('.' :: (ds ++ ['+', '0', '0', ':', '0', '0'])))))) := by
    unfold renderTime
    simp [List.append_assoc]
  rw [e1]
  unfold parseTime
  rw [read2_pad2 hh]
  simp only [read2_pad2 hmi, read2_pad2 hs]
  obtain ⟨htw, hdw⟩ := takeWhile_digits_append (u := ds)
    (v := ['+', '0', '0', ':', '0', '0']) hdig
    (by intro c r hcr; injection hcr with h1 _; rw [← h1]; decide)
  rw [htw]
  rw [if_neg hne]
  have hdrop : (ds ++ ['+', '0', '0', ':', '0', '0']).drop ds.length =
      ['+', '0', '0', ':', '0', '0'] := List.drop_left ds _
  rw [hdrop]
  have hplus : (['+', '0', '0', ':', '0', '0'] : List Char) =
      '+' :: (pad2 0 ++ ':' :: pad2 0) := by decide
  rw [hplus, parseOffset_plus_colon (by omega) (by omega)]
  norm_num

theorem fromiso_render_frac {y m d h mi s : Nat}
    (hy1 : 1 ≤ y) (hy2 : y ≤ 9999) (hm1 : 1 ≤ m) (hm2 : m ≤ 12)
    (hd1 : 1 ≤ d) (hd2 : d ≤ daysInMonth y m)
    (hh : h ≤ 23) (hmi : mi ≤ 59) (hs : s ≤ 59)
    {ds : List Char} (hne : ds ≠ [])
    (hdig : ∀ c ∈ ds, c.isDigit = true) :
    fromisoformat (renderDT y m d h mi s ++
        '.' :: (ds ++ ['+', '0', '0', ':', '0', '0'])) =
      some ⟨y, m, d, h, mi, s, fracValue ds, some 0⟩ := by
  have e1 : renderDT y m d h mi s ++
      '.' :: (ds ++ ['+', '0', '0', ':', '0', '0']) =
      pad4 y ++ ('-' :: (pad2 m ++ ('-' :: (pad2 d ++
        ('T' :: (renderTime h mi s ++
          '.' :: (ds ++ ['+', '0', '0', ':', '0', '0']))))))) := by
    unfold renderDT renderDate
    simp [List.append_assoc]
  rw [e1]
  unfold fromisoformat
  rw [read4_pad4 (by omega)]
  have hd100 : d < 100 := by
    have := daysInMonth_le y m
    omega
  simp only [read2_pad2 (show m < 100 by omega), read2_pad2 hd100]
  rw [if_pos ⟨hy1, hm1, hm2, hd1, hd2⟩]
  rw [parseTime_render_frac (by omega) (by omega) (by omega) hne hdig]
  simp [hh, hmi, hs]


theorem toDtChars_renderFracZ {y m d h mi s : Nat} {ds : List Char}
    (hy1 : 1 ≤ y) (hy2 : y ≤ 9999) (hm1 : 1 ≤ m) (hm2 : m ≤ 12)
    (hd1 : 1 ≤ d) (hd2 : d ≤ daysInMonth y m)
    (hh : h ≤ 23) (hmi : mi ≤ 59) (hs : s ≤ 59)
    (hne : ds ≠ []) (hdig : ∀ c ∈ ds, c.isDigit = true) :
    toDtChars ((renderDT y m d h mi s ++ '.' :: ds) ++ ['Z']) =
      some ⟨y, m, d, h, mi, s, fracValue ds, some 0⟩ := by
  have hstrip : pyStrip ((renderDT y m d h mi s ++ '.' :: ds) ++ ['Z']) =
      (renderDT y m d h mi s ++ '.' :: ds) ++ ['Z'] := by
    have hassoc : (renderDT y m d h mi s ++ '.' :: ds) ++ ['Z'] =
        renderDT y m d h mi s ++ ('.' :: (ds ++ ['Z'])) := by simp
    rw [hassoc]
    apply strip_renderDT_concat (by simp)
    intro c hc
    have : ('.' :: (ds ++ ['Z'])).getLast? = some 'Z' := by
      rw [show ('.' :: (ds ++ ['Z'])) = ('.' :: ds) ++ ['Z'] by simp]
      exact List.getLast?_concat ..
    rw [this] at hc
    injection hc with hc1
    rw [← hc1]
    decide
  have hlast : ((renderDT y m d h mi s ++ '.' :: ds) ++ ['Z']).getLast? =
      some 'Z' := List.getLast?_concat ..
  have hdrop : ((renderDT y m d h mi s ++ '.' :: ds) ++ ['Z']).dropLast =
      renderDT y m d h mi s ++ '.' :: ds := List.dropLast_concat ..
  simp only [toDtChars]
  rw [hstrip, hlast, if_pos rfl, hdrop]
  have hs2 : renderDT y m d h mi s ++ '.' :: ds ++ ['+', '0', '0', ':', '0', '0'] =
      renderDate y m d ++ 'T' ::
        (renderTime h mi s ++ '.' :: (ds ++ ['+', '0', '0', ':', '0', '0'])) := by
    unfold renderDT
    simp [List.append_assoc]
  rw [hs2]
  have hconT : (renderDate y m d ++ 'T' ::
      (renderTime h mi s ++ '.' :: (ds ++ ['+', '0', '0', ':', '0', '0']))).contains
        'T' = true :=
    contains_true_of_mem (by simp)
  rw [hconT, if_pos rfl]
  obtain ⟨htk, hdw⟩ := takeWhile_ne_append (c := 'T') not_T_mem_renderDate
    (renderTime h mi s ++ '.' :: (ds ++ ['+', '0', '0', ':', '0', '0']))
  rw [htk, hdw]
  simp only [List.drop_succ_cons, List.drop_zero]
  have hfi : findCharFrom
      (renderTime h mi s ++ '.' :: (ds ++ ['+', '0', '0', ':', '0', '0'])) '.' 0 =
      (8 : Int) := by
    unfold findCharFrom
    rw [List.drop_zero]
    rw [findIdx?_first (u := renderTime h mi s)
      (by
        intro x hx
        rcases mem_renderTime hx with ⟨k, hk, hcx⟩ | hcx
        · simp [hcx, dchar_ne_dot hk]
        · simp [hcx])
      (by simp) _]
    rw [renderTime_length]
    norm_num
  rw [hfi]
  rw [if_neg (show ¬((8 : Int) = -1) by decide)]
  simp only [show ((8 : Int)).toNat = 8 from rfl]
  have hdrop8 : (renderTime h mi s ++
      '.' :: (ds ++ ['+', '0', '0', ':', '0', '0'])).drop 8 =
      '.' :: (ds ++ ['+', '0', '0', ':', '0', '0']) := by
    rw [show (8 : Nat) = (renderTime h mi s).length from (renderTime_length h mi s).symm]
    exact List.drop_left _ _
  have hplusFind : findCharFrom
      (renderTime h mi s ++ '.' :: (ds ++ ['+', '0', '0', ':', '0', '0'])) '+' 8 =
      (9 + ds.length : Int) := by
    unfold findCharFrom
    rw [hdrop8]
    rw [show ('.' :: (ds ++ ['+', '0', '0', ':', '0', '0'])) =
      ('.' :: ds) ++ '+' :: ['0', '0', ':', '0', '0'] by simp]
    rw [findIdx?_first (u := '.' :: ds)
      (by
        intro x hx
        rcases List.mem_cons.1 hx with h1 | h1
        · simp [h1]
        · simp [(digit_ne (hdig x h1)).2.1])
      (by simp) _]
    simp only [List.length_cons]
    push_cast
    ring
  have hminusFind : findCharFrom
      (renderTime h mi s ++ '.' :: (ds ++ ['+', '0', '0', ':', '0', '0'])) '-' 8 =
      (-1 : Int) := by
    unfold findCharFrom
    rw [hdrop8]
    have : List.findIdx? (fun x => x = '-')
        ('.' :: (ds ++ ['+', '0', '0', ':', '0', '0'])) = none := by
      rw [List.findIdx?_eq_none_iff]
      intro x hx
      rcases List.mem_cons.1 hx with h1 | h1
      · simp [h1]
      rcases List.mem_append.1 h1 with h2 | h2
      · simp [(digit_ne (hdig x h2)).2.2.1]
      · fin_cases h2 <;> decide
    rw [this]
  rw [hplusFind, hminusFind]
  have hmax : max ((9 + ds.length : Int)) (-1) = (9 + ds.length : Int) :=
    max_eq_left (by omega)
  rw [hmax]
  rw [if_neg (show ¬((9 + (ds.length : Int)) = -1) by omega)]
  have htzn : ((9 + (ds.length : Int))).toNat = 9 + ds.length := by omega
  rw [htzn]
  have hdrop9 : (renderTime h mi s ++
      '.' :: (ds ++ ['+', '0', '0', ':', '0', '0'])).drop (8 + 1) =
      ds ++ ['+', '0', '0', ':', '0', '0'] := by
    rw [show renderTime h mi s ++ '.' :: (ds ++ ['+', '0', '0', ':', '0', '0']) =
      (renderTime h mi s ++ ['.']) ++ (ds ++ ['+', '0', '0', ':', '0', '0']) by simp]
    rw [show (8 + 1 : Nat) = (renderTime h mi s ++ ['.']).length by
      simp [renderTime_length]]
    exact List.drop_left _ _
  rw [hdrop9]
  have hsub : 9 + ds.length - (8 + 1) = ds.length := by omega
  rw [hsub]
  have htakeN : (ds ++ ['+', '0', '0', ':', '0', '0']).take ds.length = ds :=
    List.take_left ds _
  rw [htakeN]
  by_cases hlen6 : 6 < ds.length
  · rw [if_pos hlen6]
    have htake9 : (renderTime h mi s ++
        '.' :: (ds ++ ['+', '0', '0', ':', '0', '0'])).take (8 + 1) =
        renderTime h mi s ++ ['.'] := by
      rw [show renderTime h mi s ++ '.' :: (ds ++ ['+', '0', '0', ':', '0', '0']) =
        (renderTime h mi s ++ ['.']) ++ (ds ++ ['+', '0', '0', ':', '0', '0']) by simp]
      rw [show (8 + 1 : Nat) = (renderTime h mi s ++ ['.']).length by
        simp [renderTime_length]]
      exact List.take_left _ _
    have hdropTz : (renderTime h mi s ++
        '.' :: (ds ++ ['+', '0', '0', ':', '0', '0'])).drop (9 + ds.length) =
        ['+', '0', '0', ':', '0', '0'] := by
      rw [show renderTime h mi s ++ '.' :: (ds ++ ['+', '0', '0', ':', '0', '0']) =
        ((renderTime h mi s ++ ['.']) ++ ds) ++ ['+', '0', '0', ':', '0', '0'] by simp]
      rw [show (9 + ds.length : Nat) =
        ((renderTime h mi s ++ ['.']) ++ ds).length by
          simp [renderTime_length]
          omega]
      exact List.drop_left _ _
    rw [htake9, hdropTz]
    have hform : renderDate y m d ++ 'T' ::
        ((renderTime h mi s ++ ['.']) ++ ds.take 6 ++ ['+', '0', '0', ':', '0', '0']) =
        renderDT y m d h mi s ++
          '.' :: (ds.take 6 ++ ['+', '0', '0', ':', '0', '0']) := by
      unfold renderDT
      simp [List.append_assoc]
    rw [hform]
    have hconT2 : (renderDT y m d h mi s ++
        '.' :: (ds.take 6 ++ ['+', '0', '0', ':', '0', '0'])).contains 'T' = true := by
      apply contains_true_of_mem
      simp [renderDT]
    rw [if_neg (show ¬(¬(renderDT y m d h mi s ++
        '.' :: (ds.take 6 ++ ['+', '0', '0', ':', '0', '0'])).contains 'T' = true ∧
        (renderDT y m d h mi s ++
          '.' :: (ds.take 6 ++ ['+', '0', '0', ':', '0', '0'])).length = 10)
      by rintro ⟨h1, -⟩; exact h1 hconT2)]
    have hne6 : ds.take 6 ≠ [] := by
      intro hcon
      rcases List.take_eq_nil_iff.1 hcon with h1 | h1
      · exact absurd h1 (by norm_num)
      · exact hne h1
    rw [fromiso_render_frac hy1 hy2 hm1 hm2 hd1 hd2 hh hmi hs hne6
      (fun c hc => hdig c (List.mem_of_mem_take hc))]
    have hfv : fracValue (ds.take 6) = fracValue ds := by
      unfold fracValue
      rw [List.take_take]
      norm_num
    rw [hfv]
  · rw [if_neg hlen6]
    rw [if_neg (show ¬(¬(renderDate y m d ++ 'T' ::
        (renderTime h mi s ++
          '.' :: (ds ++ ['+', '0', '0', ':', '0', '0']))).contains 'T' = true ∧
        (renderDate y m d ++ 'T' ::
          (renderTime h mi s ++
            '.' :: (ds ++ ['+', '0', '0', ':', '0', '0']))).length = 10)
      by rintro ⟨h1, -⟩; exact h1 hconT)]
    have hform : renderDate y m d ++ 'T' ::
        (renderTime h mi s ++ '.' :: (ds ++ ['+', '0', '0', ':', '0', '0'])) =
        renderDT y m d h mi s ++
          '.' :: (ds ++ ['+', '0', '0', ':', '0', '0']) := by
      unfold renderDT
      simp [List.append_assoc]
    rw [hform]
    rw [fromiso_render_frac hy1 hy2 hm1 hm2 hd1 hd2 hh hmi hs hne hdig]


/-! ### Change detection: `should_reingest` (`src/app/ingest/should_ingest.py`)

`ContentIndexRec` mirrors the columns of the stored `ContentIndex` row
that `should_reingest` reads; `IncomingMeta` mirrors the metadata keys it
looks up.  Python truthiness of optional strings and booleans is modelled
by `truthyS`/`truthyB`, and the `a or b` value chain by `pyOrS`.

`datetime` comparison: Python compares two offset-aware datetimes by
their absolute instant and two naive datetimes field-lexicographically
(equivalently, by their civil-epoch microsecond count, since all fields
of a `datetime` are within their calendar ranges); comparing a naive with
an aware datetime raises `TypeError`.  `pyGtDatetime` returns `none` in
the mixed case, and `should_reingest` propagates it as `Except.error`. -/

structure ContentIndexRec where
  is_trashed : Option Bool
  modified_time : Option PyDatetime
  version : Option String
  md5 : Option String
  content_hash : Option String
deriving Repr

structure IncomingMeta where
  trashed : Option Bool
  is_trashed : Option Bool
  modifiedTime : Option String
  modified_time : Option String
  updated : Option String
  version : Option String
  md5Checksum : Option String
  md5 : Option String
  etag : Option String
deriving Repr

/-- Python truthiness of an optional string (`None` and `""` are falsy). -/
def truthyS : Option String → Bool
  | none => false
  | some s => s ≠ ""

/-- Python truthiness of an optional boolean (`None` is falsy). -/
def truthyB (o : Option Bool) : Bool :=
  o.getD false

/-- Python `a or b` on optional strings: `a` if truthy, else `b`. -/
def pyOrS (a b : Option String) : Option String :=
  if truthyS a then a else b

/-- Days from 0000-03-01 to the civil date `y-m-d` (Hinnant's
`days_from_civil`, shifted by a constant so it stays in `Nat`; only
differences matter here).  Requires `1 ≤ y`, which every parsed or stored
datetime satisfies. -/
def daysFromCivil (y m d : Nat) : Nat :=
  let y' := y - (if m ≤ 2 then 1 else 0)
  let era := y' / 400
  let yoe := y' - era * 400
  let doy := (153 * (m + (if 2 < m then 0 else 12) - 3) + 2) / 5 + d - 1
  let doe := yoe * 365 + yoe / 4 - yoe / 100 + doy
  era * 146097 + doe

/-- Microseconds of a datetime's civil fields since the `daysFromCivil`
epoch, ignoring any offset. -/
def naiveMicro (dt : PyDatetime) : Nat :=
  ((daysFromCivil dt.year dt.month dt.day) * 86400 +
    dt.hour * 3600 + dt.minute * 60 + dt.second) * 1000000 + dt.microsecond

/-- Absolute instant of an offset-aware datetime, in microseconds. -/
def instantMicro (dt : PyDatetime) (off : Int) : Int :=
  (naiveMicro dt : Int) - off * 60000000

/-- Python `a > b` on datetimes: `none` models the `TypeError` raised on a
naive/aware mix. -/
def pyGtDatetime (a b : PyDatetime) : Option Bool :=
  match a.tzOffsetMinutes, b.tzOffsetMinutes with
  | some oa, some ob => some (decide (instantMicro b ob < instantMicro a oa))
  | none, none => some (decide (naiveMicro b < naiveMicro a))
  | _, _ => none

/-- `should_reingest(stored, incoming_meta, new_text)` from
`src/app/ingest/should_ingest.py`; `Except.error ()` models the
uncaught `TypeError` of a naive/aware datetime comparison. -/
def should_reingest (stored : Option ContentIndexRec) (incoming : IncomingMeta)
    (new_text : Option String) : Except Unit Bool :=
  match stored with
  | none => .ok true
  | some st =>
    if (truthyB incoming.trashed || truthyB incoming.is_trashed) ≠
        truthyB st.is_trashed then .ok true
    else
      let modStep : Except Unit Bool :=
        match toDt (pyOrS incoming.modifiedTime
            (pyOrS incoming.modified_time incoming.updated)) with
        | none => .ok false
        | some incMod =>
          match st.modified_time with
          | none => .ok true
          | some stMod =>
            match pyGtDatetime incMod stMod with
            | none => .error ()
            | some gt => .ok gt
      match modStep with
      | .error _ => .error ()
      | .ok true => .ok true
      | .ok false =>
        if truthyS incoming.version ∧
            incoming.version.getD "" ≠ st.version.getD "" then .ok true
        else if truthyS (pyOrS incoming.md5Checksum
              (pyOrS incoming.md5 incoming.etag)) ∧
            (pyOrS incoming.md5Checksum
              (pyOrS incoming.md5 incoming.etag)).getD "" ≠ st.md5.getD "" then
          .ok true
        else
          match new_text with
          | some t =>
            .ok (decide (compute_content_hash (some t) ≠ st.content_hash.getD ""))
          | none => .ok false

/-- The spec's rule cascade (§4.1), written from the spec's words: the
first applicable rule in order fires, otherwise `false`.  Rule 3 reads
"incoming modified-time parses and is newer (or stored has none)". -/
def needs_reprocess_spec (stored : Option ContentIndexRec)
    (incoming : IncomingMeta) (new_text : Option String) : Bool :=
  match stored with
  | none => true
  | some st =>
    if (truthyB incoming.trashed || truthyB incoming.is_trashed) ≠
        truthyB st.is_trashed then true
    else if (match toDt (pyOrS incoming.modifiedTime
          (pyOrS incoming.modified_time incoming.updated)) with
        | none => false
        | some incMod =>
          match st.modified_time with
          | none => true
          | some stMod => (pyGtDatetime incMod stMod).getD false) then true
    else if truthyS incoming.version ∧
        incoming.version.getD "" ≠ st.version.getD "" then true
    else if truthyS (pyOrS incoming.md5Checksum
          (pyOrS incoming.md5 incoming.etag)) ∧
        (pyOrS incoming.md5Checksum
          (pyOrS incoming.md5 incoming.etag)).getD "" ≠ st.md5.getD "" then true
    else match new_text with
      | some t =>
        compute_content_hash (some t) ≠ st.content_hash.getD ""
      | none => false

/-- The modified-time comparison performed by `should_reingest`, when one
happens, is between two aware or two naive datetimes. -/
def modTimesComparable (stored : Option ContentIndexRec)
    (incoming : IncomingMeta) : Prop :=
  match stored with
  | none => True
  | some st =>
    match toDt (pyOrS incoming.modifiedTime
        (pyOrS incoming.modified_time incoming.updated)), st.modified_time with
    | some a, some b =>
      (a.tzOffsetMinutes.isSome ∧ b.tzOffsetMinutes.isSome) ∨
        (a.tzOffsetMinutes = none ∧ b.tzOffsetMinutes = none)
    | _, _ => True

instance (stored : Option ContentIndexRec) (incoming : IncomingMeta) :
    Decidable (modTimesComparable stored incoming) := by
  unfold modTimesComparable
  split
  · exact inferInstance
  · split <;> exact inferInstance


theorem should_reingest_tail_ok (st : ContentIndexRec) (incoming : IncomingMeta)
    (new_text : Option String) :
    (if truthyS incoming.version ∧
        incoming.version.getD "" ≠ st.version.getD "" then Except.ok true
      else if truthyS (pyOrS incoming.md5Checksum
            (pyOrS incoming.md5 incoming.etag)) ∧
          (pyOrS incoming.md5Checksum
            (pyOrS incoming.md5 incoming.etag)).getD "" ≠ st.md5.getD "" then
        Except.ok true
      else
        match new_text with
        | some t =>
          Except.ok (decide (compute_content_hash (some t) ≠ st.content_hash.getD ""))
        | none => Except.ok false) =
      (Except.ok (ε := Unit)
        (if truthyS incoming.version ∧
            incoming.version.getD "" ≠ st.version.getD "" then true
          else if truthyS (pyOrS incoming.md5Checksum
                (pyOrS incoming.md5 incoming.etag)) ∧
              (pyOrS incoming.md5Checksum
                (pyOrS incoming.md5 incoming.etag)).getD "" ≠ st.md5.getD "" then
            true
          else match new_text with
            | some t =>
              decide (compute_content_hash (some t) ≠ st.content_hash.getD "")
            | none => false)) := by
  by_cases h1 : truthyS incoming.version ∧
      incoming.version.getD "" ≠ st.version.getD ""
  · rw [if_pos h1, if_pos h1]
  · rw [if_neg h1, if_neg h1]
    by_cases h2 : truthyS (pyOrS incoming.md5Checksum
        (pyOrS incoming.md5 incoming.etag)) ∧
        (pyOrS incoming.md5Checksum
          (pyOrS incoming.md5 incoming.etag)).getD "" ≠ st.md5.getD ""
    · rw [if_pos h2, if_pos h2]
    · rw [if_neg h2, if_neg h2]
      cases new_text <;> rfl

/-- **C3**.  `should_reingest` implements the spec's rule cascade: whenever
the modified-time comparison it may perform is between comparable datetimes
(both aware or both naive), it returns exactly the value of the first-match
rule cascade `needs_reprocess_spec` (no stored record; trashed differs;
modified-time parses and is newer or stored has none; version present and
differs; checksum present and differs; content hash differs; else false).
The hypothesis is needed: on a naive/aware mix the code raises `TypeError`
instead of returning a boolean (see
`should_reingest_mixed_tz_raises`). -/
theorem should_reingest_matches_cascade (stored : Option ContentIndexRec)
    (incoming : IncomingMeta) (new_text : Option String)
    (hc : modTimesComparable stored incoming) :
    should_reingest stored incoming new_text =
      Except.ok (needs_reprocess_spec stored incoming new_text) := by
  cases stored with
  | none => rfl
  | some st =>
    simp only [should_reingest, needs_reprocess_spec]
    simp only [modTimesComparable] at hc
    by_cases h1 : (truthyB incoming.trashed || truthyB incoming.is_trashed) ≠
        truthyB st.is_trashed
    · rw [if_pos h1, if_pos h1]
    · rw [if_neg h1, if_neg h1]
      cases htd : toDt (pyOrS incoming.modifiedTime
          (pyOrS incoming.modified_time incoming.updated)) with
      | none =>
        rw [if_neg (show ¬((false : Bool) = true) by simp)]
        exact should_reingest_tail_ok st incoming new_text
      | some incMod =>
        cases hst : st.modified_time with
        | none => rw [if_pos (show (true : Bool) = true from rfl)]
        | some stMod =>
          simp only [htd, hst] at hc
          have hgt : ∃ b, pyGtDatetime incMod stMod = some b := by
            rcases hc with ⟨ha, hb⟩ | ⟨ha, hb⟩
            · obtain ⟨oa, hoa⟩ := Option.isSome_iff_exists.1 ha
              obtain ⟨ob, hob⟩ := Option.isSome_iff_exists.1 hb
              exact ⟨_, by unfold pyGtDatetime; rw [hoa, hob]⟩
            · exact ⟨_, by unfold pyGtDatetime; rw [ha, hb]⟩
          obtain ⟨b, hb⟩ := hgt
          simp only [hb]
          cases b with
          | true =>
            simp
          | false =>
            simp only [Option.getD_some]
            rw [if_neg (show ¬((false : Bool) = true) by simp)]
            exact should_reingest_tail_ok st incoming new_text


/-- Counterexample for the original C3 reading: with a stored aware
modified time and an incoming naive timestamp, `should_reingest` raises
`TypeError` (modelled `Except.error`), returning neither `true` nor
`false`, so the unconditional "for every (stored, incoming, text)" claim
fails. -/
theorem should_reingest_mixed_tz_raises :
    should_reingest
      (some ⟨none, some ⟨2024, 3, 2, 0, 0, 0, 0, some 0⟩, none, none, none⟩)
      ⟨none, none, some "2024-02-01T00:00:00", none, none, none, none, none, none⟩
      none = Except.error () := by
  rfl

theorem should_reingest_matches_cascade_witness :
    modTimesComparable
      (some ⟨none, some ⟨2024, 1, 2, 0, 0, 0, 0, some 0⟩, none, none, none⟩)
      ⟨none, none, some "2024-02-01T00:00:00Z", none, none, none, none, none, none⟩ ∧
    should_reingest
      (some ⟨none, some ⟨2024, 1, 2, 0, 0, 0, 0, some 0⟩, none, none, none⟩)
      ⟨none, none, some "2024-02-01T00:00:00Z", none, none, none, none, none, none⟩
      none =
      Except.ok (needs_reprocess_spec
        (some ⟨none, some ⟨2024, 1, 2, 0, 0, 0, 0, some 0⟩, none, none, none⟩)
        ⟨none, none, some "2024-02-01T00:00:00Z", none, none, none, none, none, none⟩
        none) :=
  ⟨by decide, should_reingest_matches_cascade _ _ none (by decide)⟩


theorem should_reingest_unparseable_mod_invariant
    (stored : Option ContentIndexRec) (incoming : IncomingMeta)
    (new_text : Option String)
    (hun : toDt (pyOrS incoming.modifiedTime
      (pyOrS incoming.modified_time incoming.updated)) = none) :
    should_reingest stored incoming new_text =
      should_reingest stored
        { incoming with
            modifiedTime := none
            modified_time := none
            updated := none } new_text := by
  cases stored with
  | none => rfl
  | some st =>
    simp only [should_reingest, hun]
    rfl

/-- **C4**.  The change detector's timestamp parser accepts RFC3339
date-times with a trailing `Z` or an explicit `±HH:MM` offset, truncates
fractional seconds beyond six digits (the resulting microsecond value
depends only on the first six fraction digits), parses a ten-character
date-only string as UTC midnight, returns `None` on an unparseable string
(concrete example), and an unparseable incoming modified-time alone never
changes `should_reingest`'s verdict: the result is the same as if no
modified-time had been supplied at all. -/
theorem to_dt_parser_spec {y m d h mi s oh om : Nat} {sign : Char}
    {ds : List Char}
    (hy1 : 1 ≤ y) (hy2 : y ≤ 9999) (hm1 : 1 ≤ m) (hm2 : m ≤ 12)
    (hd1 : 1 ≤ d) (hd2 : d ≤ daysInMonth y m)
    (hh : h ≤ 23) (hmi : mi ≤ 59) (hs : s ≤ 59)
    (hoh : oh ≤ 23) (hom : om ≤ 59)
    (hsign : sign = '+' ∨ sign = '-')
    (hne : ds ≠ []) (hdig : ∀ c ∈ ds, c.isDigit = true)
    (stored : Option ContentIndexRec) (incoming : IncomingMeta)
    (new_text : Option String)
    (hun : toDt (pyOrS incoming.modifiedTime
      (pyOrS incoming.modified_time incoming.updated)) = none) :
    toDtChars (renderDT y m d h mi s ++ ['Z']) =
      some ⟨y, m, d, h, mi, s, 0, some 0⟩ ∧
    toDtChars (renderDT y m d h mi s ++ sign :: (pad2 oh ++ ':' :: pad2 om)) =
      some ⟨y, m, d, h, mi, s, 0,
        some ((if sign = '+' then 1 else -1) * ((oh : Int) * 60 + om))⟩ ∧
    toDtChars ((renderDT y m d h mi s ++ '.' :: ds) ++ ['Z']) =
      some ⟨y, m, d, h, mi, s, fracValue (ds.take 6), some 0⟩ ∧
    toDtChars (renderDate y m d) = some ⟨y, m, d, 0, 0, 0, 0, some 0⟩ ∧
    toDt (some "not a datetime") = none ∧
    should_reingest stored incoming new_text =
      should_reingest stored
        { incoming with
            modifiedTime := none
            modified_time := none
            updated := none } new_text := by
  refine ⟨toDtChars_renderZ hy1 hy2 hm1 hm2 hd1 hd2 hh hmi hs,
    toDtChars_renderOffset hy1 hy2 hm1 hm2 hd1 hd2 hh hmi hs hoh hom hsign,
    ?_,
    toDtChars_renderDate hy1 hy2 hm1 hm2 hd1 hd2,
    by rfl,
    should_reingest_unparseable_mod_invariant stored incoming new_text hun⟩
  rw [toDtChars_renderFracZ hy1 hy2 hm1 hm2 hd1 hd2 hh hmi hs hne hdig]
  have hfv : fracValue (ds.take 6) = fracValue ds := by
    unfold fracValue
    rw [List.take_take]
    norm_num
  rw [hfv]

theorem to_dt_parser_spec_witness :
    (1 ≤ 2024 ∧ 2024 ≤ 9999 ∧ 1 ≤ 2 ∧ 2 ≤ 12 ∧ 1 ≤ 29 ∧
      29 ≤ daysInMonth 2024 2 ∧ 13 ≤ 23 ∧ 45 ≤ 59 ∧ 59 ≤ 59 ∧
      5 ≤ 23 ∧ 30 ≤ 59 ∧ ('-' : Char) = '+' ∨ ('-' : Char) = '-') ∧
    (['1', '2', '3', '4', '5', '6', '7'] : List Char) ≠ [] ∧
    toDtChars (renderDT 2024 2 29 13 45 59 ++ ['Z']) =
      some ⟨2024, 2, 29, 13, 45, 59, 0, some 0⟩ ∧
    toDtChars (renderDT 2024 2 29 13 45 59 ++
        '-' :: (pad2 5 ++ ':' :: pad2 30)) =
      some ⟨2024, 2, 29, 13, 45, 59, 0,
        some ((if ('-' : Char) = '+' then 1 else -1) * ((5 : Int) * 60 + 30))⟩ ∧
    toDtChars ((renderDT 2024 2 29 13 45 59 ++
        '.' :: ['1', '2', '3', '4', '5', '6', '7']) ++ ['Z']) =
      some ⟨2024, 2, 29, 13, 45, 59,
        fracValue (['1', '2', '3', '4', '5', '6', '7'].take 6), some 0⟩ ∧
    toDtChars (renderDate 2024 2 29) = some ⟨2024, 2, 29, 0, 0, 0, 0, some 0⟩ ∧
    toDt (some "not a datetime") = none ∧
    should_reingest none
      ⟨none, none, some "last tuesday", none, none, none, none, none, none⟩
      none =
      should_reingest none
        ⟨none, none, none, none, none, none, none, none, none⟩ none := by
  refine ⟨by decide, by decide, ?_⟩
  exact to_dt_parser_spec (by norm_num) (by norm_num) (by norm_num)
    (by norm_num) (by norm_num) (by decide) (by norm_num)
    (by norm_num) (by norm_num) (by norm_num) (by norm_num) (Or.inr rfl)
    (by decide) (by decide) none _ none (by decide)


/-! ### EmbeddingBatcher (`src/app/ingest/drive_pipeline.py`)

`Chunk` mirrors a chunk row dict (`id`, `text`, and the doc id its
metadata carries); `DocWork` mirrors the `DocWork` dataclass fields the
batcher reads (`user_id`, `file_meta` and `new_chunk_ids` play no role in
the claims settled here and are omitted).  Python object identity
matters — `_doc_states[doc_id]["work"]` aliases the `DocWork` object held
by the pending tuples — so a pending item records the registration number
`regId` (a fresh number per successful `enqueue_doc`, standing for the
identity of the registered object) next to the work value and its chunk.

The vector store is external.  `Store` keeps one row per chunk id
(`id`, `text`, doc id); `storeUpsert` and `list_doc_chunk_ids` are
modelled from the spec (§4.5: upsert replaces rows by id, and
`list_doc_chunk_ids(doc_id)` lists the stored chunk ids of one document;
their code lives outside `src/`).  A flush's external calls are an
oracle `FlushEnv`: whether the collection is available, the embedding
call's outcome, and whether the upsert call succeeds; a raising upsert
is modelled as writing nothing. -/

def MAX_CHARS_PER_CHUNK : Nat := 3000

structure Chunk where
  id : String
  text : String
  metaDocId : String
deriving DecidableEq, Repr

structure DocWork where
  doc_id : String
  chunks : List Chunk
  existing_chunk_ids : List String
  content_hash : String
  embedded_count : Nat
deriving DecidableEq, Repr

structure DocState where
  regId : Nat
  work : DocWork
  inserted : Nat
deriving DecidableEq, Repr

structure PendItem where
  regId : Nat
  work : DocWork
  chunk : Chunk
deriving DecidableEq, Repr

structure BatcherState where
  max_batch_size : Nat
  max_tokens : Nat
  pending : List PendItem
  pending_tokens : Nat
  doc_states : List (String × DocState)
  has_collection : Bool
  nextReg : Nat
deriving Repr

/-- One stored row: chunk id, text, and the doc id of its metadata. -/
abbrev Store := List (String × String × String)

/-- Modelled from the spec: `upsert` replaces the rows whose ids match
and appends the rest. -/
def storeUpsert (store : Store) (rows : List (String × String × String)) :
    Store :=
  rows.foldl (fun acc row =>
    if acc.any (fun r => r.1 = row.1) then
      acc.map (fun r => if r.1 = row.1 then row else r)
    else acc ++ [row]) store

/-- Modelled from the spec: ids of the stored rows of one document. -/
def list_doc_chunk_ids (store : Store) (docId : String) : List String :=
  (store.filter (fun r => r.2.2 = docId)).map (fun r => r.1)

structure FlushEnv where
  colOk : Bool
  embed : List String → Except String (List (List Int))
  upsertOk : Bool

/-- `EmbeddingBatcher._estimate_tokens`. -/
def estimate_tokens (text : String) : Nat :=
  max 1 (text.length / 4 + 1)

/-- Python dict lookup in an insertion-ordered association list. -/
def lookupState (ds : List (String × DocState)) (k : String) :
    Option DocState :=
  (ds.find? (fun p => p.1 = k)).map (fun p => p.2)

def dsUpdate (ds : List (String × DocState)) (k : String) (v : DocState) :
    List (String × DocState) :=
  ds.map (fun p => if p.1 = k then (p.1, v) else p)

def dsErase (ds : List (String × DocState)) (k : String) :
    List (String × DocState) :=
  ds.filter (fun p => ¬ p.1 = k)

/-- The truncation `chunk["text"] = text[: vector.MAX_CHARS_PER_CHUNK]`
applied to a non-whitespace chunk (with `text` the stripped text). -/
def truncChunk (c : Chunk) : Chunk :=
  { c with text := ((pyStripS c.text).toList.take MAX_CHARS_PER_CHUNK).asString }

/-- The chunk list of a work unit after `enqueue_doc`'s loop: chunks with
whitespace-only text are left untouched, the rest are stripped and
truncated in place. -/
def processedChunks (w : DocWork) : List Chunk :=
  w.chunks.map (fun c => if pyStripS c.text = "" then c else truncChunk c)

/-- The registered work object as observable after `enqueue_doc` returns:
chunk texts mutated in place and `embedded_count = len(work.chunks)`. -/
def workSnapshot (w : DocWork) : DocWork :=
  { w with chunks := processedChunks w, embedded_count := w.chunks.length }

/-- The pending items `enqueue_doc` appends for registration `r` of `w`:
one per chunk with non-whitespace text, in order. -/
def newItems (r : Nat) (w : DocWork) : List PendItem :=
  w.chunks.filterMap (fun c =>
    if pyStripS c.text = "" then none
    else some ⟨r, workSnapshot w, truncChunk c⟩)

def itemsTokens (items : List PendItem) : Nat :=
  (items.map (fun i => estimate_tokens i.chunk.text)).sum

/-- `{doc.doc_id: doc for doc, _ in items}`: Python dict comprehension —
keys in first-occurrence order, each holding the last value. -/
def dictInsert (acc : List (String × DocWork)) (k : String) (v : DocWork) :
    List (String × DocWork) :=
  if acc.any (fun p => p.1 = k) then
    acc.map (fun p => if p.1 = k then (k, v) else p)
  else acc ++ [(k, v)]

def involvedDocs (items : List PendItem) : List DocWork :=
  (items.foldl (fun acc i => dictInsert acc i.work.doc_id i.work) []).map
    (fun p => p.2)

/-- The loop at the end of `_execute_flush`: per upserted item, bump the
registered inserted count of the item's doc id; a document whose count
reaches `len(work.chunks)` is appended to `ready` and popped.  The pairs
carry the popped registration's `regId` next to the returned work. -/
def readyLoop : List PendItem → List (String × DocState) →
    List (Nat × DocWork) → List (String × DocState) × List (Nat × DocWork)
  | [], ds, ready => (ds, ready)
  | item :: rest, ds, ready =>
    match lookupState ds item.work.doc_id with
    | none => readyLoop rest ds ready
    | some s =>
      let s' : DocState := { s with inserted := s.inserted + 1 }
      if item.work.chunks.length ≤ s'.inserted then
        readyLoop rest (dsErase ds item.work.doc_id)
          (ready ++ [(s.regId, item.work)])
      else
        readyLoop rest (dsUpdate ds item.work.doc_id s') ready

/-- `EmbeddingBatcher._execute_flush`.  Success returns the ready pairs;
the upserted rows are exactly those of `items`. -/
def execute_flush (items : List PendItem) (st : BatcherState) (store : Store)
    (env : FlushEnv) : BatcherState × Store × Except String (List (Nat × DocWork)) :=
  if ¬ (st.has_collection || env.colOk) then
    (st, store, .error "Vector store unavailable")
  else
    let st1 := { st with has_collection := true }
    match env.embed (items.map (fun i => i.chunk.text)) with
    | .error e => (st1, store, .error e)
    | .ok vectors =>
      if vectors.length ≠ items.length then
        (st1, store, .error "Embedding returned mismatched vector count.")
      else if ¬ env.upsertOk then
        (st1, store, .error "upsert failed")
      else
        let store' := storeUpsert store
          (items.map (fun i => (i.chunk.id, i.chunk.text, i.chunk.metaDocId)))
        let out := readyLoop items st1.doc_states []
        ({ st1 with doc_states := out.1 }, store', .ok out.2)

/-- `EmbeddingBatcher._flush_pending`.  On success the second component of
the payload records the items that were durably upserted by this call (the
code returns only the ready list); on failure the pending queue and token
estimate are restored and the error carries the involved documents. -/
def flush_pending (st : BatcherState) (store : Store) (env : FlushEnv) :
    BatcherState × Store ×
      Except (List DocWork) (List (Nat × DocWork) × List PendItem) :=
  if st.pending = [] then (st, store, .ok ([], []))
  else
    match execute_flush st.pending
        { st with pending := [], pending_tokens := 0 } store env with
    | (st1, store1, .ok ready) => (st1, store1, .ok (ready, st.pending))
    | (st1, store1, .error _) =>
      ({ st1 with
          pending := st.pending ++ st1.pending
          pending_tokens := st1.pending_tokens + st.pending_tokens },
        store1, .error (involvedDocs st.pending))

/-- `EmbeddingBatcher._maybe_flush`. -/
def maybe_flush (st : BatcherState) (store : Store) (env : FlushEnv) :
    BatcherState × Store ×
      Except (List DocWork) (List (Nat × DocWork) × List PendItem) :=
  if st.max_batch_size ≤ st.pending.length ∨
      st.max_tokens ≤ st.pending_tokens then
    flush_pending st store env
  else (st, store, .ok ([], []))

/-- The two `RuntimeError`s of `enqueue_doc` and the `EmbeddingBatchError`
an auto-flush may raise through it. -/
inductive BErr where
  | noChunks
  | duplicate
  | batch (docs : List DocWork)
deriving Repr

/-- `EmbeddingBatcher.enqueue_doc`. -/
def enqueue_doc (st : BatcherState) (store : Store) (env : FlushEnv)
    (w : DocWork) : BatcherState × Store ×
      Except BErr (List (Nat × DocWork) × List PendItem) :=
  if w.chunks = [] then (st, store, .error .noChunks)
  else if (lookupState st.doc_states w.doc_id).isSome then
    (st, store, .error .duplicate)
  else
    match maybe_flush { st with
        doc_states := st.doc_states ++
          [(w.doc_id, ⟨st.nextReg, workSnapshot w, 0⟩)]
        pending := st.pending ++ newItems st.nextReg w
        pending_tokens := st.pending_tokens +
          itemsTokens (newItems st.nextReg w)
        nextReg := st.nextReg + 1 } store env with
    | (st2, store2, .ok out) => (st2, store2, .ok out)
    | (st2, store2, .error docs) => (st2, store2, .error (.batch docs))

/-- `EmbeddingBatcher.flush(force)`. -/
def batcher_flush (st : BatcherState) (store : Store) (env : FlushEnv)
    (force : Bool) : BatcherState × Store ×
      Except (List DocWork) (List (Nat × DocWork) × List PendItem) :=
  if ¬ force then (st, store, .ok ([], []))
  else flush_pending st store env

/-- A fresh batcher (`EmbeddingBatcher.__init__`). -/
def emptyBatcher (mbs mtok : Nat) : BatcherState :=
  ⟨mbs, mtok, [], 0, [], false, 0⟩

/-! Run machinery: a run applies a list of operations, each carrying the
oracle for its external calls, and logs the durably upserted items and,
for every work returned ready, the upsert log as it stood at that
moment. -/

inductive BOp where
  | enq (w : DocWork) (env : FlushEnv)
  | flush (force : Bool) (env : FlushEnv)

structure RunState where
  st : BatcherState
  store : Store
  upserts : List PendItem
  readies : List (Nat × DocWork × List PendItem)

def runStep (rs : RunState) (op : BOp) : RunState :=
  match op with
  | .enq w env =>
    match enqueue_doc rs.st rs.store env w with
    | (st', store', .ok (ready, flushed)) =>
      { st := st', store := store', upserts := rs.upserts ++ flushed,
        readies := rs.readies ++
          ready.map (fun p => (p.1, p.2, rs.upserts ++ flushed)) }
    | (st', store', .error _) =>
      { rs with st := st', store := store' }
  | .flush force env =>
    match batcher_flush rs.st rs.store env force with
    | (st', store', .ok (ready, flushed)) =>
      { st := st', store := store', upserts := rs.upserts ++ flushed,
        readies := rs.readies ++
          ready.map (fun p => (p.1, p.2, rs.upserts ++ flushed)) }
    | (st', store', .error _) =>
      { rs with st := st', store := store' }

def runBatcher (mbs mtok : Nat) (store0 : Store) (ops : List BOp) : RunState :=
  ops.foldl runStep ⟨emptyBatcher mbs mtok, store0, [], []⟩

/-- Items of one registration in a log. -/
def countR (l : List PendItem) (r : Nat) : Nat :=
  (l.filter (fun i => i.regId = r)).length

/-- The number of chunks of a work unit with non-whitespace text. -/
def nonWsCount (w : DocWork) : Nat :=
  (w.chunks.filter (fun c => ¬ pyStripS c.text = "")).length


theorem execute_flush_error_spec {items : List PendItem} {st : BatcherState}
    {store : Store} {env : FlushEnv} {st1 : BatcherState} {store1 : Store}
    {e : String}
    (h : execute_flush items st store env = (st1, store1, .error e)) :
    store1 = store ∧ st1.pending = st.pending ∧
    st1.pending_tokens = st.pending_tokens ∧
    st1.doc_states = st.doc_states ∧ st1.nextReg = st.nextReg := by
  unfold execute_flush at h
  split at h
  · simp only [Prod.mk.injEq] at h
    obtain ⟨rfl, rfl, -⟩ := h
    exact ⟨rfl, rfl, rfl, rfl, rfl⟩
  · split at h
    · simp only [Prod.mk.injEq] at h
      obtain ⟨rfl, rfl, -⟩ := h
      exact ⟨rfl, rfl, rfl, rfl, rfl⟩
    · split at h
      · simp only [Prod.mk.injEq] at h
        obtain ⟨rfl, rfl, -⟩ := h
        exact ⟨rfl, rfl, rfl, rfl, rfl⟩
      · split at h
        · simp only [Prod.mk.injEq] at h
          obtain ⟨rfl, rfl, -⟩ := h
          exact ⟨rfl, rfl, rfl, rfl, rfl⟩
        · simp only [Prod.mk.injEq] at h
          exact absurd h.2.2 (by simp)

theorem mem_dictInsert_values {acc : List (String × DocWork)} {k : String}
    {v w : DocWork} (h : w ∈ (dictInsert acc k v).map Prod.snd) :
    w ∈ acc.map Prod.snd ∨ w = v := by
  unfold dictInsert at h
  split at h
  · rcases List.mem_map.1 h with ⟨p, hp, hw⟩
    rcases List.mem_map.1 hp with ⟨q, hq, hpq⟩
    by_cases hk : q.1 = k
    · rw [if_pos hk] at hpq
      right
      rw [← hw, ← hpq]
    · rw [if_neg hk] at hpq
      left
      exact List.mem_map.2 ⟨q, hq, by rw [hpq, hw]⟩
  · rcases List.mem_map.1 h with ⟨p, hp, hw⟩
    rcases List.mem_append.1 hp with h1 | h1
    · exact Or.inl (List.mem_map.2 ⟨p, h1, hw⟩)
    · right
      rcases List.mem_singleton.1 h1 with rfl
      exact hw.symm

theorem dictInsert_keys {acc : List (String × DocWork)} {k : String}
    {v : DocWork} {k' : String} (h : ∃ p ∈ acc, p.1 = k') :
    ∃ p ∈ dictInsert acc k v, p.1 = k' := by
  obtain ⟨p, hp, hk⟩ := h
  unfold dictInsert
  split
  · by_cases hpk : p.1 = k
    · exact ⟨(k, v), List.mem_map.2 ⟨p, hp, by rw [if_pos hpk]⟩, by
        rw [← hpk, hk]⟩
    · exact ⟨p, List.mem_map.2 ⟨p, hp, by rw [if_neg hpk]⟩, hk⟩
  · exact ⟨p, List.mem_append.2 (Or.inl hp), hk⟩

theorem dictInsert_key_self {acc : List (String × DocWork)} {k : String}
    {v : DocWork} : ∃ p ∈ dictInsert acc k v, p.1 = k := by
  unfold dictInsert
  split
  case _ hany =>
    rcases List.any_eq_true.1 hany with ⟨p, hp, hk⟩
    exact ⟨(k, v), List.mem_map.2 ⟨p, hp, by rw [if_pos (by simpa using hk)]⟩,
      rfl⟩
  · exact ⟨(k, v), List.mem_append.2 (Or.inr (List.mem_singleton.2 rfl)), rfl⟩

theorem dictInsert_inv {acc : List (String × DocWork)} {k : String}
    {v : DocWork} (hacc : ∀ p ∈ acc, p.2.doc_id = p.1) (hv : v.doc_id = k) :
    ∀ p ∈ dictInsert acc k v, p.2.doc_id = p.1 := by
  intro p hp
  unfold dictInsert at hp
  split at hp
  · rcases List.mem_map.1 hp with ⟨q, hq, hpq⟩
    by_cases hk : q.1 = k
    · rw [if_pos hk] at hpq
      rw [← hpq]
      exact hv
    · rw [if_neg hk] at hpq
      rw [← hpq]
      exact hacc q hq
  · rcases List.mem_append.1 hp with h1 | h1
    · exact hacc p h1
    · rcases List.mem_singleton.1 h1 with rfl
      exact hv

theorem foldDict_values {items : List PendItem} :
    ∀ {acc : List (String × DocWork)} {w : DocWork},
    w ∈ (items.foldl (fun a i => dictInsert a i.work.doc_id i.work) acc).map
      Prod.snd →
    w ∈ acc.map Prod.snd ∨ ∃ i ∈ items, i.work = w := by
  induction items with
  | nil => intro acc w h; exact Or.inl h
  | cons it rest ih =>
    intro acc w h
    rcases ih h with h1 | ⟨i, hi, hw⟩
    · rcases mem_dictInsert_values h1 with h2 | h2
      · exact Or.inl h2
      · exact Or.inr ⟨it, List.mem_cons_self .., h2.symm⟩
    · exact Or.inr ⟨i, List.mem_cons_of_mem _ hi, hw⟩

theorem foldDict_keys {items : List PendItem} :
    ∀ {acc : List (String × DocWork)} {k : String},
    (∃ p ∈ acc, p.1 = k) →
    ∃ p ∈ items.foldl (fun a i => dictInsert a i.work.doc_id i.work) acc,
      p.1 = k := by
  induction items with
  | nil => intro acc k h; exact h
  | cons it rest ih => intro acc k h; exact ih (dictInsert_keys h)

theorem foldDict_covers {items : List PendItem} :
    ∀ {acc : List (String × DocWork)} {i : PendItem}, i ∈ items →
    ∃ p ∈ items.foldl (fun a it => dictInsert a it.work.doc_id it.work) acc,
      p.1 = i.work.doc_id := by
  induction items with
  | nil => intro acc i h; exact absurd h (List.not_mem_nil i)
  | cons it rest ih =>
    intro acc i h
    rcases List.mem_cons.1 h with rfl | h1
    · rw [List.foldl_cons]
      exact foldDict_keys dictInsert_key_self
    · exact ih h1

theorem foldDict_inv {items : List PendItem} :
    ∀ {acc : List (String × DocWork)},
    (∀ p ∈ acc, p.2.doc_id = p.1) →
    ∀ p ∈ items.foldl (fun a i => dictInsert a i.work.doc_id i.work) acc,
      p.2.doc_id = p.1 := by
  induction items with
  | nil => intro acc h; exact h
  | cons it rest ih =>
    intro acc h
    exact ih (dictInsert_inv h rfl)

theorem involvedDocs_sound {items : List PendItem} {w : DocWork}
    (h : w ∈ involvedDocs items) : ∃ i ∈ items, i.work = w := by
  unfold involvedDocs at h
  rcases foldDict_values h with h1 | h1
  · simp at h1
  · exact h1

theorem involvedDocs_complete {items : List PendItem} {i : PendItem}
    (h : i ∈ items) : ∃ w ∈ involvedDocs items, w.doc_id = i.work.doc_id := by
  obtain ⟨p, hp, hk⟩ := foldDict_covers h
  exact ⟨p.2, List.mem_map.2 ⟨p, hp, rfl⟩, by
    rw [foldDict_inv (by simp) p hp, hk]⟩

/-- **C1**.  A failed flush is atomic: when `_flush_pending` raises, the
pending queue and token estimate are exactly the pre-flush ones, the
error carries the deduplicated documents whose chunks were in the failed
batch (every carried document owns a chunk of the batch, and every
batched chunk's document id is represented), the vector store is
untouched, and in particular `list_doc_chunk_ids` of every document is
unchanged.  (A raising upsert call is modelled as writing nothing.) -/
theorem flush_failure_atomic (st : BatcherState) (store : Store)
    (env : FlushEnv) (st' : BatcherState) (store' : Store)
    (docs : List DocWork)
    (h : flush_pending st store env = (st', store', .error docs)) :
    st'.pending = st.pending ∧ st'.pending_tokens = st.pending_tokens ∧
    docs = involvedDocs st.pending ∧
    (∀ w ∈ docs, ∃ i ∈ st.pending, i.work = w) ∧
    (∀ i ∈ st.pending, ∃ w ∈ docs, w.doc_id = i.work.doc_id) ∧
    store' = store ∧
    (∀ d, list_doc_chunk_ids store' d = list_doc_chunk_ids store d) := by
  unfold flush_pending at h
  split at h
  · simp only [Prod.mk.injEq] at h
    exact absurd h.2.2 (by simp)
  · split at h
    case _ st1 store1 ready heq =>
      simp only [Prod.mk.injEq] at h
      exact absurd h.2.2 (by simp)
    case _ st1 store1 e heq =>
      simp only [Prod.mk.injEq] at h
      obtain ⟨rfl, rfl, hdocs⟩ := h
      obtain ⟨rfl, hp, ht, -, -⟩ := execute_flush_error_spec heq
      have hdocs' : docs = involvedDocs st.pending :=
        (Except.error.injEq .. ▸ hdocs : _ = docs).symm
      refine ⟨?_, ?_, hdocs', ?_, ?_, rfl, fun d => rfl⟩
      · show st.pending ++ st1.pending = st.pending
        rw [hp]
        exact List.append_nil _
      · show st1.pending_tokens + st.pending_tokens = st.pending_tokens
        rw [ht]
        exact Nat.zero_add _
      · intro w hw
        exact involvedDocs_sound (hdocs' ▸ hw)
      · intro i hi
        obtain ⟨w, hw, hk⟩ := involvedDocs_complete hi
        exact ⟨w, hdocs' ▸ hw, hk⟩


def c1wWork : DocWork := ⟨"A", [⟨"A:0", "hello", "A"⟩], [], "h", 0⟩

def c1wState : BatcherState :=
  ⟨10, 10000, [⟨0, c1wWork, ⟨"A:0", "hello", "A"⟩⟩], 3,
    [("A", ⟨0, c1wWork, 0⟩)], false, 1⟩

def c1wStore : Store := [("A:0", "old", "A")]

def c1wEnv : FlushEnv := ⟨true, fun _ => .error "embed down", true⟩

theorem flush_failure_atomic_witness :
    (flush_pending c1wState c1wStore c1wEnv).1.pending = c1wState.pending ∧
    (flush_pending c1wState c1wStore c1wEnv).1.pending_tokens =
      c1wState.pending_tokens ∧
    [c1wWork] = involvedDocs c1wState.pending ∧
    (∀ w ∈ [c1wWork], ∃ i ∈ c1wState.pending, i.work = w) ∧
    (∀ i ∈ c1wState.pending, ∃ w ∈ [c1wWork], w.doc_id = i.work.doc_id) ∧
    (flush_pending c1wState c1wStore c1wEnv).2.1 = c1wStore ∧
    (∀ d, list_doc_chunk_ids (flush_pending c1wState c1wStore c1wEnv).2.1 d =
      list_doc_chunk_ids c1wStore d) :=
  flush_failure_atomic c1wState c1wStore c1wEnv
    (flush_pending c1wState c1wStore c1wEnv).1
    (flush_pending c1wState c1wStore c1wEnv).2.1 [c1wWork] rfl

/-- **C7** (amended).  `enqueue_doc` raises a hard error on an empty chunk
list, and raises a hard error — leaving the batcher state, and so every
previously registered document's state, untouched — when the work unit's
doc id is *currently* registered (present in `_doc_states`).  The original
"already registered in the same batcher session" reading is too strong: a
doc id whose document has been popped (fully embedded) can be enqueued
again, see `enqueue_duplicate_after_pop_ok`. -/
theorem enqueue_doc_errors (st : BatcherState) (store : Store)
    (env : FlushEnv) (w : DocWork) :
    (w.chunks = [] → enqueue_doc st store env w = (st, store, .error .noChunks)) ∧
    (w.chunks ≠ [] → (lookupState st.doc_states w.doc_id).isSome = true →
      enqueue_doc st store env w = (st, store, .error .duplicate)) := by
  constructor
  · intro h
    unfold enqueue_doc
    rw [if_pos h]
  · intro h1 h2
    unfold enqueue_doc
    rw [if_neg h1, if_pos h2]

def c7Env : FlushEnv := ⟨true, fun ds => .ok (ds.map (fun _ => [0])), true⟩

def c7w1 : DocWork := ⟨"D", [⟨"D:0", "one", "D"⟩], [], "h", 0⟩

def c7w2 : DocWork := ⟨"D", [⟨"D:0", "two", "D"⟩], [], "h", 0⟩

/-- Counterexample for the original C7 reading: with `max_batch_size = 1`
the first `enqueue_doc` auto-flushes and pops the document, after which a
second enqueue of the *same doc id* in the same batcher session succeeds
instead of raising. -/
theorem enqueue_duplicate_after_pop_ok :
    ((enqueue_doc (enqueue_doc (emptyBatcher 1 1000000) [] c7Env c7w1).1
        (enqueue_doc (emptyBatcher 1 1000000) [] c7Env c7w1).2.1
        c7Env c7w2).2.2).isOk = true := by
  decide

def c7stD : BatcherState :=
  ⟨48, 6000, [⟨0, workSnapshot c7w1, ⟨"D:0", "one", "D"⟩⟩], 1,
    [("D", ⟨0, workSnapshot c7w1, 0⟩)], false, 1⟩

theorem enqueue_doc_errors_witness :
    ((⟨"E", [], [], "h", 0⟩ : DocWork).chunks = [] ∧
      enqueue_doc (emptyBatcher 48 6000) [] c7Env ⟨"E", [], [], "h", 0⟩ =
        (emptyBatcher 48 6000, [], .error .noChunks)) ∧
    (c7w2.chunks ≠ [] ∧
      (lookupState c7stD.doc_states c7w2.doc_id).isSome = true ∧
      enqueue_doc c7stD [] c7Env c7w2 = (c7stD, [], .error .duplicate)) :=
  ⟨⟨rfl, (enqueue_doc_errors (emptyBatcher 48 6000) [] c7Env
      ⟨"E", [], [], "h", 0⟩).1 rfl⟩,
    ⟨by decide, rfl, (enqueue_doc_errors c7stD [] c7Env c7w2).2
      (by decide) rfl⟩⟩


/-! Support lemmas for the batcher invariants. -/

def countId (l : List PendItem) (k : String) : Nat :=
  (l.filter (fun i => i.work.doc_id = k)).length

theorem countR_append (a b : List PendItem) (r : Nat) :
    countR (a ++ b) r = countR a r + countR b r := by
  simp [countR, List.filter_append]

theorem countR_eq_zero {l : List PendItem} {r : Nat}
    (h : ∀ i ∈ l, i.regId ≠ r) : countR l r = 0 := by
  unfold countR
  rw [List.filter_eq_nil_iff.2 (fun i hi => by simpa using h i hi)]
  rfl

theorem countR_all {l : List PendItem} {r : Nat}
    (h : ∀ i ∈ l, i.regId = r) : countR l r = l.length := by
  unfold countR
  rw [List.filter_eq_self.2 (fun i hi => by simpa using h i hi)]

theorem countId_cons (i : PendItem) (l : List PendItem) (k : String) :
    countId (i :: l) k =
      (if i.work.doc_id = k then 1 else 0) + countId l k := by
  by_cases h : i.work.doc_id = k <;>
    simp [countId, List.filter_cons, h, Nat.add_comm]

theorem countId_cons_ne {i : PendItem} {l : List PendItem} {k : String}
    (h : ¬ i.work.doc_id = k) : countId (i :: l) k = countId l k := by
  rw [countId_cons, if_neg h, Nat.zero_add]

theorem lookupState_mem {ds : List (String × DocState)} {k : String}
    {s : DocState} (h : lookupState ds k = some s) : (k, s) ∈ ds := by
  unfold lookupState at h
  rcases Option.map_eq_some'.1 h with ⟨q, hq, hsnd⟩
  have hk : q.1 = k := by simpa using List.find?_some hq
  have hmem := List.mem_of_find?_eq_some hq
  have : q = (k, s) := by
    cases q
    simp only at hk hsnd
    rw [hk, hsnd]
  rwa [this] at hmem

theorem lookupState_eq_none {ds : List (String × DocState)} {k : String} :
    lookupState ds k = none ↔ ∀ p ∈ ds, ¬ p.1 = k := by
  unfold lookupState
  rw [Option.map_eq_none']
  rw [List.find?_eq_none]
  constructor
  · intro h p hp
    simpa using h p hp
  · intro h p hp
    simpa using h p hp

theorem lookupState_isSome_of_mem {ds : List (String × DocState)}
    {p : String × DocState} (h : p ∈ ds) :
    (lookupState ds p.1).isSome = true := by
  cases hl : lookupState ds p.1 with
  | some s => rfl
  | none => exact absurd rfl (lookupState_eq_none.1 hl p h)

theorem lookupState_append_left {a b : List (String × DocState)} {k : String}
    {s : DocState} (h : lookupState a k = some s) :
    lookupState (a ++ b) k = some s := by
  induction a with
  | nil => simp [lookupState] at h
  | cons p rest ih =>
    unfold lookupState at h ⊢
    rw [List.cons_append]
    by_cases hk : p.1 = k
    · rw [List.find?_cons_of_pos _ (by simpa using hk)] at h ⊢
      exact h
    · rw [List.find?_cons_of_neg _ (by simpa using hk)] at h ⊢
      exact ih h

theorem lookupState_append_right {a b : List (String × DocState)} {k : String}
    (h : lookupState a k = none) :
    lookupState (a ++ b) k = lookupState b k := by
  induction a with
  | nil => rfl
  | cons p rest ih =>
    unfold lookupState at h ⊢
    rw [List.cons_append]
    by_cases hk : p.1 = k
    · rw [List.find?_cons_of_pos _ (by simpa using hk)] at h
      simp at h
    · rw [List.find?_cons_of_neg _ (by simpa using hk)] at h ⊢
      exact ih h

theorem lookupState_erase_ne {ds : List (String × DocState)} {k k' : String}
    (h : ¬ k' = k) : lookupState (dsErase ds k) k' = lookupState ds k' := by
  induction ds with
  | nil => rfl
  | cons p rest ih =>
    unfold dsErase at *
    rw [List.filter_cons]
    by_cases hpk : p.1 = k
    · rw [if_neg (by simpa using hpk)]
      unfold lookupState
      rw [List.find?_cons_of_neg _ (by
        simp only [decide_eq_true_eq]
        intro hc
        exact h (hc ▸ hpk))]
      exact ih
    · rw [if_pos (by simpa using hpk)]
      unfold lookupState
      by_cases hpk' : p.1 = k'
      · rw [List.find?_cons_of_pos _ (by simpa using hpk'),
          List.find?_cons_of_pos _ (by simpa using hpk')]
      · rw [List.find?_cons_of_neg _ (by simpa using hpk'),
          List.find?_cons_of_neg _ (by simpa using hpk')]
        exact ih

theorem mem_dsErase {ds : List (String × DocState)} {k : String}
    {p : String × DocState} :
    p ∈ dsErase ds k ↔ p ∈ ds ∧ ¬ p.1 = k := by
  unfold dsErase
  rw [List.mem_filter]
  simp

theorem mem_dsUpdate {ds : List (String × DocState)} {k : String}
    {v : DocState} {p' : String × DocState} (h : p' ∈ dsUpdate ds k v) :
    (∃ p ∈ ds, p.1 = k ∧ p' = (p.1, v)) ∨ (p' ∈ ds ∧ ¬ p'.1 = k) := by
  unfold dsUpdate at h
  rcases List.mem_map.1 h with ⟨p, hp, hmap⟩
  by_cases hk : p.1 = k
  · rw [if_pos hk] at hmap
    exact Or.inl ⟨p, hp, hk, hmap.symm⟩
  · rw [if_neg hk] at hmap
    exact Or.inr ⟨hmap ▸ hp, hmap ▸ hk⟩

theorem dsUpdate_keys (ds : List (String × DocState)) (k : String)
    (v : DocState) : (dsUpdate ds k v).map Prod.fst = ds.map Prod.fst := by
  unfold dsUpdate
  rw [List.map_map]
  congr 1
  funext p
  by_cases hk : p.1 = k
  · simp [hk]
  · simp [hk]

theorem dsErase_keys_sublist (ds : List (String × DocState)) (k : String) :
    ((dsErase ds k).map Prod.fst).Sublist (ds.map Prod.fst) :=
  (List.filter_sublist ds).map Prod.fst

theorem dsErase_regs_sublist (ds : List (String × DocState)) (k : String) :
    ((dsErase ds k).map (fun p => p.2.regId)).Sublist
      (ds.map (fun p => p.2.regId)) :=
  (List.filter_sublist ds).map _

theorem dsUpdate_regs {ds : List (String × DocState)} {k : String}
    {s v : DocState} (hv : v.regId = s.regId)
    (hs : ∀ p ∈ ds, p.1 = k → p.2 = s) :
    (dsUpdate ds k v).map (fun p => p.2.regId) =
      ds.map (fun p => p.2.regId) := by
  unfold dsUpdate
  rw [List.map_map]
  apply List.map_congr_left
  intro p hp
  by_cases hk : p.1 = k
  · simp only [Function.comp, if_pos hk]
    rw [hv, hs p hp hk]
  · simp only [Function.comp, if_neg hk]

theorem lookupState_dsUpdate_ne {ds : List (String × DocState)}
    {k k' : String} {v : DocState} (h : ¬ k' = k) :
    lookupState (dsUpdate ds k v) k' = lookupState ds k' := by
  induction ds with
  | nil => rfl
  | cons p rest ih =>
    unfold dsUpdate at *
    rw [List.map_cons]
    unfold lookupState
    by_cases hk : p.1 = k
    · rw [if_pos hk]
      rw [List.find?_cons_of_neg _ (by
        simp only [decide_eq_true_eq]
        intro hc
        exact h (hc.symm.trans hk))]
      rw [List.find?_cons_of_neg _ (by
        simp only [decide_eq_true_eq]
        intro hc
        exact h (hc.symm.trans hk))]
      exact ih
    · rw [if_neg hk]
      by_cases hk' : p.1 = k'
      · rw [List.find?_cons_of_pos _ (by simpa using hk'),
          List.find?_cons_of_pos _ (by simpa using hk')]
      · rw [List.find?_cons_of_neg _ (by simpa using hk'),
          List.find?_cons_of_neg _ (by simpa using hk')]
        exact ih

theorem lookupState_dsUpdate_self {ds : List (String × DocState)}
    {k : String} {s : DocState} (v : DocState)
    (h : lookupState ds k = some s) :
    lookupState (dsUpdate ds k v) k = some v := by
  induction ds with
  | nil => simp [lookupState] at h
  | cons p rest ih =>
    unfold dsUpdate at *
    rw [List.map_cons]
    unfold lookupState at h ⊢
    by_cases hk : p.1 = k
    · rw [if_pos hk]
      rw [List.find?_cons_of_pos _ (by simpa using hk)]
      rfl
    · rw [if_neg hk]
      rw [List.find?_cons_of_neg _ (by simpa using hk)] at h
      rw [List.find?_cons_of_neg _ (by simpa using hk)]
      exact ih h


theorem lookup_unique {ds : List (String × DocState)}
    (hnd : (ds.map Prod.fst).Nodup) {k : String} {s : DocState}
    (h : lookupState ds k = some s) :
    ∀ p ∈ ds, p.1 = k → p.2 = s := by
  intro p hp hk
  have hks : (k, s) ∈ ds := lookupState_mem h
  have := List.inj_on_of_nodup_map hnd hp hks (show p.1 = (k, s).1 by rw [hk])
  rw [this]

/-- Behaviour of the ready loop: surviving registrations keep their
identity and gain at most one inserted count per batch item of their doc
id, and every newly returned ready pair comes from a registration whose
expected count is covered by its pre-loop inserted count plus its items
in the batch. -/
theorem readyLoop_spec :
    ∀ (items : List PendItem) (ds : List (String × DocState))
      (acc : List (Nat × DocWork)),
    (ds.map Prod.fst).Nodup →
    (∀ i ∈ items, ∀ s, lookupState ds i.work.doc_id = some s →
      s.regId = i.regId ∧ s.work = i.work) →
    (((readyLoop items ds acc).1.map Prod.fst).Sublist (ds.map Prod.fst)) ∧
    (((readyLoop items ds acc).1.map (fun p => p.2.regId)).Sublist
      (ds.map (fun p => p.2.regId))) ∧
    (∀ p' ∈ (readyLoop items ds acc).1, ∃ p ∈ ds, p'.1 = p.1 ∧
      p'.2.regId = p.2.regId ∧ p'.2.work = p.2.work ∧
      p'.2.inserted ≤ p.2.inserted + countId items p.1) ∧
    (∀ e ∈ (readyLoop items ds acc).2, e ∈ acc ∨ ∃ p ∈ ds,
      e.1 = p.2.regId ∧ e.2 = p.2.work ∧
      e.2.chunks.length ≤ p.2.inserted + countId items p.1) := by
  intro items
  induction items with
  | nil =>
    intro ds acc hnd _hlive
    refine ⟨List.Sublist.refl _, List.Sublist.refl _, ?_, ?_⟩
    · intro p' hp'
      exact ⟨p', hp', rfl, rfl, rfl, Nat.le_refl _⟩
    · intro e he
      exact Or.inl he
  | cons item rest ih =>
    intro ds acc hnd hlive
    rw [readyLoop]
    cases hl : lookupState ds item.work.doc_id with
    | none =>
      have hid : ∀ p ∈ ds, ¬ p.1 = item.work.doc_id :=
        lookupState_eq_none.1 hl
      obtain ⟨s1, s2, s3, s4⟩ := ih ds acc hnd
        (fun i hi s hs => hlive i (List.mem_cons_of_mem _ hi) s hs)
      refine ⟨s1, s2, ?_, ?_⟩
      · intro p' hp'
        obtain ⟨p, hp, e1, e2, e3, e4⟩ := s3 p' hp'
        exact ⟨p, hp, e1, e2, e3, by
          rwa [countId_cons_ne (fun hc => hid p hp hc.symm)]⟩
      · intro e he
        rcases s4 e he with h1 | ⟨p, hp, e1, e2, e3⟩
        · exact Or.inl h1
        · exact Or.inr ⟨p, hp, e1, e2, by
            rwa [countId_cons_ne (fun hc => hid p hp hc.symm)]⟩
    | some s =>
      obtain ⟨hreg, hwork⟩ := hlive item (List.mem_cons_self ..) s hl
      have hks : (item.work.doc_id, s) ∈ ds := lookupState_mem hl
      simp only
      split
      case isTrue hpop =>
        -- the document is popped and returned ready
        have hndE : ((dsErase ds item.work.doc_id).map Prod.fst).Nodup :=
          (dsErase_keys_sublist ds _).nodup hnd
        have hliveE : ∀ i ∈ rest, ∀ s',
            lookupState (dsErase ds item.work.doc_id) i.work.doc_id =
              some s' → s'.regId = i.regId ∧ s'.work = i.work := by
          intro i hi s' hs'
          by_cases hk : i.work.doc_id = item.work.doc_id
          · rw [hk] at hs'
            rw [lookupState_eq_none.2
              (fun p hp => (mem_dsErase.1 hp).2)] at hs'
            exact absurd hs' (by simp)
          · rw [lookupState_erase_ne hk] at hs'
            exact hlive i (List.mem_cons_of_mem _ hi) s' hs'
        obtain ⟨s1, s2, s3, s4⟩ := ih (dsErase ds item.work.doc_id)
          (acc ++ [(s.regId, item.work)]) hndE hliveE
        refine ⟨s1.trans (dsErase_keys_sublist ds _),
          s2.trans (dsErase_regs_sublist ds _), ?_, ?_⟩
        · intro p' hp'
          obtain ⟨p, hp, e1, e2, e3, e4⟩ := s3 p' hp'
          obtain ⟨hpds, hpk⟩ := mem_dsErase.1 hp
          exact ⟨p, hpds, e1, e2, e3, by
            rwa [countId_cons_ne (fun hc => hpk hc.symm)]⟩
        · intro e he
          rcases s4 e he with h1 | ⟨p, hp, e1, e2, e3⟩
          · rcases List.mem_append.1 h1 with h2 | h2
            · exact Or.inl h2
            · rcases List.mem_singleton.1 h2 with rfl
              refine Or.inr ⟨(item.work.doc_id, s), hks, rfl, hwork.symm, ?_⟩
              have h1c : 1 ≤ countId (item :: rest) item.work.doc_id := by
                rw [countId_cons, if_pos rfl]
                exact Nat.le_add_right 1 _
              calc item.work.chunks.length ≤ s.inserted + 1 := hpop
                _ ≤ s.inserted + countId (item :: rest) item.work.doc_id :=
                    Nat.add_le_add_left h1c _
          · obtain ⟨hpds, hpk⟩ := mem_dsErase.1 hp
            exact Or.inr ⟨p, hpds, e1, e2, by
              rwa [countId_cons_ne (fun hc => hpk hc.symm)]⟩
      case isFalse hpop =>
        have hupd : ∀ p ∈ ds, p.1 = item.work.doc_id → p.2 = s :=
          lookup_unique hnd hl
        have hndU : ((dsUpdate ds item.work.doc_id
            { s with inserted := s.inserted + 1 }).map Prod.fst).Nodup := by
          rw [dsUpdate_keys]
          exact hnd
        have hliveU : ∀ i ∈ rest, ∀ s',
            lookupState (dsUpdate ds item.work.doc_id
              { s with inserted := s.inserted + 1 }) i.work.doc_id =
                some s' → s'.regId = i.regId ∧ s'.work = i.work := by
          intro i hi s' hs'
          by_cases hk : i.work.doc_id = item.work.doc_id
          · rw [hk, lookupState_dsUpdate_self _ hl] at hs'
            have hs'' : s' = { s with inserted := s.inserted + 1 } := by
              injection hs' with h1
              exact h1.symm
            obtain ⟨h1, h2⟩ := hlive i (List.mem_cons_of_mem _ hi) s
              (hk ▸ hl)
            rw [hs'']
            exact ⟨h1, h2⟩
          · rw [lookupState_dsUpdate_ne hk] at hs'
            exact hlive i (List.mem_cons_of_mem _ hi) s' hs'
        obtain ⟨s1, s2, s3, s4⟩ := ih (dsUpdate ds item.work.doc_id
          { s with inserted := s.inserted + 1 }) acc hndU hliveU
        have hkeq : (dsUpdate ds item.work.doc_id
            { s with inserted := s.inserted + 1 }).map Prod.fst =
            ds.map Prod.fst := dsUpdate_keys ..
        have hreq : (dsUpdate ds item.work.doc_id
            { s with inserted := s.inserted + 1 }).map
              (fun p => p.2.regId) = ds.map (fun p => p.2.regId) :=
          dsUpdate_regs (show ({ s with inserted := s.inserted + 1 } :
            DocState).regId = s.regId from rfl) hupd
        refine ⟨by rw [hkeq] at s1; exact s1, by rw [hreq] at s2; exact s2,
          ?_, ?_⟩
        · intro p' hp'
          obtain ⟨p, hp, e1, e2, e3, e4⟩ := s3 p' hp'
          rcases mem_dsUpdate hp with ⟨q, hq, hqk, rfl⟩ | ⟨hpds, hpk⟩
          · have hq2 : q.2 = s := hupd q hq hqk
            refine ⟨q, hq, e1, ?_, ?_, ?_⟩
            · rw [e2, hq2]
            · rw [e3, hq2]
            · calc p'.2.inserted ≤ s.inserted + 1 + countId rest q.1 := by
                    simpa using e4
                _ = q.2.inserted + countId (item :: rest) q.1 := by
                    rw [hq2, countId_cons, if_pos hqk.symm]
                    omega
          · refine ⟨p, hpds, e1, e2, e3, ?_⟩
            rwa [countId_cons_ne (fun hc => hpk hc.symm)]
        · intro e he
          rcases s4 e he with h1 | ⟨p, hp, e1, e2, e3⟩
          · exact Or.inl h1
          · rcases mem_dsUpdate hp with ⟨q, hq, hqk, rfl⟩ | ⟨hpds, hpk⟩
            · have hq2 : q.2 = s := hupd q hq hqk
              refine Or.inr ⟨q, hq, ?_, ?_, ?_⟩
              · rw [e1, hq2]
              · rw [e2, hq2]
              · calc e.2.chunks.length ≤ s.inserted + 1 + countId rest q.1 := by
                      simpa using e3
                  _ = q.2.inserted + countId (item :: rest) q.1 := by
                      rw [hq2, countId_cons, if_pos hqk.symm]
                      omega
            · refine Or.inr ⟨p, hpds, e1, e2, ?_⟩
              rwa [countId_cons_ne (fun hc => hpk hc.symm)]


theorem execute_flush_ok_spec {items : List PendItem} {st : BatcherState}
    {store : Store} {env : FlushEnv} {st1 : BatcherState} {store1 : Store}
    {ready : List (Nat × DocWork)}
    (h : execute_flush items st store env = (st1, store1, .ok ready)) :
    st1.doc_states = (readyLoop items st.doc_states []).1 ∧
    ready = (readyLoop items st.doc_states []).2 ∧
    st1.pending = st.pending ∧ st1.pending_tokens = st.pending_tokens ∧
    st1.nextReg = st.nextReg := by
  unfold execute_flush at h
  split at h
  · simp only [Prod.mk.injEq] at h
    exact absurd h.2.2 (by simp)
  · split at h
    · simp only [Prod.mk.injEq] at h
      exact absurd h.2.2 (by simp)
    · split at h
      · simp only [Prod.mk.injEq] at h
        exact absurd h.2.2 (by simp)
      · split at h
        · simp only [Prod.mk.injEq] at h
          exact absurd h.2.2 (by simp)
        · simp only [Prod.mk.injEq] at h
          obtain ⟨rfl, -, h3⟩ := h
          have hr : ready = (readyLoop items st.doc_states []).2 :=
            (Except.ok.injEq .. ▸ h3 : _ = ready).symm
          exact ⟨rfl, hr, rfl, rfl, rfl⟩

theorem mem_newItems {r : Nat} {w : DocWork} {i : PendItem}
    (h : i ∈ newItems r w) :
    i.regId = r ∧ i.work = workSnapshot w := by
  unfold newItems at h
  rcases List.mem_filterMap.1 h with ⟨c, -, hc⟩
  split at hc
  · exact absurd hc (by simp)
  · have hi : (⟨r, workSnapshot w, truncChunk c⟩ : PendItem) = i :=
      Option.some.inj hc
    rw [← hi]
    exact ⟨rfl, rfl⟩

theorem pyStripS_eq_empty_iff {s : String} :
    pyStripS s = "" ↔ pyStrip s.toList = [] := by
  constructor
  · intro h
    have := congrArg String.toList h
    simpa [pyStripS] using this
  · intro h
    show String.mk (pyStrip s.data) = ""
    rw [show pyStrip s.data = [] from h]

theorem stripS_trunc_ne {t : String} (h : ¬ pyStripS t = "") :
    ¬ pyStripS (((pyStripS t).toList.take MAX_CHARS_PER_CHUNK).asString) = "" := by
  intro hcon
  rw [pyStripS_eq_empty_iff] at hcon
  have htl : ((pyStripS t).toList.take MAX_CHARS_PER_CHUNK).asString.toList =
      (pyStripS t).toList.take MAX_CHARS_PER_CHUNK := rfl
  rw [htl] at hcon
  have hself : pyStrip (pyStripS t).toList = (pyStripS t).toList := by
    simpa [pyStripS] using pyStrip_idem t.toList
  have hne : (pyStripS t).toList ≠ [] := by
    intro hnil
    exact h (String.ext hnil)
  exact pyStrip_take_ne_nil hself hne (by norm_num [MAX_CHARS_PER_CHUNK]) hcon

theorem newItems_length_aux (r : Nat) (w : DocWork) : ∀ (cs : List Chunk),
    (cs.filterMap (fun c => if pyStripS c.text = "" then none
      else some (⟨r, workSnapshot w, truncChunk c⟩ : PendItem))).length =
    ((cs.map (fun c => if pyStripS c.text = "" then c else truncChunk c)).filter
      (fun c => ¬ pyStripS c.text = "")).length := by
  intro cs
  induction cs with
  | nil => rfl
  | cons c rest ih =>
    rw [List.filterMap_cons, List.map_cons, List.filter_cons]
    by_cases h : pyStripS c.text = ""
    · rw [if_pos h, if_pos h]
      rw [if_neg (by simp [h])]
      exact ih
    · rw [if_neg h, if_neg h]
      rw [if_pos (by
        have := stripS_trunc_ne h
        simp only [truncChunk]
        simpa using this)]
      simp only [List.length_cons, ih]

theorem newItems_length (r : Nat) (w : DocWork) :
    (newItems r w).length = nonWsCount (workSnapshot w) :=
  newItems_length_aux r w w.chunks


/-- The run invariant tying the batcher state to the log of durably
upserted items (`ups`) and of emitted ready events (`readies`). -/
structure BInv (st : BatcherState) (ups : List PendItem)
    (readies : List (Nat × DocWork × List PendItem)) : Prop where
  keysNodup : (st.doc_states.map Prod.fst).Nodup
  regsNodup : (st.doc_states.map (fun p => p.2.regId)).Nodup
  keyIsId : ∀ p ∈ st.doc_states, p.1 = p.2.work.doc_id
  insertedLe : ∀ p ∈ st.doc_states, p.2.inserted ≤ countR ups p.2.regId
  conserved : ∀ p ∈ st.doc_states,
    countR ups p.2.regId + countR st.pending p.2.regId =
      nonWsCount p.2.work
  pendLive : ∀ i ∈ st.pending, ∃ s,
    lookupState st.doc_states i.work.doc_id = some s ∧
    s.regId = i.regId ∧ s.work = i.work
  regBoundDs : ∀ p ∈ st.doc_states, p.2.regId < st.nextReg
  regBoundPend : ∀ i ∈ st.pending, i.regId < st.nextReg
  regBoundUps : ∀ i ∈ ups, i.regId < st.nextReg
  upsWork : ∀ i ∈ ups, ∀ p ∈ st.doc_states,
    i.regId = p.2.regId → i.work = p.2.work
  readyOK : ∀ e ∈ readies, e.2.1.chunks.length ≤ countR e.2.2 e.1 ∧
    countR e.2.2 e.1 = nonWsCount e.2.1 ∧
    (∀ i ∈ e.2.2, i.regId = e.1 → i.work = e.2.1) ∧
    List.IsPrefix e.2.2 ups

theorem pendLive_cond {st : BatcherState} {ups : List PendItem}
    {readies : List (Nat × DocWork × List PendItem)}
    (hinv : BInv st ups readies) :
    ∀ i ∈ st.pending, ∀ s, lookupState st.doc_states i.work.doc_id = some s →
      s.regId = i.regId ∧ s.work = i.work := by
  intro i hi s hs
  obtain ⟨s0, hs0, h1, h2⟩ := hinv.pendLive i hi
  rw [hs0] at hs
  obtain rfl := Option.some.inj hs
  exact ⟨h1, h2⟩

/-- For a registered entry, the batch items of its doc id are exactly the
items of its registration. -/
theorem countId_eq_countR {st : BatcherState} {ups : List PendItem}
    {readies : List (Nat × DocWork × List PendItem)}
    (hinv : BInv st ups readies) {p : String × DocState}
    (hp : p ∈ st.doc_states) :
    countId st.pending p.1 = countR st.pending p.2.regId := by
  unfold countId countR
  rw [List.filter_congr]
  intro i hi
  simp only [decide_eq_decide]
  obtain ⟨s, hs, hreg, -⟩ := hinv.pendLive i hi
  constructor
  · intro hk
    have hmem : (i.work.doc_id, s) ∈ st.doc_states := lookupState_mem hs
    have := lookup_unique hinv.keysNodup hs p hp hk.symm
    rw [← hreg, this]
  · intro hr
    have hmem : (i.work.doc_id, s) ∈ st.doc_states := lookupState_mem hs
    have heq := List.inj_on_of_nodup_map hinv.regsNodup hmem hp
      (show (i.work.doc_id, s).2.regId = p.2.regId by rw [hreg, hr])
    have := congrArg Prod.fst heq
    simpa using this

/-- Items of a registration in the batch carry the registered work. -/
theorem pend_work_of_reg {st : BatcherState} {ups : List PendItem}
    {readies : List (Nat × DocWork × List PendItem)}
    (hinv : BInv st ups readies) {p : String × DocState}
    (hp : p ∈ st.doc_states) :
    ∀ i ∈ st.pending, i.regId = p.2.regId → i.work = p.2.work := by
  intro i hi hr
  obtain ⟨s, hs, hreg, hwork⟩ := hinv.pendLive i hi
  have hmem : (i.work.doc_id, s) ∈ st.doc_states := lookupState_mem hs
  have heq := List.inj_on_of_nodup_map hinv.regsNodup hmem hp
    (show (i.work.doc_id, s).2.regId = p.2.regId by rw [hreg, hr])
  have hsp : s = p.2 := congrArg Prod.snd heq
  rw [← hwork, hsp]

theorem flush_pending_inv_error {st : BatcherState} {store : Store}
    {env : FlushEnv} {st' : BatcherState} {store' : Store}
    {docs : List DocWork} {ups : List PendItem}
    {readies : List (Nat × DocWork × List PendItem)}
    (hinv : BInv st ups readies)
    (h : flush_pending st store env = (st', store', .error docs)) :
    BInv st' ups readies := by
  unfold flush_pending at h
  split at h
  · simp only [Prod.mk.injEq] at h
    exact absurd h.2.2 (by simp)
  · split at h
    case _ st1 store1 ready heq =>
      simp only [Prod.mk.injEq] at h
      exact absurd h.2.2 (by simp)
    case _ st1 store1 e heq =>
      simp only [Prod.mk.injEq] at h
      obtain ⟨rfl, rfl, -⟩ := h
      obtain ⟨-, hp, ht, hds, hn⟩ := execute_flush_error_spec heq
      have hpend : ({ st1 with
          pending := st.pending ++ st1.pending
          pending_tokens := st1.pending_tokens + st.pending_tokens } :
            BatcherState).pending = st.pending := by
        show st.pending ++ st1.pending = st.pending
        rw [hp]
        exact List.append_nil _
      constructor
      · show ((st1.doc_states).map Prod.fst).Nodup
        rw [hds]
        exact hinv.keysNodup
      · show ((st1.doc_states).map _).Nodup
        rw [hds]
        exact hinv.regsNodup
      · show ∀ p ∈ st1.doc_states, _
        rw [hds]
        exact hinv.keyIsId
      · show ∀ p ∈ st1.doc_states, _
        rw [hds]
        exact hinv.insertedLe
      · intro p hpmem
        rw [hpend]
        refine hinv.conserved p ?_
        rwa [hds] at hpmem
      · intro i hi
        rw [hpend] at hi
        obtain ⟨s, hs, h1, h2⟩ := hinv.pendLive i hi
        exact ⟨s, by rwa [hds], h1, h2⟩
      · show ∀ p ∈ st1.doc_states, p.2.regId < st1.nextReg
        rw [hds, hn]
        exact hinv.regBoundDs
      · show ∀ i ∈ st.pending ++ st1.pending, i.regId < st1.nextReg
        rw [hp, List.append_nil, hn]
        exact hinv.regBoundPend
      · show ∀ i ∈ ups, i.regId < st1.nextReg
        rw [hn]
        exact hinv.regBoundUps
      · show ∀ i ∈ ups, ∀ p ∈ st1.doc_states, _
        rw [hds]
        exact hinv.upsWork
      · exact hinv.readyOK


theorem flush_pending_inv_ok {st : BatcherState} {store : Store}
    {env : FlushEnv} {st' : BatcherState} {store' : Store}
    {ready : List (Nat × DocWork)} {flushed : List PendItem}
    {ups : List PendItem}
    {readies : List (Nat × DocWork × List PendItem)}
    (hinv : BInv st ups readies)
    (h : flush_pending st store env = (st', store', .ok (ready, flushed))) :
    BInv st' (ups ++ flushed)
      (readies ++ ready.map (fun p => (p.1, p.2, ups ++ flushed))) := by
  unfold flush_pending at h
  split at h
  case isTrue hemp =>
    simp only [Prod.mk.injEq] at h
    obtain ⟨rfl, -, h3⟩ := h
    obtain ⟨h4, h5⟩ := Prod.mk.injEq .. ▸ Except.ok.inj h3
    rw [← h4, ← h5, List.append_nil, List.map_nil, List.append_nil]
    exact hinv
  case isFalse hemp =>
    split at h
    case _ st1 store1 ready0 heq =>
      simp only [Prod.mk.injEq] at h
      obtain ⟨rfl, rfl, h3⟩ := h
      obtain ⟨h4, h5⟩ := Prod.mk.injEq .. ▸ Except.ok.inj h3
      obtain ⟨hds, hr0, hp, ht, hn⟩ := execute_flush_ok_spec heq
      subst h4 h5
      -- the loop ran on the full pending queue over the old doc states
      obtain ⟨sub1, sub2, surv, rdy⟩ := readyLoop_spec st.pending
        st.doc_states [] hinv.keysNodup (pendLive_cond hinv)
      have hpend1 : st1.pending = [] := hp
      have hnext1 : st1.nextReg = st.nextReg := hn
      -- facts shared by several fields
      have hcnt : ∀ p ∈ st.doc_states,
          countR (ups ++ st.pending) p.2.regId = nonWsCount p.2.work := by
        intro p hp2
        rw [countR_append]
        exact hinv.conserved p hp2
      have hworks : ∀ i ∈ ups ++ st.pending, ∀ p ∈ st.doc_states,
          i.regId = p.2.regId → i.work = p.2.work := by
        intro i hi p hp2 hr
        rcases List.mem_append.1 hi with h1 | h1
        · exact hinv.upsWork i h1 p hp2 hr
        · exact pend_work_of_reg hinv hp2 i h1 hr
      constructor
      · rw [hds]
        exact (sub1.nodup hinv.keysNodup)
      · rw [hds]
        exact (sub2.nodup hinv.regsNodup)
      · intro p' hp'
        rw [hds] at hp'
        obtain ⟨p, hp2, e1, e2, e3, -⟩ := surv p' hp'
        rw [e1, e3]
        exact hinv.keyIsId p hp2
      · intro p' hp'
        rw [hds] at hp'
        obtain ⟨p, hp2, e1, e2, e3, e4⟩ := surv p' hp'
        rw [e2, countR_append]
        calc p'.2.inserted ≤ p.2.inserted + countId st.pending p.1 := e4
          _ ≤ countR ups p.2.regId + countR st.pending p.2.regId :=
              Nat.add_le_add (hinv.insertedLe p hp2)
                (Nat.le_of_eq (countId_eq_countR hinv hp2))
      · intro p' hp'
        rw [hpend1]
        rw [hds] at hp'
        obtain ⟨p, hp2, e1, e2, e3, -⟩ := surv p' hp'
        rw [e2, e3]
        have : countR ([] : List PendItem) p.2.regId = 0 := rfl
        rw [this, Nat.add_zero]
        exact hcnt p hp2
      · intro i hi
        rw [hpend1] at hi
        exact absurd hi (List.not_mem_nil i)
      · intro p' hp'
        rw [hnext1]
        rw [hds] at hp'
        obtain ⟨p, hp2, -, e2, -, -⟩ := surv p' hp'
        rw [e2]
        exact hinv.regBoundDs p hp2
      · intro i hi
        rw [hpend1] at hi
        exact absurd hi (List.not_mem_nil i)
      · intro i hi
        rw [hnext1]
        rcases List.mem_append.1 hi with h1 | h1
        · exact hinv.regBoundUps i h1
        · exact hinv.regBoundPend i h1
      · intro i hi p' hp' hr
        rw [hds] at hp'
        obtain ⟨p, hp2, -, e2, e3, -⟩ := surv p' hp'
        rw [e3]
        exact hworks i hi p hp2 (e2 ▸ hr)
      · intro e he
        rcases List.mem_append.1 he with h1 | h1
        · obtain ⟨c1, c2, c3, c4⟩ := hinv.readyOK e h1
          exact ⟨c1, c2, c3, c4.trans (List.prefix_append ups st.pending)⟩
        · rcases List.mem_map.1 h1 with ⟨q, hq, rfl⟩
          rw [hr0] at hq
          rcases rdy q hq with h2 | ⟨p, hp2, e1, e2, e3⟩
          · exact absurd h2 (List.not_mem_nil q)
          · simp only
            have hcnteq : countR (ups ++ st.pending) q.1 =
                nonWsCount q.2 := by
              rw [e1, e2]
              exact hcnt p hp2
            refine ⟨?_, hcnteq, ?_, List.prefix_refl _⟩
            · calc q.2.chunks.length ≤ p.2.inserted + countId st.pending p.1 :=
                    e3
                _ ≤ countR ups p.2.regId + countR st.pending p.2.regId :=
                    Nat.add_le_add (hinv.insertedLe p hp2)
                      (Nat.le_of_eq (countId_eq_countR hinv hp2))
                _ = countR (ups ++ st.pending) q.1 := by
                    rw [countR_append, e1]
            · intro i hi hr
              rw [e2]
              exact hworks i hi p hp2 (e1 ▸ hr)
    case _ st1 store1 e heq =>
      simp only [Prod.mk.injEq] at h
      exact absurd h.2.2 (by simp)


/-- Registering a fresh document preserves the invariant. -/
theorem enqueue_register_inv {st : BatcherState} {w : DocWork}
    {ups : List PendItem} {readies : List (Nat × DocWork × List PendItem)}
    (hinv : BInv st ups readies)
    (hdup : lookupState st.doc_states w.doc_id = none) :
    BInv { st with
      doc_states := st.doc_states ++ [(w.doc_id, ⟨st.nextReg, workSnapshot w, 0⟩)]
      pending := st.pending ++ newItems st.nextReg w
      pending_tokens := st.pending_tokens + itemsTokens (newItems st.nextReg w)
      nextReg := st.nextReg + 1 } ups readies := by
  have hfresh : ∀ p ∈ st.doc_states, ¬ p.1 = w.doc_id :=
    lookupState_eq_none.1 hdup
  have hnewmem : ∀ i ∈ newItems st.nextReg w,
      i.regId = st.nextReg ∧ i.work = workSnapshot w :=
    fun i hi => mem_newItems hi
  constructor
  · show ((st.doc_states ++
      [(w.doc_id, (⟨st.nextReg, workSnapshot w, 0⟩ : DocState))]).map
        Prod.fst).Nodup
    rw [List.map_append, List.nodup_append]
    refine ⟨hinv.keysNodup, List.nodup_singleton _, ?_⟩
    intro k hk hk2
    rcases List.mem_map.1 hk with ⟨p, hp, rfl⟩
    have hpk : p.1 = w.doc_id := by simpa using hk2
    exact hfresh p hp hpk
  · show ((st.doc_states ++
      [(w.doc_id, (⟨st.nextReg, workSnapshot w, 0⟩ : DocState))]).map
        (fun p => p.2.regId)).Nodup
    rw [List.map_append, List.nodup_append]
    refine ⟨hinv.regsNodup, List.nodup_singleton _, ?_⟩
    intro r hr hr2
    rcases List.mem_map.1 hr with ⟨p, hp, rfl⟩
    have hpr : p.2.regId = st.nextReg := by simpa using hr2
    have := hinv.regBoundDs p hp
    omega
  · intro p hp
    rcases List.mem_append.1 hp with h1 | h1
    · exact hinv.keyIsId p h1
    · rcases List.mem_singleton.1 h1 with rfl
      rfl
  · intro p hp
    rcases List.mem_append.1 hp with h1 | h1
    · exact hinv.insertedLe p h1
    · rcases List.mem_singleton.1 h1 with rfl
      exact Nat.zero_le _
  · intro p hp
    rcases List.mem_append.1 hp with h1 | h1
    · show countR ups p.2.regId +
        countR (st.pending ++ newItems st.nextReg w) p.2.regId = _
      rw [countR_append]
      have hz : countR (newItems st.nextReg w) p.2.regId = 0 :=
        countR_eq_zero (fun i hi => by
          rw [(hnewmem i hi).1]
          have := hinv.regBoundDs p h1
          omega)
      rw [hz, Nat.add_zero]
      exact hinv.conserved p h1
    · rcases List.mem_singleton.1 h1 with rfl
      show countR ups st.nextReg +
        countR (st.pending ++ newItems st.nextReg w) st.nextReg =
        nonWsCount (workSnapshot w)
      rw [countR_append]
      have hz1 : countR ups st.nextReg = 0 :=
        countR_eq_zero (fun i hi => by
          have := hinv.regBoundUps i hi
          omega)
      have hz2 : countR st.pending st.nextReg = 0 :=
        countR_eq_zero (fun i hi => by
          have := hinv.regBoundPend i hi
          omega)
      have hall : countR (newItems st.nextReg w) st.nextReg =
          (newItems st.nextReg w).length :=
        countR_all (fun i hi => (hnewmem i hi).1)
      rw [hz1, hz2, hall, newItems_length]
      omega
  · intro i hi
    rcases List.mem_append.1 hi with h1 | h1
    · obtain ⟨s, hs, e1, e2⟩ := hinv.pendLive i h1
      exact ⟨s, lookupState_append_left hs, e1, e2⟩
    · obtain ⟨e1, e2⟩ := hnewmem i h1
      refine ⟨⟨st.nextReg, workSnapshot w, 0⟩, ?_, e1.symm, e2.symm⟩
      have hid : i.work.doc_id = w.doc_id := by rw [e2]; rfl
      show lookupState (st.doc_states ++
        [(w.doc_id, (⟨st.nextReg, workSnapshot w, 0⟩ : DocState))])
          i.work.doc_id = _
      rw [hid, lookupState_append_right hdup]
      simp [lookupState]
  · intro p hp
    show p.2.regId < st.nextReg + 1
    rcases List.mem_append.1 hp with h1 | h1
    · have := hinv.regBoundDs p h1
      omega
    · rcases List.mem_singleton.1 h1 with rfl
      show st.nextReg < st.nextReg + 1
      omega
  · intro i hi
    show i.regId < st.nextReg + 1
    rcases List.mem_append.1 hi with h1 | h1
    · have := hinv.regBoundPend i h1
      omega
    · rw [(hnewmem i h1).1]
      omega
  · intro i hi
    show i.regId < st.nextReg + 1
    have := hinv.regBoundUps i hi
    omega
  · intro i hi p hp hr
    rcases List.mem_append.1 hp with h1 | h1
    · exact hinv.upsWork i hi p h1 hr
    · rcases List.mem_singleton.1 h1 with rfl
      have h2 := hinv.regBoundUps i hi
      have h3 : i.regId = st.nextReg := hr
      omega
  · exact hinv.readyOK

theorem maybe_flush_inv {st : BatcherState} {store : Store} {env : FlushEnv}
    {st' : BatcherState} {store' : Store}
    {res : Except (List DocWork) (List (Nat × DocWork) × List PendItem)}
    {ups : List PendItem} {readies : List (Nat × DocWork × List PendItem)}
    (hinv : BInv st ups readies)
    (h : maybe_flush st store env = (st', store', res)) :
    (∀ docs, res = .error docs → BInv st' ups readies) ∧
    (∀ ready flushed, res = .ok (ready, flushed) →
      BInv st' (ups ++ flushed)
        (readies ++ ready.map (fun p => (p.1, p.2, ups ++ flushed)))) := by
  unfold maybe_flush at h
  split at h
  · constructor
    · intro docs hres
      rw [hres] at h
      exact flush_pending_inv_error hinv h
    · intro ready flushed hres
      rw [hres] at h
      exact flush_pending_inv_ok hinv h
  · simp only [Prod.mk.injEq] at h
    obtain ⟨rfl, rfl, h3⟩ := h
    constructor
    · intro docs hres
      rw [hres] at h3
      exact absurd h3 (by simp)
    · intro ready flushed hres
      rw [hres] at h3
      obtain ⟨h4, h5⟩ := Prod.mk.injEq .. ▸ Except.ok.inj h3
      rw [← h4, ← h5, List.append_nil, List.map_nil, List.append_nil]
      exact hinv

theorem enqueue_doc_inv {st : BatcherState} {store : Store} {env : FlushEnv}
    {w : DocWork} {st' : BatcherState} {store' : Store}
    {res : Except BErr (List (Nat × DocWork) × List PendItem)}
    {ups : List PendItem} {readies : List (Nat × DocWork × List PendItem)}
    (hinv : BInv st ups readies)
    (h : enqueue_doc st store env w = (st', store', res)) :
    (∀ e, res = .error e → BInv st' ups readies) ∧
    (∀ ready flushed, res = .ok (ready, flushed) →
      BInv st' (ups ++ flushed)
        (readies ++ ready.map (fun p => (p.1, p.2, ups ++ flushed)))) := by
  unfold enqueue_doc at h
  split at h
  · simp only [Prod.mk.injEq] at h
    obtain ⟨rfl, rfl, h3⟩ := h
    exact ⟨fun e hres => hinv, fun ready flushed hres => by
      rw [hres] at h3
      exact absurd h3 (by simp)⟩
  · split at h
    case _ hdup =>
      simp only [Prod.mk.injEq] at h
      obtain ⟨rfl, rfl, h3⟩ := h
      exact ⟨fun e hres => hinv, fun ready flushed hres => by
        rw [hres] at h3
        exact absurd h3 (by simp)⟩
    case _ hdup =>
      have hnone : lookupState st.doc_states w.doc_id = none := by
        cases hl : lookupState st.doc_states w.doc_id with
        | none => rfl
        | some s => exact absurd (by rw [hl]; rfl) hdup
      have hreg := enqueue_register_inv hinv hnone
      split at h
      case _ st2 store2 out heq =>
        simp only [Prod.mk.injEq] at h
        obtain ⟨rfl, rfl, h3⟩ := h
        obtain ⟨-, hok⟩ := maybe_flush_inv hreg heq
        refine ⟨fun e hres => by
          rw [hres] at h3
          exact absurd h3 (by simp), ?_⟩
        intro ready flushed hres
        rw [hres] at h3
        obtain rfl := Except.ok.inj h3
        exact hok ready flushed rfl
      case _ st2 store2 docs heq =>
        simp only [Prod.mk.injEq] at h
        obtain ⟨rfl, rfl, h3⟩ := h
        obtain ⟨herr, -⟩ := maybe_flush_inv hreg heq
        refine ⟨?_, fun ready flushed hres => by
          rw [hres] at h3
          exact absurd h3 (by simp)⟩
        intro e hres
        exact herr docs rfl


def RunInv (rs : RunState) : Prop :=
  BInv rs.st rs.upserts rs.readies

theorem runStep_inv {rs : RunState} (op : BOp) (hinv : RunInv rs) :
    RunInv (runStep rs op) := by
  unfold runStep
  cases op with
  | enq w env =>
    dsimp only
    split
    case _ st' store' ready flushed heq =>
      exact (enqueue_doc_inv hinv heq).2 ready flushed rfl
    case _ st' store' e heq =>
      exact (enqueue_doc_inv hinv heq).1 e rfl
  | flush force env =>
    dsimp only
    split
    case _ st' store' ready flushed heq =>
      unfold batcher_flush at heq
      split at heq
      · simp only [Prod.mk.injEq] at heq
        obtain ⟨rfl, rfl, h3⟩ := heq
        obtain ⟨h4, h5⟩ := Prod.mk.injEq .. ▸ Except.ok.inj h3
        show BInv _ _ _
        rw [← h4, ← h5, List.append_nil, List.map_nil, List.append_nil]
        exact hinv
      · exact flush_pending_inv_ok hinv heq
    case _ st' store' e heq =>
      unfold batcher_flush at heq
      split at heq
      · simp only [Prod.mk.injEq] at heq
        exact absurd heq.2.2 (by simp)
      · exact flush_pending_inv_error hinv heq

theorem runBatcher_inv (mbs mtok : Nat) (store0 : Store) (ops : List BOp) :
    RunInv (runBatcher mbs mtok store0 ops) := by
  have hstep : ∀ (l : List BOp) (rs : RunState), RunInv rs →
      RunInv (l.foldl runStep rs) := by
    intro l
    induction l with
    | nil => intro rs h; exact h
    | cons op rest ih =>
      intro rs h
      exact ih _ (runStep_inv op h)
  apply hstep
  constructor <;> simp [emptyBatcher]


/-- **C2**.  A document is returned for finalization only once all of its
chunks are durably stored: whenever a run of the batcher emits a work
unit `w` of registration `r` as ready, the upsert log at that moment
already contains at least `len(w.chunks)` (the expected count) items of
that registration, all carrying `w`, and that log is a prefix of the
final upsert log (a later failed flush cannot retract it).  Ready events
are emitted only by successful flushes, and the orchestrator finalizes
(stale-id deletion and metadata upsert) exactly the works returned
ready. -/
theorem doc_finalized_only_after_commit (mbs mtok : Nat) (store0 : Store)
    (ops : List BOp) (r : Nat) (w : DocWork) (pre : List PendItem)
    (h : (r, w, pre) ∈ (runBatcher mbs mtok store0 ops).readies) :
    w.chunks.length ≤ countR pre r ∧
    (∀ i ∈ pre, i.regId = r → i.work = w) ∧
    List.IsPrefix pre (runBatcher mbs mtok store0 ops).upserts := by
  obtain ⟨c1, c2, c3, c4⟩ :=
    (runBatcher_inv mbs mtok store0 ops).readyOK (r, w, pre) h
  exact ⟨c1, c3, c4⟩

def c2Env : FlushEnv := ⟨true, fun ds => .ok (ds.map (fun _ => [0])), true⟩

def c2Work : DocWork := ⟨"A", [⟨"A:0", "hello", "A"⟩], [], "h", 0⟩

theorem doc_finalized_only_after_commit_witness :
    ((0, workSnapshot c2Work,
        [(⟨0, workSnapshot c2Work, truncChunk ⟨"A:0", "hello", "A"⟩⟩ :
          PendItem)]) ∈
      (runBatcher 1 1000000 [] [.enq c2Work c2Env]).readies) ∧
    ((workSnapshot c2Work).chunks.length ≤
      countR [(⟨0, workSnapshot c2Work, truncChunk ⟨"A:0", "hello", "A"⟩⟩ :
        PendItem)] 0 ∧
    (∀ i ∈ [(⟨0, workSnapshot c2Work, truncChunk ⟨"A:0", "hello", "A"⟩⟩ :
        PendItem)], i.regId = 0 → i.work = workSnapshot c2Work) ∧
    List.IsPrefix
      [(⟨0, workSnapshot c2Work, truncChunk ⟨"A:0", "hello", "A"⟩⟩ :
        PendItem)]
      (runBatcher 1 1000000 [] [.enq c2Work c2Env]).upserts) :=
  ⟨by decide, doc_finalized_only_after_commit 1 1000000 [] _ 0 _ _ (by decide)⟩

/-- **C10**.  A whitespace-only chunk is skipped at enqueue while the
expected count still includes it, so its document can never reach its
expected inserted count: every work unit a batcher run ever returns as
ready has no empty or whitespace-only chunk, and in particular no work
unit enqueued with such a chunk (as registered, i.e. its snapshot) is
ever returned ready by any sequence of enqueue and flush calls. -/
theorem whitespace_chunk_never_ready (mbs mtok : Nat) (store0 : Store)
    (ops : List BOp) (r : Nat) (w : DocWork) (pre : List PendItem)
    (h : (r, w, pre) ∈ (runBatcher mbs mtok store0 ops).readies) :
    (∀ c ∈ w.chunks, ¬ pyStripS c.text = "") ∧
    (∀ w0 : DocWork, (∃ c ∈ w0.chunks, pyStripS c.text = "") →
      w ≠ workSnapshot w0) := by
  obtain ⟨c1, c2, -, -⟩ :=
    (runBatcher_inv mbs mtok store0 ops).readyOK (r, w, pre) h
  have hle : w.chunks.length ≤ nonWsCount w := c2 ▸ c1
  have hfl : (w.chunks.filter (fun c => ¬ pyStripS c.text = "")).length =
      w.chunks.length :=
    Nat.le_antisymm (List.length_filter_le _ _) hle
  have hfeq := List.Sublist.eq_of_length (List.filter_sublist w.chunks) hfl
  have hall : ∀ c ∈ w.chunks, ¬ pyStripS c.text = "" := by
    intro c hc
    rw [← hfeq] at hc
    simpa using (List.mem_filter.1 hc).2
  refine ⟨hall, ?_⟩
  rintro w0 ⟨c0, hc0, hws⟩ hweq
  have hmem : c0 ∈ (workSnapshot w0).chunks := by
    show c0 ∈ processedChunks w0
    unfold processedChunks
    exact List.mem_map.2 ⟨c0, hc0, by rw [if_pos hws]⟩
  rw [← hweq] at hmem
  exact hall c0 hmem hws

def c10Env : FlushEnv := ⟨true, fun ds => .ok (ds.map (fun _ => [0])), true⟩

def c10Work : DocWork := ⟨"B", [⟨"B:0", "text", "B"⟩], [], "h", 0⟩

def c10WsWork : DocWork :=
  ⟨"W", [⟨"W:0", "text", "W"⟩, ⟨"W:1", "  ", "W"⟩], [], "h", 0⟩

theorem whitespace_chunk_never_ready_witness :
    ((0, workSnapshot c10Work,
        [(⟨0, workSnapshot c10Work, truncChunk ⟨"B:0", "text", "B"⟩⟩ :
          PendItem)]) ∈
      (runBatcher 1 1000000 [] [.enq c10Work c10Env]).readies) ∧
    ((∀ c ∈ (workSnapshot c10Work).chunks, ¬ pyStripS c.text = "") ∧
    (∀ w0 : DocWork, (∃ c ∈ w0.chunks, pyStripS c.text = "") →
      workSnapshot c10Work ≠ workSnapshot w0)) ∧
    (∃ c ∈ c10WsWork.chunks, pyStripS c.text = "") :=
  ⟨by decide,
    whitespace_chunk_never_ready 1 1000000 [] [.enq c10Work c10Env] 0
      (workSnapshot c10Work)
      [(⟨0, workSnapshot c10Work, truncChunk ⟨"B:0", "text", "B"⟩⟩ :
        PendItem)] (by decide),
    by decide⟩


/-! ### Embedding retry policy (`src/app/rag/vector.py`)

`EmbErr` models the exception `_embed_once` may raise: its message
string and, at the boundary, the numeric value of the error response's
`retry-after` header (`none` stands for a missing, empty or
non-`float()`-parseable header; `float()` itself is external string
parsing).  The embedding call itself is an oracle `outcomes : Nat →
Except EmbErr _` giving each attempt's result, and `random.random()` a
jitter oracle `jitters : Nat → ℚ` with values in `[0, 1)`.  `0.6` and
`0.25` are exact in `ℚ`. -/

structure EmbErr where
  msg : String
  retryAfterHeader : Option ℚ
deriving Repr, DecidableEq

def MAX_RETRIES : Nat := 6

def BASE_BACKOFF : ℚ := 3 / 5

def containsSub (hay needle : List Char) : Bool :=
  decide (needle <:+: hay)

/-- `str.lower()` on the character list (ASCII case folding). -/
def lowerChars (s : String) : List Char :=
  s.toList.map Char.toLower

/-- `_is_rate_limit`: case-insensitive substring test on `str(err)`. -/
def is_rate_limit (e : EmbErr) : Bool :=
  let s := lowerChars e.msg
  containsSub s "rate limit".toList || containsSub s "429".toList ||
    containsSub s "rate_limit_exceeded".toList

def digitsToNat (ds : List Char) : Nat :=
  ds.foldl (fun acc c => acc * 10 + (c.toNat - 48)) 0

def isReSpace (c : Char) : Bool :=
  c = ' ' || c = '\t' || c = '\n' || c = '\x0d' ||
    c = Char.ofNat 11 || c = Char.ofNat 12

/-- One anchored attempt of the regex `try again in (\d+)\s*ms` on a
(lowercased) suffix. -/
def matchRetryAt (cs : List Char) : Option Nat :=
  if "try again in ".toList <+: cs then
    let rest := cs.drop 13
    let ds := rest.takeWhile Char.isDigit
    if ds = [] then none
    else
      let rest2 := (rest.drop ds.length).dropWhile isReSpace
      if "ms".toList <+: rest2 then some (digitsToNat ds) else none
  else none

/-- `re.search` of `_retry_after_re` (leftmost match). -/
def searchRetry : List Char → Option Nat
  | [] => none
  | c :: t =>
    match matchRetryAt (c :: t) with
    | some n => some n
    | none => searchRetry t

/-- `_parse_retry_after_seconds`: the response header when present, else
the `try again in N ms` hint from the message, in seconds. -/
def parse_retry_after_seconds (e : EmbErr) : Option ℚ :=
  match e.retryAfterHeader with
  | some q => some q
  | none =>
    match searchRetry (lowerChars e.msg) with
    | some n => some ((n : ℚ) / 1000)
    | none => none

/-- The delay `_sleep_with_jitter(attempt, retry_after_s)` sleeps for. -/
def sleep_delay (attempt : Nat) (ra : Option ℚ) (jitter : ℚ) : ℚ :=
  match ra with
  | some r =>
    if 0 < r then r else BASE_BACKOFF * 2 ^ attempt + jitter * (1 / 4)
  | none => BASE_BACKOFF * 2 ^ attempt + jitter * (1 / 4)

inductive RetryResult where
  | success (v : List (List Int)) (sleeps : List ℚ) (attemptsUsed : Nat)
  | failNonRate (e : EmbErr) (sleeps : List ℚ) (attemptsUsed : Nat)
  | exhausted (sleeps : List ℚ)
deriving Repr, DecidableEq

/-- The loop body of `_embed_with_retry`; `fuel` is the number of
remaining iterations of `for attempt in range(MAX_RETRIES)`. -/
def embed_with_retry_go (outcomes : Nat → Except EmbErr (List (List Int)))
    (jitters : Nat → ℚ) : Nat → Nat → List ℚ → RetryResult
  | 0, _, sleeps => .exhausted sleeps
  | fuel + 1, attempt, sleeps =>
    match outcomes attempt with
    | .ok v => .success v sleeps attempt
    | .error e =>
      if is_rate_limit e then
        embed_with_retry_go outcomes jitters fuel (attempt + 1)
          (sleeps ++ [sleep_delay attempt (parse_retry_after_seconds e)
            (jitters attempt)])
      else .failNonRate e sleeps attempt

def embed_with_retry (outcomes : Nat → Except EmbErr (List (List Int)))
    (jitters : Nat → ℚ) : RetryResult :=
  embed_with_retry_go outcomes jitters MAX_RETRIES 0 []

/-- The delay the loop sleeps after a failed attempt `j`. -/
def delayAt (outcomes : Nat → Except EmbErr (List (List Int)))
    (jitters : Nat → ℚ) (j : Nat) : ℚ :=
  match outcomes j with
  | .error e => sleep_delay j (parse_retry_after_seconds e) (jitters j)
  | .ok _ => 0

def rateErrAt (outcomes : Nat → Except EmbErr (List (List Int)))
    (j : Nat) : Prop :=
  ∃ e, outcomes j = .error e ∧ is_rate_limit e = true

theorem embed_with_retry_go_spec
    (outcomes : Nat → Except EmbErr (List (List Int))) (jitters : Nat → ℚ) :
    ∀ (fuel attempt : Nat) (sleeps : List ℚ),
    match embed_with_retry_go outcomes jitters fuel attempt sleeps with
    | .success v sl k => attempt ≤ k ∧ k < attempt + fuel ∧
        outcomes k = .ok v ∧
        sl = sleeps ++ (List.range' attempt (k - attempt)).map
          (delayAt outcomes jitters) ∧
        ∀ j, attempt ≤ j → j < k → rateErrAt outcomes j
    | .failNonRate e sl k => attempt ≤ k ∧ k < attempt + fuel ∧
        outcomes k = .error e ∧ is_rate_limit e = false ∧
        sl = sleeps ++ (List.range' attempt (k - attempt)).map
          (delayAt outcomes jitters) ∧
        ∀ j, attempt ≤ j → j < k → rateErrAt outcomes j
    | .exhausted sl =>
        sl = sleeps ++ (List.range' attempt fuel).map
          (delayAt outcomes jitters) ∧
        ∀ j, attempt ≤ j → j < attempt + fuel → rateErrAt outcomes j := by
  intro fuel
  induction fuel with
  | zero =>
    intro attempt sleeps
    refine ⟨by simp, ?_⟩
    intro j h1 h2
    omega
  | succ f ih =>
    intro attempt sleeps
    rw [embed_with_retry_go]
    cases houtcome : outcomes attempt with
    | ok v =>
      dsimp only
      refine ⟨Nat.le_refl _, by omega, houtcome, by simp, ?_⟩
      intro j h1 h2
      omega
    | error e =>
      dsimp only
      by_cases hrl : is_rate_limit e
      · rw [if_pos hrl]
        have H := ih (attempt + 1) (sleeps ++
          [sleep_delay attempt (parse_retry_after_seconds e) (jitters attempt)])
        have hd : sleep_delay attempt (parse_retry_after_seconds e)
            (jitters attempt) = delayAt outcomes jitters attempt := by
          unfold delayAt
          rw [houtcome]
        have hstep : ∀ k, attempt + 1 ≤ k →
            sleeps ++ [sleep_delay attempt (parse_retry_after_seconds e)
              (jitters attempt)] ++
              (List.range' (attempt + 1) (k - (attempt + 1))).map
                (delayAt outcomes jitters) =
            sleeps ++ (List.range' attempt (k - attempt)).map
              (delayAt outcomes jitters) := by
          intro k hk
          rw [show k - attempt = (k - (attempt + 1)) + 1 by omega]
          rw [List.range'_succ]
          rw [List.map_cons, ← hd]
          simp [List.append_assoc]
        have hrange : sleeps ++ [sleep_delay attempt
              (parse_retry_after_seconds e) (jitters attempt)] ++
            (List.range' (attempt + 1) f).map (delayAt outcomes jitters) =
            sleeps ++ (List.range' attempt (f + 1)).map
              (delayAt outcomes jitters) := by
          rw [List.range'_succ, List.map_cons, ← hd]
          simp [List.append_assoc]
        cases hr : embed_with_retry_go outcomes jitters f (attempt + 1)
            (sleeps ++ [sleep_delay attempt (parse_retry_after_seconds e)
              (jitters attempt)]) with
        | success v sl k =>
          rw [hr] at H
          obtain ⟨a1, a2, a3, a4, a5⟩ := H
          refine ⟨by omega, by omega, a3, ?_, ?_⟩
          · rw [a4, hstep k a1]
          · intro j h1 h2
            rcases Nat.eq_or_lt_of_le h1 with rfl | h3
            · exact ⟨e, houtcome, hrl⟩
            · exact a5 j h3 h2
        | failNonRate e2 sl k =>
          rw [hr] at H
          obtain ⟨a1, a2, a3, a4, a5, a6⟩ := H
          refine ⟨by omega, by omega, a3, a4, ?_, ?_⟩
          · rw [a5, hstep k a1]
          · intro j h1 h2
            rcases Nat.eq_or_lt_of_le h1 with rfl | h3
            · exact ⟨e, houtcome, hrl⟩
            · exact a6 j h3 h2
        | exhausted sl =>
          rw [hr] at H
          obtain ⟨a1, a2⟩ := H
          refine ⟨?_, ?_⟩
          · rw [a1, hrange]
          · intro j h1 h2
            rcases Nat.eq_or_lt_of_le h1 with rfl | h3
            · exact ⟨e, houtcome, hrl⟩
            · exact a2 j h3 (by omega)
      · rw [if_neg hrl]
        refine ⟨Nat.le_refl _, by omega, houtcome, by simpa using hrl,
          by simp, ?_⟩
        intro j h1 h2
        omega


/-- **C8**.  The embedding retry wrapper retries only on rate-limit
errors, for at most `MAX_RETRIES` attempts: a non-rate-limit error is
propagated at the attempt it occurs with no further retry; every retry
sleeps `delayAt` for that attempt, which honours a positive extracted
retry-after hint and otherwise backs off exponentially
(`BASE_BACKOFF * 2 ^ attempt`) plus jitter; and when all attempts are
rate-limited the wrapper surfaces exhaustion after exactly
`MAX_RETRIES` sleeps. -/
theorem embed_retry_policy (outcomes : Nat → Except EmbErr (List (List Int)))
    (jitters : Nat → ℚ) :
    (match embed_with_retry outcomes jitters with
     | .success v sleeps k => k < MAX_RETRIES ∧ outcomes k = .ok v ∧
        sleeps = (List.range k).map (delayAt outcomes jitters) ∧
        ∀ j < k, rateErrAt outcomes j
     | .failNonRate e sleeps k => k < MAX_RETRIES ∧ outcomes k = .error e ∧
        is_rate_limit e = false ∧
        sleeps = (List.range k).map (delayAt outcomes jitters) ∧
        ∀ j < k, rateErrAt outcomes j
     | .exhausted sleeps =>
        sleeps = (List.range MAX_RETRIES).map (delayAt outcomes jitters) ∧
        ∀ j < MAX_RETRIES, rateErrAt outcomes j) ∧
    (∀ attempt : Nat, ∀ r jit : ℚ, 0 < r →
      sleep_delay attempt (some r) jit = r) ∧
    (∀ attempt : Nat, ∀ jit : ℚ, sleep_delay attempt none jit =
      BASE_BACKOFF * 2 ^ attempt + jit * (1 / 4)) ∧
    (∀ e : EmbErr, ∀ q : ℚ, e.retryAfterHeader = some q →
      parse_retry_after_seconds e = some q) := by
  refine ⟨?_, ?_, ?_, ?_⟩
  · have H := embed_with_retry_go_spec outcomes jitters MAX_RETRIES 0 []
    unfold embed_with_retry
    cases hr : embed_with_retry_go outcomes jitters MAX_RETRIES 0 [] with
    | success v sl k =>
      rw [hr] at H
      obtain ⟨-, a2, a3, a4, a5⟩ := H
      refine ⟨by simpa using a2, a3, ?_, fun j hj => a5 j (Nat.zero_le _) hj⟩
      rw [a4]
      simp [List.range_eq_range']
    | failNonRate e sl k =>
      rw [hr] at H
      obtain ⟨-, a2, a3, a4, a5, a6⟩ := H
      refine ⟨by simpa using a2, a3, a4, ?_,
        fun j hj => a6 j (Nat.zero_le _) hj⟩
      rw [a5]
      simp [List.range_eq_range']
    | exhausted sl =>
      rw [hr] at H
      obtain ⟨a1, a2⟩ := H
      refine ⟨?_, fun j hj => a2 j (Nat.zero_le _) (by omega)⟩
      rw [a1]
      simp [List.range_eq_range']
  · intro attempt r jit h
    unfold sleep_delay
    dsimp only
    rw [if_pos h]
  · intro attempt jit
    rfl
  · intro e q h
    unfold parse_retry_after_seconds
    rw [h]

def c8Out : Nat → Except EmbErr (List (List Int)) :=
  fun n => if n = 0 then
    .error ⟨"Rate limit exceeded, try again in 500 ms", none⟩
  else .ok [[1]]

def c8Jit : Nat → ℚ := fun _ => 0

theorem embed_retry_policy_witness :
    embed_with_retry c8Out c8Jit = .success [[1]] [1 / 2] 1 ∧
    ((match embed_with_retry c8Out c8Jit with
     | .success v sleeps k => k < MAX_RETRIES ∧ c8Out k = .ok v ∧
        sleeps = (List.range k).map (delayAt c8Out c8Jit) ∧
        ∀ j < k, rateErrAt c8Out j
     | .failNonRate e sleeps k => k < MAX_RETRIES ∧ c8Out k = .error e ∧
        is_rate_limit e = false ∧
        sleeps = (List.range k).map (delayAt c8Out c8Jit) ∧
        ∀ j < k, rateErrAt c8Out j
     | .exhausted sleeps =>
        sleeps = (List.range MAX_RETRIES).map (delayAt c8Out c8Jit) ∧
        ∀ j < MAX_RETRIES, rateErrAt c8Out j) ∧
    (∀ attempt : Nat, ∀ r jit : ℚ, 0 < r →
      sleep_delay attempt (some r) jit = r) ∧
    (∀ attempt : Nat, ∀ jit : ℚ, sleep_delay attempt none jit =
      BASE_BACKOFF * 2 ^ attempt + jit * (1 / 4)) ∧
    (∀ e : EmbErr, ∀ q : ℚ, e.retryAfterHeader = some q →
      parse_retry_after_seconds e = some q)) :=
  ⟨by
    simp +decide only [embed_with_retry, MAX_RETRIES, embed_with_retry_go,
      c8Out, c8Jit, is_rate_limit, lowerChars, containsSub,
      parse_retry_after_seconds, searchRetry, matchRetryAt, digitsToNat,
      sleep_delay, isReSpace, delayAt, Char.toLower, List.map_cons,
      List.map_nil, if_true, if_false]
    rw [show List.drop 13 ['t', 'r', 'y', ' ', 'a', 'g', 'a', 'i', 'n', ' ',
      'i', 'n', ' ', '5', '0', '0', ' ', 'm', 's'] =
      ['5', '0', '0', ' ', 'm', 's'] from by decide]
    rw [show List.takeWhile Char.isDigit ['5', '0', '0', ' ', 'm', 's'] =
        ['5', '0', '0'] from by decide]
    rw [show List.foldl (fun acc c => acc * 10 + (c.toNat - 48)) 0
        ['5', '0', '0'] = 500 from by decide]
    norm_num [BASE_BACKOFF],
    embed_retry_policy c8Out c8Jit⟩


/-! ### Chunker (`src/app/rag/chunk.py`)

The embedding works on `List Char`.  `tiktoken` is absent in the modelled
environment, so `_count_tokens` is the fallback `max(1, (len(s)+3)//4)`.
The regex `\s` class is modelled by `pyWs` (Python's unicode whitespace;
`re` on `str` is unicode-aware), `_WS = [ \t\f\v]` exactly, and the code
fence by three backquote characters (`Char.ofNat 96`).  Two float
comparisons are modelled by their exact rational forms:
`btok > target_tokens * 1.1` as `11 * target < 10 * btok` and
`sum < len(p) * 0.6` as `5 * sum < 3 * len(p)` (the float and the exact
test can differ only when `10 * btok` or `5 * sum` lands exactly on the
boundary, where the rounded multiplication may fall on either side). -/

def count_tokens (s : List Char) : Nat :=
  max 1 ((s.length + 3) / 4)

/-- `re.sub(r"\n{3,}", "\n\n", text)` as in `chunk.py`, fuel-driven so the
kernel can evaluate it; `fuel ≥ cs.length` suffices (each step consumes at
least one character). -/
def subBlankLinesGo : Nat → List Char → List Char
  | 0, cs => cs
  | _ + 1, [] => []
  | fuel + 1, c :: rest =>
    if c = '\n' then
      if 3 ≤ 1 + (rest.takeWhile (fun x => x = '\n')).length then
        '\n' :: '\n' ::
          subBlankLinesGo fuel (rest.dropWhile (fun x => x = '\n'))
      else
        (c :: rest.takeWhile (fun x => x = '\n')) ++
          subBlankLinesGo fuel (rest.dropWhile (fun x => x = '\n'))
    else c :: subBlankLinesGo fuel rest

def subBlankLinesF (cs : List Char) : List Char :=
  subBlankLinesGo cs.length cs

/-- The `_WS` class `[ \t\f\v]`. -/
def cws (c : Char) : Bool :=
  c = ' ' || c = '\t' || c = Char.ofNat 12 || c = Char.ofNat 11

/-- `_WS.sub(" ", text)`: collapse every run to one space.  Fuel-driven
so the kernel can evaluate it; `fuel ≥ cs.length` suffices. -/
def subWsRunCGo : Nat → List Char → List Char
  | 0, cs => cs
  | _ + 1, [] => []
  | fuel + 1, c :: rest =>
    if cws c then ' ' :: subWsRunCGo fuel (rest.dropWhile cws)
    else c :: subWsRunCGo fuel rest

def subWsRunC (cs : List Char) : List Char :=
  subWsRunCGo cs.length cs

/-- `chunk._normalize`. -/
def chunkNormalize (cs : List Char) : List Char :=
  if cs = [] then []
  else pyStrip (subBlankLinesF (subWsRunC (subCRLF cs)))

/-- One anchored attempt of `_HDR = ^(#{1,6})\s+(.*)$` (MULTILINE) at a
line start: the length of the whole match when it succeeds.  `\s+` is
greedy, may cross newlines, and `(.*)$` then runs to the end of that
line. -/
def hdrMatch (cs : List Char) : Option Nat :=
  let hashes := cs.takeWhile (fun c => c = '#')
  if 1 ≤ hashes.length ∧ hashes.length ≤ 6 then
    let after := cs.drop hashes.length
    let ws := after.takeWhile pyWs
    if ws = [] then none
    else
      let line := (after.drop ws.length).takeWhile (fun c => ¬ c = '\n')
      some (hashes.length + ws.length + line.length)
  else none

/-- `_HDR.finditer`: scan for non-overlapping header matches, anchored at
line starts, resuming after each match.  Fuel-driven; `fuel ≥ cs.length`
suffices. -/
def findHdrs : Nat → List Char → Nat → Bool → List (Nat × Nat)
  | 0, _, _, _ => []
  | _ + 1, [], _, _ => []
  | fuel + 1, c :: t, pos, atStart =>
    if atStart then
      match hdrMatch (c :: t) with
      | some L =>
        (pos, L) :: findHdrs fuel ((c :: t).drop L) (pos + L) false
      | none => findHdrs fuel t (pos + 1) (c = '\n')
    else findHdrs fuel t (pos + 1) (c = '\n')

/-- `_split_markdown_sections`. -/
def split_markdown_sections (t : List Char) : List (List Char × List Char) :=
  if t = [] then [([], [])]
  else
    let ms := findHdrs (t.length + 1) t 0 true
    if ms = [] then [([], t)]
    else
      let rec build : List (Nat × Nat) → List (List Char × List Char)
        | [] => []
        | (s, L) :: rest =>
          let e := match rest with
            | (s2, _) :: _ => s2
            | [] => t.length
          let heading := pyStrip ((t.drop s).take L)
          let body := (((t.drop s).take (e - s)).drop
            heading.length).dropWhile (fun c => c = '\n')
          (heading, body) :: build rest
      build ms

def fenceChars : List Char := [Char.ofNat 96, Char.ofNat 96, Char.ofNat 96]

def bufHasContent (buf : List (List Char)) : Bool :=
  ¬ buf = [] && buf.any (fun s => ¬ pyStrip s = [])

/-- The line loop of `_split_paragraphs_preserving_code`:
state `(parts, buf, in_code)`. -/
def paraGo : List (List Char) →
    List (List Char) × List (List Char) × Bool →
    List (List Char) × List (List Char) × Bool
  | [], st => st
  | line :: rest, (parts, buf, in_code) =>
    if fenceChars <+: pyStrip line then
      if ¬ in_code then
        let parts' := if bufHasContent buf then
          parts ++ [pyStrip (List.intercalate ['\n'] buf)] else parts
        paraGo rest (parts', [line], true)
      else
        paraGo rest
          (parts ++ [pyStrip (List.intercalate ['\n'] (buf ++ [line]))],
            [], false)
    else if in_code then
      paraGo rest (parts, buf ++ [line], in_code)
    else if pyStrip line = [] then
      if bufHasContent buf then
        paraGo rest (parts ++ [pyStrip (List.intercalate ['\n'] buf)], [],
          in_code)
      else paraGo rest (parts, buf, in_code)
    else paraGo rest (parts, buf ++ [line], in_code)

/-- `_split_paragraphs_preserving_code`. -/
def split_paragraphs (body : List Char) : List (List Char) :=
  if body = [] then []
  else
    let out := paraGo (body.splitOn '\n') ([], [], false)
    let parts := if bufHasContent out.2.1 then
      out.1 ++ [pyStrip (List.intercalate ['\n'] out.2.1)] else out.1
    if parts = [] then [pyStrip body] else parts

def isSentPunct (c : Char) : Bool :=
  c = '.' || c = '!' || c = '?'

def isSentStart (c : Char) : Bool :=
  ('A' ≤ c && c ≤ 'Z') || ('0' ≤ c && c ≤ '9') || c = '"' ||
    c = Char.ofNat 39 || c = '(' || c = '['

/-- `_SENT_RE.split`: cut at whitespace runs preceded by sentence
punctuation and followed by a capital, digit, quote or bracket. -/
def sentGo : Nat → Char → List Char → List Char → List (List Char)
  | 0, _, cs, cur => [cur ++ cs]
  | _ + 1, _, [], cur => [cur]
  | fuel + 1, prev, c :: t, cur =>
    if isSentPunct prev ∧ pyWs c = true then
      let run := (c :: t).takeWhile pyWs
      let rest := (c :: t).drop run.length
      match rest with
      | d :: _ =>
        if isSentStart d then cur :: sentGo fuel ' ' rest []
        else sentGo fuel c t (cur ++ [c])
      | [] => sentGo fuel c t (cur ++ [c])
    else sentGo fuel c t (cur ++ [c])

def sentSplitRe (p : List Char) : List (List Char) :=
  match p with
  | [] => [[]]
  | c :: t => sentGo (t.length + 1) c t [c]

/-- `_split_sentences` (with the `0.6` fallback in exact rationals). -/
def split_sentences (p0 : List Char) : List (List Char) :=
  let p := pyStrip p0
  if p = [] then []
  else if fenceChars <+: p ∧ fenceChars <:+ p then [p]
  else
    let sents := sentSplitRe p
    if sents = [] ∨ 5 * (sents.map List.length).sum < 3 * p.length then [p]
    else (sents.map pyStrip).filter (fun s => ¬ s = [])

/-- The block list of one `(heading, body)` section: paragraph units (or
sentence units), the first one prefixed with the heading line. -/
def sectionUnitsGo (head_line : List Char) (sl : Bool) :
    List (List Char) → Bool → List (List Char)
  | [], _ => []
  | p :: rest, first =>
    let units := if sl then split_sentences p else [p]
    match units with
    | [] => sectionUnitsGo head_line sl rest first
    | u :: us =>
      if ¬ head_line = [] ∧ first then
        (head_line ++ '\n' :: u) :: us ++ sectionUnitsGo head_line sl rest false
      else (u :: us) ++ sectionUnitsGo head_line sl rest first

def sectionBlocks (hd bd : List Char) (sl : Bool) : List (List Char) :=
  sectionUnitsGo (pyStrip hd) sl (split_paragraphs bd) true

/-- State of `_pack_blocks`: emitted chunks, current group, its token
count. -/
structure PackSt where
  chunks : List (List Char)
  cur : List (List Char)
  cur_tok : Nat

/-- The reversed-walk collecting the overlap tail. -/
def tailGo (ov : Int) : List (List Char) → Int → List (List Char)
  | [], _ => []
  | p :: rest, acc =>
    if ov ≤ acc then []
    else p :: tailGo ov rest (acc + count_tokens p)

/-- `flush_with_overlap`. -/
def flushOverlap (ov : Int) (st : PackSt) : PackSt :=
  if st.cur = [] then st
  else
    let chunk := pyStrip (List.intercalate ['\n'] st.cur)
    if 0 < ov then
      let tail := (tailGo ov st.cur.reverse 0).reverse
      ⟨st.chunks ++ [chunk], tail, (tail.map count_tokens).sum⟩
    else ⟨st.chunks ++ [chunk], [], 0⟩

/-- Adding one piece to the current group, flushing first on overflow. -/
def addPiece (target ov : Int) (st : PackSt) (piece : List Char) : PackSt :=
  let ptok := count_tokens piece
  let st' := if target < st.cur_tok + (ptok : Int) ∧ ¬ st.cur = [] then
    flushOverlap ov st else st
  ⟨st'.chunks, st'.cur ++ [piece], st'.cur_tok + ptok⟩

/-- The fixed-size character windows an oversized block is cut into
(`step = max(500, len // 4)`).  Fuel-driven; `fuel ≥ cs.length`
suffices for every `step ≥ 1`. -/
def slicesGo (step : Nat) : Nat → List Char → List (List Char)
  | 0, _ => []
  | _ + 1, [] => []
  | fuel + 1, c :: t =>
    (c :: t).take step :: slicesGo step fuel (t.drop (step - 1))

def slices (step : Nat) (cs : List Char) : List (List Char) :=
  slicesGo step cs.length cs

/-- One iteration of the `for b in blocks` loop. -/
def blockStep (target ov : Int) (st : PackSt) (b : List Char) : PackSt :=
  let btok := count_tokens b
  if 11 * target < 10 * (btok : Int) then
    (slices (max 500 (b.length / 4)) b).foldl (addPiece target ov) st
  else addPiece target ov st b

/-- `_pack_blocks`. -/
def pack_blocks (blocks : List (List Char)) (target0 ov0 : Int) :
    List (List Char) :=
  let target := if target0 ≤ 0 then 300 else target0
  let ov := if ov0 < 0 then 0 else ov0
  let fin := blocks.foldl (blockStep target ov) ⟨[], [], 0⟩
  if ¬ fin.cur = [] then
    fin.chunks ++ [pyStrip (List.intercalate ['\n'] fin.cur)]
  else fin.chunks

structure ChunkRec where
  id : String
  text : List Char
  chunk_index : Nat
  n_tokens : Nat
deriving Repr, DecidableEq

/-- `chunk_text` (the metadata dict is carried as its doc id). -/
def chunk_text (text : List Char) (baseId : String) (target ov : Int)
    (sentence_level : Bool) : List ChunkRec :=
  let t := chunkNormalize text
  if t = [] then []
  else
    let sections := split_markdown_sections t
    let blocks := sections.flatMap
      (fun s => sectionBlocks s.1 s.2 sentence_level)
    let packed := pack_blocks blocks target ov
    packed.enum.map (fun p =>
      ⟨baseId ++ ":" ++ toString p.1, p.2, p.1, count_tokens p.2⟩)


/-! ### C6: heading propagation through the chunker -/

theorem dropWhile_eq_self_of_strip {g : List Char} (hg : pyStrip g = g) :
    g.dropWhile pyWs = g := by
  have h1 : (List.rdropWhile pyWs (g.dropWhile pyWs)).length ≤
      (g.dropWhile pyWs).length :=
    (List.rdropWhile_prefix _ _).length_le
  have h2 : (g.dropWhile pyWs).length ≤ g.length :=
    (List.dropWhile_suffix _).length_le
  have h3 : List.rdropWhile pyWs (g.dropWhile pyWs) = g := hg
  have h4 := congrArg List.length h3
  exact (List.dropWhile_suffix (l := g) pyWs).eq_of_length (by omega)

theorem rdropWhile_eq_self_of_strip {g : List Char} (hg : pyStrip g = g) :
    List.rdropWhile pyWs g = g := by
  have hd := dropWhile_eq_self_of_strip hg
  calc List.rdropWhile pyWs g
      = List.rdropWhile pyWs (g.dropWhile pyWs) := by rw [hd]
    _ = g := hg

theorem isInf_dropWhile {p : Char → Bool} {g S : List Char}
    (hdw : g.dropWhile p = g) (hgn : ¬ g = []) (h : g <:+: S) :
    g <:+: S.dropWhile p := by
  obtain ⟨P, Q, rfl⟩ := h
  have hgE : (g.dropWhile p).isEmpty = false := by
    rw [hdw]
    cases g with
    | nil => exact absurd rfl hgn
    | cons a t => rfl
  rw [List.append_assoc, List.dropWhile_append]
  by_cases hP : (P.dropWhile p).isEmpty = true
  · rw [if_pos hP, List.dropWhile_append, hgE]
    simp only [Bool.false_eq_true, if_false, hdw]
    exact ⟨[], Q, by simp⟩
  · rw [if_neg hP]
    exact ⟨P.dropWhile p, Q, by simp⟩

theorem isInf_pyStrip {g S : List Char} (hg : pyStrip g = g)
    (hgn : ¬ g = []) (h : g <:+: S) : g <:+: pyStrip S := by
  have h1 : g <:+: S.dropWhile pyWs :=
    isInf_dropWhile (dropWhile_eq_self_of_strip hg) hgn h
  have h2 : g.reverse <:+: (S.dropWhile pyWs).reverse :=
    List.reverse_infix.2 h1
  have hgr : g.reverse.dropWhile pyWs = g.reverse := by
    have := rdropWhile_eq_self_of_strip hg
    have h3 : (g.reverse.dropWhile pyWs).reverse = g := this
    calc g.reverse.dropWhile pyWs
        = ((g.reverse.dropWhile pyWs).reverse).reverse := by
          rw [List.reverse_reverse]
      _ = g.reverse := by rw [h3]
  have hgrn : ¬ g.reverse = [] := by
    intro hc
    exact hgn (by simpa using congrArg List.reverse hc)
  have h4 : g.reverse <:+: ((S.dropWhile pyWs).reverse).dropWhile pyWs :=
    isInf_dropWhile hgr hgrn h2
  have h5 := List.reverse_infix.2 h4
  simpa using h5

theorem isInf_of_mem_intercalate {e : List Char} {sep : List Char} :
    ∀ {l : List (List Char)}, e ∈ l → e <:+: List.intercalate sep l := by
  intro l
  induction l with
  | nil => intro h; exact absurd h (List.not_mem_nil e)
  | cons x rest ih =>
    intro h
    cases rest with
    | nil =>
      have hx : e = x := by simpa using h
      subst hx
      have hone : List.intercalate sep [e] = e := by
        simp [List.intercalate]
      rw [hone]
    | cons y t =>
      have hI : List.intercalate sep (x :: y :: t) =
          x ++ sep ++ List.intercalate sep (y :: t) := by
        simp [List.intercalate, List.intersperse_cons_cons,
          List.flatten_cons, List.append_assoc]
      rw [hI]
      rcases List.mem_cons.1 h with hx | hrest
      · subst hx
        exact ⟨[], sep ++ List.intercalate sep (y :: t), by simp⟩
      · exact (ih hrest).trans
          ⟨x ++ sep, [], by simp⟩

/-- The invariant threaded through `_pack_blocks`: `g` is an infix of an
emitted chunk or of a member of the current group. -/
def InfSt (g : List Char) (st : PackSt) : Prop :=
  (∃ c ∈ st.chunks, g <:+: c) ∨ (∃ e ∈ st.cur, g <:+: e)

theorem flushOverlap_infSt {g : List Char} (hg : pyStrip g = g)
    (hgn : ¬ g = []) {ov : Int} {st : PackSt} (h : InfSt g st) :
    InfSt g (flushOverlap ov st) := by
  unfold flushOverlap
  by_cases hcur : st.cur = []
  · rw [if_pos hcur]; exact h
  · rw [if_neg hcur]
    have hchunk : ∀ e ∈ st.cur, g <:+: e →
        g <:+: pyStrip (List.intercalate ['\n'] st.cur) := by
      intro e he hinf
      exact isInf_pyStrip hg hgn
        (hinf.trans (isInf_of_mem_intercalate he))
    rcases h with ⟨c, hc, hinf⟩ | ⟨e, he, hinf⟩
    · by_cases hov : (0 : Int) < ov
      · rw [if_pos hov]
        exact Or.inl ⟨c, List.mem_append_left _ hc, hinf⟩
      · rw [if_neg hov]
        exact Or.inl ⟨c, List.mem_append_left _ hc, hinf⟩
    · by_cases hov : (0 : Int) < ov
      · rw [if_pos hov]
        exact Or.inl ⟨_, List.mem_append_right _ (List.mem_singleton.2 rfl),
          hchunk e he hinf⟩
      · rw [if_neg hov]
        exact Or.inl ⟨_, List.mem_append_right _ (List.mem_singleton.2 rfl),
          hchunk e he hinf⟩

theorem addPiece_infSt {g : List Char} (hg : pyStrip g = g)
    (hgn : ¬ g = []) {t ov : Int} {st : PackSt} {b : List Char}
    (h : InfSt g st) : InfSt g (addPiece t ov st b) := by
  unfold addPiece
  have h' : InfSt g (if t < st.cur_tok + ((count_tokens b : Nat) : Int) ∧
      ¬ st.cur = [] then flushOverlap ov st else st) := by
    by_cases hc : t < st.cur_tok + ((count_tokens b : Nat) : Int) ∧
        ¬ st.cur = []
    · rw [if_pos hc]; exact flushOverlap_infSt hg hgn h
    · rw [if_neg hc]; exact h
  rcases h' with ⟨c, hc, hinf⟩ | ⟨e, he, hinf⟩
  · exact Or.inl ⟨c, hc, hinf⟩
  · exact Or.inr ⟨e, List.mem_append_left _ he, hinf⟩

theorem addPiece_infSt_self {g : List Char} {t ov : Int} {st : PackSt}
    {b : List Char} (hgb : g <:+: b) : InfSt g (addPiece t ov st b) := by
  unfold addPiece
  exact Or.inr ⟨b, List.mem_append_right _ (List.mem_singleton.2 rfl), hgb⟩

theorem foldl_addPiece_infSt {g : List Char} (hg : pyStrip g = g)
    (hgn : ¬ g = []) {t ov : Int} :
    ∀ (l : List (List Char)) (st : PackSt), InfSt g st →
      InfSt g (l.foldl (addPiece t ov) st) := by
  intro l
  induction l with
  | nil => intro st h; exact h
  | cons x rest ih =>
    intro st h
    exact ih _ (addPiece_infSt hg hgn h)

theorem blockStep_infSt {g : List Char} (hg : pyStrip g = g)
    (hgn : ¬ g = []) {t ov : Int} {st : PackSt} {b : List Char}
    (h : InfSt g st) : InfSt g (blockStep t ov st b) := by
  unfold blockStep
  by_cases hsz : 11 * t < 10 * ((count_tokens b : Nat) : Int)
  · rw [if_pos hsz]
    exact foldl_addPiece_infSt hg hgn _ _ h
  · rw [if_neg hsz]
    exact addPiece_infSt hg hgn h

theorem foldl_blockStep_infSt {g : List Char} (hg : pyStrip g = g)
    (hgn : ¬ g = []) {t ov : Int} :
    ∀ (l : List (List Char)) (st : PackSt), InfSt g st →
      InfSt g (l.foldl (blockStep t ov) st) := by
  intro l
  induction l with
  | nil => intro st h; exact h
  | cons x rest ih =>
    intro st h
    exact ih _ (blockStep_infSt hg hgn h)

theorem isPrefix_take {g b : List Char} {n : Nat} (h : g <+: b)
    (hn : g.length ≤ n) : g <+: b.take n := by
  obtain ⟨r, rfl⟩ := h
  exact ⟨r.take (n - g.length), by
    rw [List.take_append_eq_append_take, List.take_of_length_le hn]⟩

theorem slices_ne (step : Nat) {b : List Char} (hb : ¬ b = []) :
    ∃ rest, slices step b = b.take step :: rest := by
  cases b with
  | nil => exact absurd rfl hb
  | cons c t => exact ⟨slicesGo step t.length (t.drop (step - 1)), rfl⟩

/-- One block step keeps a stripped non-empty head part `g` of its block
reachable: a non-oversized block enters the current group intact, and an
oversized one is cut into windows of `max 500 (len / 4)` characters whose
first window still contains `g` whenever `g` fits in it. -/
theorem blockStep_infSt_self {g b : List Char} (hg : pyStrip g = g)
    (hgn : ¬ g = []) {target ov : Int} {st : PackSt} (hgb : g <+: b)
    (hcond : ¬ 11 * target < 10 * ((count_tokens b : Nat) : Int) ∨
      g.length ≤ max 500 (b.length / 4)) :
    InfSt g (blockStep target ov st b) := by
  unfold blockStep
  by_cases hsz : 11 * target < 10 * ((count_tokens b : Nat) : Int)
  · rw [if_pos hsz]
    have hlen : g.length ≤ max 500 (b.length / 4) :=
      hcond.resolve_left (fun h => h hsz)
    have hbne : ¬ b = [] := by
      intro hb
      rw [hb] at hgb
      exact hgn (List.prefix_nil.1 hgb)
    obtain ⟨rest, hsl⟩ := slices_ne (max 500 (b.length / 4)) hbne
    rw [hsl, List.foldl_cons]
    exact foldl_addPiece_infSt hg hgn _ _
      (addPiece_infSt_self (isPrefix_take hgb hlen).isInfix)
  · rw [if_neg hsz]
    exact addPiece_infSt_self hgb.isInfix

/-- Any block handed to `_pack_blocks` that is not oversized — or whose
stripped non-empty head part `g` fits in the first slicing window —
carries `g` into some emitted chunk. -/
theorem pack_blocks_carries {blocks : List (List Char)} {t o : Int}
    {g b : List Char} (hmem : b ∈ blocks) (hgb : g <+: b)
    (hg : pyStrip g = g) (hgn : ¬ g = [])
    (hcond : 10 * ((count_tokens b : Nat) : Int) ≤
        11 * (if t ≤ 0 then 300 else t) ∨
      g.length ≤ max 500 (b.length / 4)) :
    ∃ c ∈ pack_blocks blocks t o, g <:+: c := by
  obtain ⟨L1, L2, hbl⟩ := List.append_of_mem hmem
  simp only [pack_blocks]
  rw [hbl, List.foldl_append, List.foldl_cons]
  have hfin : InfSt g (L2.foldl
      (blockStep (if t ≤ 0 then 300 else t) (if o < 0 then 0 else o))
      (blockStep (if t ≤ 0 then 300 else t) (if o < 0 then 0 else o)
        (L1.foldl (blockStep (if t ≤ 0 then 300 else t)
          (if o < 0 then 0 else o)) ⟨[], [], 0⟩) b)) :=
    foldl_blockStep_infSt hg hgn _ _
      (blockStep_infSt_self hg hgn hgb
        (hcond.imp (fun h hlt => by omega) id))
  set fin := L2.foldl
      (blockStep (if t ≤ 0 then 300 else t) (if o < 0 then 0 else o))
      (blockStep (if t ≤ 0 then 300 else t) (if o < 0 then 0 else o)
        (L1.foldl (blockStep (if t ≤ 0 then 300 else t)
          (if o < 0 then 0 else o)) ⟨[], [], 0⟩) b) with hfdef
  rcases hfin with ⟨c, hc, hinf⟩ | ⟨e, he, hinf⟩
  · by_cases hcur : ¬ fin.cur = []
    · rw [if_pos hcur]
      exact ⟨c, List.mem_append_left _ hc, hinf⟩
    · rw [if_neg hcur]
      exact ⟨c, hc, hinf⟩
  · have hcur : ¬ fin.cur = [] := by
      intro hc
      rw [hc] at he
      exact List.not_mem_nil e he
    rw [if_pos hcur]
    exact ⟨pyStrip (List.intercalate ['\n'] fin.cur),
      List.mem_append_right _ (List.mem_singleton.2 rfl),
      isInf_pyStrip hg hgn (hinf.trans (isInf_of_mem_intercalate he))⟩

/-- A non-empty section block list starts with the heading-prefixed first
unit. -/
theorem sectionUnitsGo_first {hl : List Char} (hhl : ¬ hl = []) (sl : Bool) :
    ∀ paras : List (List Char),
      sectionUnitsGo hl sl paras true = [] ∨
      ∃ u rest, sectionUnitsGo hl sl paras true = (hl ++ '\n' :: u) :: rest := by
  intro paras
  induction paras with
  | nil => exact Or.inl rfl
  | cons p rest ih =>
    simp only [sectionUnitsGo]
    cases hu : (if sl then split_sentences p else [p]) with
    | nil => exact ih
    | cons u us =>
      right
      dsimp only
      rw [if_pos (show ¬ hl = [] ∧ True from ⟨hhl, trivial⟩)]
      exact ⟨u, us ++ sectionUnitsGo hl sl rest false, rfl⟩

theorem pyStrip_nil : pyStrip [] = [] := rfl

/-- **C6** (amended).  For every input text and parameters, every markdown
section heading that contributes at least one packing unit (its section
block list is non-empty) and whose heading-prefixed first unit either is
not oversized (at most 110 % of the effective token target) or carries the
heading within its first slicing window of `max 500 (len / 4)` characters,
appears as a contiguous substring in the text of at least one chunk
returned by `chunk_text` — because the section's first unit is prefixed
with its heading line, a non-oversized unit enters chunks intact, and an
oversized unit's first window still contains a heading that fits in it.
The two provisos are exactly the failure modes of the unamended claim
("every markdown section heading appears in the text of at least one
chunk"), both exhibited by `chunk_heading_dropped`: a section whose body
produces no unit loses its heading entirely, and an oversized first unit
whose heading exceeds the slicing window has the heading split across
windows, so it appears contiguously in no chunk. -/
theorem chunk_heading_in_some_chunk (text : List Char) (baseId : String)
    (t o : Int) (sl : Bool) (hd bd : List Char)
    (hsec : (hd, bd) ∈ split_markdown_sections (chunkNormalize text))
    (hhd : ¬ pyStrip hd = [])
    (hne : ¬ sectionBlocks hd bd sl = [])
    (hsize : 10 * ((count_tokens ((sectionBlocks hd bd sl).headD []) : Nat) : Int) ≤
        11 * (if t ≤ 0 then 300 else t) ∨
      (pyStrip hd).length ≤
        max 500 (((sectionBlocks hd bd sl).headD []).length / 4)) :
    ∃ c ∈ chunk_text text baseId t o sl, pyStrip hd <:+: c.text := by
  by_cases hT : chunkNormalize text = []
  · exfalso
    rw [hT] at hsec
    have : hd = [] := by
      simp only [split_markdown_sections, if_pos rfl] at hsec
      have := List.mem_singleton.1 hsec
      exact congrArg Prod.fst this
    exact hhd (by rw [this]; exact pyStrip_nil)
  · obtain ⟨u, rest, hsb⟩ :=
      (sectionUnitsGo_first hhd sl (split_paragraphs bd)).resolve_left
        (by simpa [sectionBlocks] using hne)
    have hsb' : sectionBlocks hd bd sl = (pyStrip hd ++ '\n' :: u) :: rest := by
      simpa [sectionBlocks] using hsb
    have hb0 : (sectionBlocks hd bd sl).headD [] = pyStrip hd ++ '\n' :: u := by
      rw [hsb']; rfl
    have hbmem : (pyStrip hd ++ '\n' :: u) ∈
        (split_markdown_sections (chunkNormalize text)).flatMap
          (fun s => sectionBlocks s.1 s.2 sl) := by
      refine List.mem_flatMap.2 ⟨(hd, bd), hsec, ?_⟩
      rw [hsb']
      exact List.mem_cons_self _ _
    have hgb : pyStrip hd <+: (pyStrip hd ++ '\n' :: u) := ⟨'\n' :: u, rfl⟩
    rw [hb0] at hsize
    obtain ⟨c, hcmem, hcinf⟩ :=
      pack_blocks_carries hbmem hgb (pyStrip_idem hd) hhd hsize
    unfold chunk_text
    rw [if_neg hT]
    have hmap : (((pack_blocks
        ((split_markdown_sections (chunkNormalize text)).flatMap
          (fun s => sectionBlocks s.1 s.2 sl)) t o).enum.map
        (fun p => (⟨baseId ++ ":" ++ toString p.1, p.2, p.1,
          count_tokens p.2⟩ : ChunkRec))).map ChunkRec.text) =
        pack_blocks ((split_markdown_sections (chunkNormalize text)).flatMap
          (fun s => sectionBlocks s.1 s.2 sl)) t o := by
      rw [List.map_map]
      exact List.enum_map_snd _
    have hc2 : c ∈ (((pack_blocks
        ((split_markdown_sections (chunkNormalize text)).flatMap
          (fun s => sectionBlocks s.1 s.2 sl)) t o).enum.map
        (fun p => (⟨baseId ++ ":" ++ toString p.1, p.2, p.1,
          count_tokens p.2⟩ : ChunkRec))).map ChunkRec.text) := by
      rw [hmap]; exact hcmem
    obtain ⟨r, hr, hrt⟩ := List.mem_map.1 hc2
    exact ⟨r, hr, by rw [hrt]; exact hcinf⟩

/-- A 600-character markdown heading line over a short body. -/
def longHeading : List Char := '#' :: ' ' :: List.replicate 598 'h'

def longHeadDoc : List Char := longHeading ++ '\n' :: "body".toList

set_option maxRecDepth 40000 in
/-- **C6** counterexamples for the unamended claim, one per failure mode.
(1) The input `"# Title"` yields the markdown section with heading
`"# Title"` and empty body, yet `chunk_text` returns no chunks at all: a
heading whose section body produces no unit is attached to nothing.
(2) A 600-character heading over the body `"body"` does contribute a
unit, but at token target 1 the heading-prefixed first unit is oversized
and is cut into 500-character windows, so `chunk_text` returns two chunks
and the heading, split across the two windows, appears contiguously in
neither. -/
theorem chunk_heading_dropped :
    ((("# Title".toList, ([] : List Char)) ∈
        split_markdown_sections (chunkNormalize "# Title".toList)) ∧
      chunk_text "# Title".toList "doc" 350 80 true = []) ∧
    ((longHeading, "body".toList) ∈
        split_markdown_sections (chunkNormalize longHeadDoc)) ∧
    ¬ sectionBlocks longHeading "body".toList true = [] ∧
    (chunk_text longHeadDoc "doc" 1 0 true).length = 2 ∧
    ∀ c ∈ chunk_text longHeadDoc "doc" 1 0 true, ¬ longHeading <:+: c.text := by
  refine ⟨⟨by decide, by rfl⟩, by decide, by decide, by decide, by decide⟩

/-- **C6** witness: the document `"# T\nBody."` at the default
parameters satisfies the hypotheses, and its heading `"# T"` lands in a
chunk. -/
theorem chunk_heading_in_some_chunk_witness :
    (("# T".toList, "Body.".toList) ∈
      split_markdown_sections (chunkNormalize "# T\nBody.".toList)) ∧
    ∃ c ∈ chunk_text "# T\nBody.".toList "doc" 350 80 true,
      pyStrip "# T".toList <:+: c.text :=
  ⟨by decide,
    chunk_heading_in_some_chunk "# T\nBody.".toList "doc" 350 80 true
      "# T".toList "Body.".toList (by decide) (by decide) (by decide)
      (by decide)⟩

end LCA























